import Mathlib

/-!
# Si570 synthesizer driver (`peaberry.cydsn/si570.c`)

A shallow embedding of the Si570 driver of the Peaberry SDR firmware and a
verification development over it.

Modelling conventions.

* A `float` is an IEEE 754 binary32 number, held as the rational it denotes.
  Every arithmetic operation and every conversion to `float` is followed by
  `f32`, rounding to a 24-bit significand, to nearest, ties to even.  The
  usual arithmetic conversions of C decide the type of each operation: an
  operation with a `double` operand (the constants `114.285`,
  `SI570_DCO_CENTER` and `SI570_STARTUP_FREQ`) is carried out in `double`
  and rounded with `dbl`.  The format of `double` is a parameter of the
  toolchain (`Hw.double`): binary32 with the Keil compiler of the PSoC 3
  target, binary64 on a hosted compiler.
* The exponent range is not modelled: there is no overflow, no subnormal
  number and no infinity.  A division by zero, which the C code would turn
  into an infinity, gives `0` here; every theorem that depends on such a
  quotient assumes the divisor is positive.
* Machine integers are natural numbers; every assignment to a `uint8`,
  `uint16` or `uint32` variable that can leave the range is followed by an
  explicit `% 2^w`.
* A conversion of a `float` to an unsigned integer truncates toward zero and
  keeps the low `w` bits (`toUInt`).
* The target (PSoC 3, 8051 core) stores multi-byte words most significant
  byte first, so `*(uint32*)&b[k]` is the big-endian word `b[k] .. b[k+3]`.
* The I2C component is the environment: every call of a bus primitive is
  appended to the trace `World.bus`, and the value returned by
  `I2C_MasterStatus` is an input.
-/

namespace Si570

/-! ## Floating point -/

/-- Round to the nearest integer, a tie going to the even neighbour. -/
def roundEven (q : ℚ) : ℤ :=
  if q - ⌊q⌋ < 1 / 2 then ⌊q⌋
  else if 1 / 2 < q - ⌊q⌋ then ⌊q⌋ + 1
  else if ⌊q⌋ % 2 = 0 then ⌊q⌋ else ⌊q⌋ + 1

/-- Number of halvings that bring `m` below 2, at most `f` of them. -/
def log2Fuel : ℕ → ℕ → ℕ
  | 0, _ => 0
  | f + 1, m => if m < 2 then 0 else log2Fuel f (m / 2) + 1

/-- Position of the leading bit of `n`. -/
def natLog2 (n : ℕ) : ℕ := log2Fuel n n

/-- The binary exponent of `q`: the `e` with `2^e ≤ |q| < 2^(e+1)`. -/
def ilog2 (q : ℚ) : ℤ :=
  if (2 : ℚ) ^ ((natLog2 q.num.natAbs : ℤ) - (natLog2 q.den : ℤ)) ≤ |q| then
    (natLog2 q.num.natAbs : ℤ) - (natLog2 q.den : ℤ)
  else (natLog2 q.num.natAbs : ℤ) - (natLog2 q.den : ℤ) - 1

/-- Exponent of the unit in the last place of `q` for a significand of `p`
bits. -/
def ulpExp (p : ℕ) (q : ℚ) : ℤ := ilog2 q + 1 - (p : ℤ)

/-- Rounding of `q` to a binary floating-point number with a significand of
`p` bits, to nearest, ties to even. -/
def rnd (p : ℕ) (q : ℚ) : ℚ := (roundEven (q / 2 ^ ulpExp p q) : ℚ) * 2 ^ ulpExp p q

/-- Rounding to `float` (binary32, 24-bit significand). -/
def f32 (q : ℚ) : ℚ := rnd 24 q

/-- The computed value `x'` lies between `x * lo` and `x * hi`: an enclosure
of the relative error of `x'` as an approximation of `x`. -/
def within (lo hi x' x : ℚ) : Prop := x * lo ≤ x' ∧ x' ≤ x * hi

/-- The formats a C compiler gives to `double`. -/
inductive FloatFormat
  | binary32
  | binary64
  deriving DecidableEq

/-- Number of bits of the significand. -/
def FloatFormat.prec : FloatFormat → ℕ
  | FloatFormat.binary32 => 24
  | FloatFormat.binary64 => 53

/-! ## Constants of `si570.c` -/

def STARTUP_LO : ℕ := 0x713D0A07
def MAX_LO : ℚ := 160
def MIN_LO : ℚ := 4
def SI570_SMOOTH_PPM : ℚ := 3500
def SI570_ADDR : ℕ := 0x55
def SI570_DCO_MIN : ℚ := 4850
def SI570_DCO_MAX : ℚ := 5670
/-- The constant expression `((SI570_DCO_MIN + SI570_DCO_MAX) / 2)`, of type
`double`; its value 5260 is exact in every format. -/
def SI570_DCO_CENTER : ℚ := (SI570_DCO_MIN + SI570_DCO_MAX) / 2

/-- What `si570.c` takes from outside the source tree.  From the headers
(`peaberry.h` and the generated I2C component header): the three status
masks tested on the result of `I2C_MasterStatus` and the decimal constant
`SI570_STARTUP_FREQ`, the factory power-on output frequency.  From the
compiler: the format of `double`. -/
structure Hw where
  I2C_MSTAT_ERR_XFER : ℕ
  I2C_MSTAT_WR_CMPLT : ℕ
  I2C_MSTAT_RD_CMPLT : ℕ
  SI570_STARTUP_FREQ : ℚ
  double : FloatFormat
  deriving DecidableEq

/-- Rounding to `double`. -/
def dbl (hw : Hw) (q : ℚ) : ℚ := rnd hw.double.prec q

/-- Transfer modes handed to the bus primitives. -/
inductive I2CMode
  | COMPLETE_XFER
  | NO_STOP
  | REPEAT_START
  deriving DecidableEq

/-- One call of a bus primitive: `I2C_MasterWriteBuf` with the bytes it was
given, or `I2C_MasterReadBuf` with the number of bytes requested. -/
inductive BusOp
  | write (addr : ℕ) (data : List ℕ) (mode : I2CMode)
  | read (addr : ℕ) (cnt : ℕ) (mode : I2CMode)
  deriving DecidableEq

/-! ## Data model -/

/-- The working buffer `uint8 Si570_Buf[8]`. -/
structure Buf8 where
  b0 : ℕ
  b1 : ℕ
  b2 : ℕ
  b3 : ℕ
  b4 : ℕ
  b5 : ℕ
  b6 : ℕ
  b7 : ℕ
  deriving DecidableEq

/-- A six byte register image (`Si570_Factory`, `Si570_OLD`, or the bytes a
read returns). -/
structure Reg6 where
  r0 : ℕ
  r1 : ℕ
  r2 : ℕ
  r3 : ℕ
  r4 : ℕ
  r5 : ℕ
  deriving DecidableEq

/-- All variables of `si570.c`: the globals, the `static` locals of
`Si570_Main`, and the trace of bus calls issued so far. -/
structure World where
  Si570_Xtal : ℕ
  Si570_LO : ℕ
  Current_LO : ℕ
  Si570_Buf : Buf8
  Si570_Factory : Reg6
  Si570_OLD : Reg6
  smooth : ℕ
  n1 : ℕ
  hsdiv : ℕ
  state : ℕ
  fout : ℚ
  dco : ℚ
  Current_Si570_Xtal : ℕ
  bus : List BusOp
  deriving DecidableEq

/-! ## Primitive operations -/

/-- Modelled from the spec: the macro `swap32` of `peaberry.h` is not in the
source tree; the spec calls the two frequency layouts "byte-order-reversed",
so `swap32` reverses the four bytes of a 32-bit word. -/
def swap32 (x : ℕ) : ℕ :=
  (x % 256) * 16777216 + (x / 256 % 256) * 65536 + (x / 65536 % 256) * 256 + (x / 16777216 % 256)

/-- The word read by `((uint32*)&b[k])[0]` from four consecutive bytes. -/
def load32 (a b c d : ℕ) : ℕ := a * 16777216 + b * 65536 + c * 256 + d

/-- Truncation toward zero, the integer part a C conversion keeps. -/
def truncZ (q : ℚ) : ℤ := if 0 ≤ q then ⌊q⌋ else ⌈q⌉

/-- Conversion of a `float` to an unsigned integer of `w` bits. -/
def toUInt (w : ℕ) (q : ℚ) : ℕ := (truncZ q % (2 : ℤ) ^ w).toNat

/-- Register decode, lines 82-86 of `Si570_Init`, on `Si570_Buf[2..7]`:
the tuple `(hsdiv, n1, rfreqint, rfreqfrac)`. -/
def Init_decode (b : Buf8) : ℕ × ℕ × ℕ × ℕ :=
  let hsdiv := ((b.b2 >>> 5) + 4) % 256
  let n1 := ((((b.b2 &&& 0x1F) <<< 2) ||| (b.b3 >>> 6)) + 1) % 256
  let rfreqint := ((((b.b3 % 65536) &&& 0x3F) <<< 4) ||| (b.b4 >>> 4)) % 65536
  let rfreqfrac := (load32 b.b4 b.b5 b.b6 b.b7) &&& 0x0FFFFFFF
  (hsdiv, n1, rfreqint, rfreqfrac)

/-- Register decode, lines 102-106 of `FreqFromOLD`, on `Si570_OLD[0..5]`. -/
def OLD_decode (o : Reg6) : ℕ × ℕ × ℕ × ℕ :=
  let hsdiv := ((o.r0 >>> 5) + 4) % 256
  let n1 := ((((o.r0 &&& 0x1F) <<< 2) ||| (o.r1 >>> 6)) + 1) % 256
  let rfreqint := ((((o.r1 % 65536) &&& 0x3F) <<< 4) ||| (o.r2 >>> 4)) % 65536
  let rfreqfrac := (load32 o.r2 o.r3 o.r4 o.r5) &&& 0x0FFFFFFF
  (hsdiv, n1, rfreqint, rfreqfrac)

/-- The number that an integer field and a 28-bit fractional field of the
register image stand for, `rfreqint + rfreqfrac / 2^28`, without rounding. -/
def rfreqOf (rfreqint rfreqfrac : ℕ) : ℚ := (rfreqint : ℚ) + (rfreqfrac : ℚ) / 0x10000000

/-- Lines 86 and 106, `rfreq = rfreqint + (float)rfreqfrac / 0x10000000`:
the conversion of the fractional word, the division and the sum are `float`
operations. -/
def rfreqDec (rfreqint rfreqfrac : ℕ) : ℚ :=
  f32 ((rfreqint : ℚ) + f32 (f32 (rfreqfrac : ℚ) / 0x10000000))

/-! ## `FreqFromOLD` -/

/-- `FreqFromOLD`: decodes `Si570_OLD`, clears `Si570_OLD[0]` and returns the
frequency word.  The constant `114.285` is a `double`, so the product, the
quotient by the `int` `hsdiv * n1` and the product by `0x200000` are `double`
operations. -/
def FreqFromOLD (hw : Hw) (w : World) : ℕ × World :=
  let d := OLD_decode w.Si570_OLD
  let hsdiv := d.1
  let n1 := d.2.1
  let rfreq := rfreqDec d.2.2.1 d.2.2.2
  let w1 := { w with Si570_OLD := { w.Si570_OLD with r0 := 0 } }
  (swap32 (toUInt 32 (dbl hw (dbl hw (dbl hw (dbl hw ((22857 : ℚ) / 200) * rfreq) /
    ((hsdiv * n1 : ℕ) : ℚ)) * 0x200000))), w1)

/-! ## `Si570_Fake_Reset` -/

/-- `Si570_Fake_Reset`: copies the factory image into `Si570_Buf[2..7]`. -/
def Si570_Fake_Reset (w : World) : World :=
  { w with Si570_Buf :=
      { w.Si570_Buf with
        b2 := w.Si570_Factory.r0, b3 := w.Si570_Factory.r1, b4 := w.Si570_Factory.r2,
        b5 := w.Si570_Factory.r3, b6 := w.Si570_Factory.r4, b7 := w.Si570_Factory.r5 } }

/-! ## `Si570_Main` -/

/-- Lines 169-178 of state 14: clamp of the fractional word and packing of
`hsdiv`, `n1`, `rfreqint`, `rfreqfrac` into `Si570_Buf[1..7]`. -/
def packRegs (hsdiv n1 rfreqint rfreqfrac : ℕ) (b : Buf8) : Buf8 :=
  let rfreqfrac := if rfreqfrac > 0x0FFFFFFF then 0x0FFFFFFF else rfreqfrac
  let i := (hsdiv + 256 - 4) % 256
  let b2 := (i <<< 5) % 256
  let i := (n1 + 256 - 1) % 256
  let b2 := b2 ||| (i >>> 2)
  let b3 := (i <<< 6) % 256
  let b3 := b3 ||| ((rfreqint >>> 4) % 256)
  let b4 := rfreqfrac / 16777216 % 256
  let b5 := rfreqfrac / 65536 % 256
  let b6 := rfreqfrac / 256 % 256
  let b7 := rfreqfrac % 256
  let b4 := b4 ||| ((rfreqint <<< 4) % 256)
  { b with b1 := 7, b2 := b2, b3 := b3, b4 := b4, b5 := b5, b6 := b6, b7 := b7 }

/-- Line 165 of state 14: `rfreq = dco / ((float)swap32(Current_Si570_Xtal) / 0x01000000)`,
three `float` operations. -/
def rfreqCalc (dco : ℚ) (xtal : ℕ) : ℚ :=
  f32 (dco / f32 (f32 (swap32 xtal : ℚ) / 0x01000000))

/-- Lines 166-167 of state 14: `rfreqint` and the raw fractional product
`rfreqfrac` of `rfreq`.  For a `float` value `rfreq` in `[0, 65536)` the
difference `rfreq - rfreqint` and its product by `2^28` are `float` numbers,
so the two `float` operations do not round (`rfreqSplit_exact`). -/
def rfreqSplit (rfreq : ℚ) : ℕ × ℕ :=
  let rfreqint := toUInt 16 rfreq
  let rfreqfrac := toUInt 32 ((rfreq - (rfreqint : ℚ)) * 0x10000000)
  (rfreqint, rfreqfrac)

/-- Lines 207-208 of the `default` branch: the N1 candidate `i` for the
HS_DIV value `s`, a `uint8`.  The product `fout * state` is a `float`
operation; the division of the `double` `SI570_DCO_CENTER` by it is a `double`
operation. -/
def n1Cand (hw : Hw) (fout : ℚ) (s : ℕ) : ℕ :=
  let i := toUInt 8 (dbl hw (SI570_DCO_CENTER / f32 (fout * (s : ℚ))))
  if i > 1 ∧ i &&& 1 ≠ 0 then (i + 1) % 256 else i

/-- Line 209, `testdco = fout * state * i`: two `float` products. -/
def testDco (fout : ℚ) (s i : ℕ) : ℚ := f32 (f32 (fout * (s : ℚ)) * (i : ℚ))

/-- The `default` branch of the switch (with the `state++` of cases 8 and
10 already applied to `s`): one HS_DIV candidate. -/
def searchStep (hw : Hw) (s : ℕ) (w : World) : World :=
  let i := n1Cand hw w.fout s
  let testdco := testDco w.fout s i
  let s1 := (s + 1) % 256
  if i > 128 then { w with state := s1 }
  else if testdco > SI570_DCO_MIN ∧ testdco < w.dco then
    { w with state := s1, dco := testdco, n1 := i, hsdiv := (s1 + 256 - 1) % 256 }
  else { w with state := s1 }

/-- One call of `Si570_Main`; `status` is what `I2C_MasterStatus` returns if
this call polls it.  In state 1 `fabs` receives and returns a `float` value
unchanged. -/
def Si570_Main (hw : Hw) (status : ℕ) (w : World) : World :=
  if w.state = 0 then
    let w1 := if w.Si570_OLD.r0 ≠ 0 then
        { (FreqFromOLD hw w).2 with Si570_LO := (FreqFromOLD hw w).1 } else w
    if w1.Current_Si570_Xtal ≠ w1.Si570_Xtal ∨ w1.Current_LO ≠ w1.Si570_LO then
      let fout := f32 (f32 (swap32 w1.Si570_LO : ℚ) / 0x200000)
      let fout := if fout < MIN_LO then MIN_LO else fout
      let fout := if fout > MAX_LO then MAX_LO else fout
      { w1 with Current_LO := w1.Si570_LO, Current_Si570_Xtal := w1.Si570_Xtal,
                fout := fout, state := 1 }
    else w1
  else if w.state = 1 then
    let smooth_limit := f32 (f32 (w.dco * SI570_SMOOTH_PPM) / 1000000)
    let testdco := testDco w.fout w.hsdiv w.n1
    let smooth_diff := |f32 (testdco - w.dco)|
    if testdco > SI570_DCO_MIN ∧ testdco < SI570_DCO_MAX ∧ smooth_diff < smooth_limit then
      { w with smooth := 1, dco := testdco, state := 12 }
    else
      { w with smooth := 0, dco := SI570_DCO_MAX, state := 4 }
  else if w.state = 12 then
    let b := { w.Si570_Buf with b0 := 135, b1 := 0x20 }
    { w with Si570_Buf := b, state := 13,
             bus := w.bus ++ [BusOp.write SI570_ADDR [b.b0, b.b1] I2CMode.COMPLETE_XFER] }
  else if w.state = 14 then
    let rfreq := rfreqCalc w.dco w.Current_Si570_Xtal
    let b := packRegs w.hsdiv w.n1 (rfreqSplit rfreq).1 (rfreqSplit rfreq).2 w.Si570_Buf
    { w with Si570_Buf := b, state := 15,
             bus := w.bus ++ [BusOp.write SI570_ADDR [b.b1, b.b2, b.b3, b.b4, b.b5, b.b6, b.b7]
                                I2CMode.COMPLETE_XFER] }
  else if w.state = 16 then
    let b := { w.Si570_Buf with b0 := 135, b1 := if w.smooth ≠ 0 then 0x00 else 0x40 }
    { w with Si570_Buf := b, state := 17,
             bus := w.bus ++ [BusOp.write SI570_ADDR [b.b0, b.b1] I2CMode.COMPLETE_XFER] }
  else if w.state = 13 ∨ w.state = 15 ∨ w.state = 17 then
    let i := status % 256
    if i &&& hw.I2C_MSTAT_ERR_XFER ≠ 0 then { w with state := w.state - 1 }
    else if i &&& hw.I2C_MSTAT_WR_CMPLT ≠ 0 then { w with state := w.state + 1 }
    else w
  else if w.state = 18 then { w with state := 0 }
  else if w.state = 8 ∨ w.state = 10 then searchStep hw (w.state + 1) w
  else searchStep hw w.state w

/-- Runs `Si570_Main` once for every status of the list, in order. -/
def runMain (hw : Hw) : List ℕ → World → World
  | [], w => w
  | s :: ss, w => runMain hw ss (Si570_Main hw s w)

/-! ## `Si570_Init` -/

/-- The locals of `Si570_Init` that live across loop iterations, and the
number of status polls made so far. -/
structure InitLoc where
  state : ℕ
  err : ℕ
  polls : ℕ
  deriving DecidableEq

/-- Result of one iteration of the `while` loop of `Si570_Init`. -/
inductive InitIter
  | cont (l : InitLoc) (w : World)
  | ret (code : ℕ) (l : InitLoc) (w : World)
  deriving DecidableEq

/-- The pre-decrement `--err` of a `uint16`: zero wraps to 65535. -/
def decErr (err : ℕ) : ℕ := if err = 0 then 65535 else err - 1

/-- One iteration of the loop body (the `switch`).  `stat k` is the result of
the `k`-th call of `I2C_MasterStatus`; `img` is the register image the device
delivers into `Si570_Buf[2..7]`, in place when the read is reported complete. -/
def Init_iter (hw : Hw) (stat : ℕ → ℕ) (img : Reg6) (l : InitLoc) (w : World) : InitIter :=
  if l.state = 0 then
    let b := { w.Si570_Buf with b0 := 135, b1 := 1 }
    InitIter.cont { l with state := 1 }
      { w with Si570_Buf := b,
               bus := w.bus ++ [BusOp.write SI570_ADDR [b.b0, b.b1] I2CMode.COMPLETE_XFER] }
  else if l.state = 2 then
    let b := { w.Si570_Buf with b0 := 7 }
    InitIter.cont { l with state := 3 }
      { w with Si570_Buf := b,
               bus := w.bus ++ [BusOp.write SI570_ADDR [b.b0] I2CMode.NO_STOP] }
  else if l.state = 1 ∨ l.state = 3 then
    let i := stat l.polls % 256
    let state := if i &&& hw.I2C_MSTAT_ERR_XFER ≠ 0 then l.state - 1
      else if i &&& hw.I2C_MSTAT_WR_CMPLT ≠ 0 then l.state + 1 else l.state
    let err := decErr l.err
    if err = 0 then InitIter.ret 1 { state := state, err := err, polls := l.polls + 1 } w
    else InitIter.cont { state := state, err := err, polls := l.polls + 1 } w
  else if l.state = 4 then
    InitIter.cont { l with state := 5 }
      { w with bus := w.bus ++ [BusOp.read SI570_ADDR 6 I2CMode.REPEAT_START] }
  else if l.state = 5 then
    let i := stat l.polls % 256
    if i &&& hw.I2C_MSTAT_ERR_XFER ≠ 0 then
      InitIter.cont { l with state := 2, polls := l.polls + 1 } w
    else if i &&& hw.I2C_MSTAT_RD_CMPLT ≠ 0 then
      InitIter.cont { l with state := 6, polls := l.polls + 1 }
        { w with Si570_Buf :=
            { w.Si570_Buf with b2 := img.r0, b3 := img.r1, b4 := img.r2,
                               b5 := img.r3, b6 := img.r4, b7 := img.r5 } }
    else InitIter.cont { l with polls := l.polls + 1 } w
  else InitIter.cont l w

/-- Lines 80-91 of `Si570_Init`, after the loop: crystal calibration when
`Si570_Xtal` is zero, factory snapshot, clearing of `Si570_OLD[0]`.  The
constant `SI570_STARTUP_FREQ` is a `double`, so the four operations of line 87
are `double` operations. -/
def Init_finish (hw : Hw) (w : World) : World :=
  let w1 := if w.Si570_Xtal = 0 then
      let d := Init_decode w.Si570_Buf
      let hsdiv := d.1
      let n1 := d.2.1
      let rfreq := rfreqDec d.2.2.1 d.2.2.2
      { w with Si570_Xtal :=
          swap32 (toUInt 32 (dbl hw (dbl hw (dbl hw (dbl hw
            (dbl hw hw.SI570_STARTUP_FREQ * (hsdiv : ℚ)) * (n1 : ℚ)) / rfreq) * 0x01000000))) }
    else w
  { w1 with
    Si570_Factory :=
      { r0 := w1.Si570_Buf.b2, r1 := w1.Si570_Buf.b3, r2 := w1.Si570_Buf.b4,
        r3 := w1.Si570_Buf.b5, r4 := w1.Si570_Buf.b6, r5 := w1.Si570_Buf.b7 },
    Si570_OLD := { w1.Si570_OLD with r0 := 0 } }

/-- The `while (state < 6)` loop with at most `fuel` iterations, followed by
the code after the loop: the return value, the locals at the return and the
variables.  `none` means the loop is still running when the fuel is used
up. -/
def Init_loop (hw : Hw) (stat : ℕ → ℕ) (img : Reg6) :
    ℕ → InitLoc → World → Option (ℕ × InitLoc × World)
  | 0, _, _ => none
  | fuel + 1, l, w =>
    if l.state < 6 then
      match Init_iter hw stat img l w with
      | InitIter.ret code l1 w1 => some (code, l1, w1)
      | InitIter.cont l1 w1 => Init_loop hw stat img fuel l1 w1
    else some (0, l, Init_finish hw w)

/-- `Si570_Init`: the return value and the variables afterwards, or `none`
when `fuel` loop iterations do not suffice. -/
def Si570_Init (hw : Hw) (stat : ℕ → ℕ) (img : Reg6) (fuel : ℕ) (w : World) : Option (ℕ × World) :=
  (Init_loop hw stat img fuel { state := 0, err := 0, polls := 0 } w).map
    (fun r => (r.1, r.2.2))

/-! ## Predicates used by the divider search theorems -/

/-- The DCO frequency `testdco` of the candidate for the HS_DIV value `h`. -/
def candDco (hw : Hw) (fout : ℚ) (h : ℕ) : ℚ := testDco fout h (n1Cand hw fout h)

/-- The candidate of HS_DIV value `s` is acceptable: N1 at most 128 and the
resulting DCO frequency strictly inside the DCO range. -/
def candOk (hw : Hw) (fout : ℚ) (s : ℕ) : Prop :=
  n1Cand hw fout s ≤ 128 ∧ SI570_DCO_MIN < candDco hw fout s ∧ candDco hw fout s < SI570_DCO_MAX

instance (hw : Hw) (fout : ℚ) (s : ℕ) : Decidable (candOk hw fout s) := by
  unfold candOk; infer_instance

/-- The divider setting held in the variables is a valid one for `fout`. -/
def goodDiv (w : World) : Prop :=
  (w.hsdiv = 4 ∨ w.hsdiv = 5 ∨ w.hsdiv = 6 ∨ w.hsdiv = 7 ∨ w.hsdiv = 9 ∨ w.hsdiv = 11) ∧
  (w.n1 = 1 ∨ (w.n1 % 2 = 0 ∧ 2 ≤ w.n1 ∧ w.n1 ≤ 128)) ∧
  w.dco = testDco w.fout w.hsdiv w.n1 ∧ SI570_DCO_MIN < w.dco

instance (w : World) : Decidable (goodDiv w) := by
  unfold goodDiv; infer_instance

/-- Invariant of the search: the running best never exceeds `DCO_MAX`, and
once it is below `DCO_MAX` the variables hold a valid divider setting. -/
def searchInv (w : World) : Prop :=
  w.dco ≤ SI570_DCO_MAX ∧ (w.dco < SI570_DCO_MAX → goodDiv w)

instance (w : World) : Decidable (searchInv w) := by
  unfold searchInv; infer_instance

/-- The six register bytes `Si570_Buf[2..7]` as a register image. -/
def regsOf (b : Buf8) : Reg6 :=
  { r0 := b.b2, r1 := b.b3, r2 := b.b4, r3 := b.b5, r4 := b.b6, r5 := b.b7 }

/-- Every byte of the buffer is a byte. -/
def Buf8.IsBytes (b : Buf8) : Prop :=
  b.b0 < 256 ∧ b.b1 < 256 ∧ b.b2 < 256 ∧ b.b3 < 256 ∧ b.b4 < 256 ∧ b.b5 < 256 ∧
    b.b6 < 256 ∧ b.b7 < 256

instance (b : Buf8) : Decidable b.IsBytes := by
  unfold Buf8.IsBytes; infer_instance

/-- Every byte of the register image is a byte. -/
def Reg6.IsBytes (r : Reg6) : Prop :=
  r.r0 < 256 ∧ r.r1 < 256 ∧ r.r2 < 256 ∧ r.r3 < 256 ∧ r.r4 < 256 ∧ r.r5 < 256

instance (r : Reg6) : Decidable r.IsBytes := by
  unfold Reg6.IsBytes; infer_instance

/-! ## Concrete instances -/

/-- An instance of the header constants and the toolchain, used by the
examples: three single-bit status masks, a 56.32 MHz power-on frequency and
the 32-bit `double` of the PSoC 3 compiler. -/
def hwExample : Hw :=
  { I2C_MSTAT_ERR_XFER := 0x80, I2C_MSTAT_WR_CMPLT := 0x02, I2C_MSTAT_RD_CMPLT := 0x01,
    SI570_STARTUP_FREQ := 1408 / 25, double := FloatFormat.binary32 }

/-- The same constants with the 64-bit `double` of a hosted compiler. -/
def hwHost : Hw := { hwExample with double := FloatFormat.binary64 }

/-- The variables at power-on: the initialisers of `si570.c`, zero for
everything without one. -/
def powerOn : World :=
  { Si570_Xtal := 0, Si570_LO := STARTUP_LO, Current_LO := STARTUP_LO,
    Si570_Buf := ⟨0, 0, 0, 0, 0, 0, 0, 0⟩, Si570_Factory := ⟨0, 0, 0, 0, 0, 0⟩,
    Si570_OLD := ⟨0, 0, 0, 0, 0, 0⟩, smooth := 0, n1 := 0, hsdiv := 0, state := 0,
    fout := 0, dco := 0, Current_Si570_Xtal := 0, bus := [] }

/-- Line 144, `smooth_limit = dco * SI570_SMOOTH_PPM / 1000000`: two `float`
operations. -/
def smoothLimit (dco : ℚ) : ℚ := f32 (f32 (dco * 3500) / 1000000)

/-- The condition under which state 1 of `Si570_Main` takes the smooth path. -/
def smoothOk (w : World) : Prop :=
  SI570_DCO_MIN < testDco w.fout w.hsdiv w.n1 ∧
  testDco w.fout w.hsdiv w.n1 < SI570_DCO_MAX ∧
  |f32 (testDco w.fout w.hsdiv w.n1 - w.dco)| < smoothLimit w.dco

/-- The condition of the smooth path as the specification words it, in
exact arithmetic. -/
def smoothOkExact (w : World) : Prop :=
  4850 < w.fout * (w.hsdiv : ℚ) * (w.n1 : ℚ) ∧ w.fout * (w.hsdiv : ℚ) * (w.n1 : ℚ) < 5670 ∧
  |w.fout * (w.hsdiv : ℚ) * (w.n1 : ℚ) - w.dco| < w.dco * 3500 / 1000000

instance (w : World) : Decidable (smoothOkExact w) := by
  unfold smoothOkExact; infer_instance

instance (w : World) : Decidable (smoothOk w) := by
  unfold smoothOk; infer_instance

/-- The status `s` reports a finished write and no transfer error. -/
def wrDone (hw : Hw) (s : ℕ) : Prop :=
  (s % 256) &&& hw.I2C_MSTAT_ERR_XFER = 0 ∧ (s % 256) &&& hw.I2C_MSTAT_WR_CMPLT ≠ 0

instance (hw : Hw) (s : ℕ) : Decidable (wrDone hw s) := by
  unfold wrDone; infer_instance

/-- The status `s` reports a finished read and no transfer error. -/
def rdDone (hw : Hw) (s : ℕ) : Prop :=
  (s % 256) &&& hw.I2C_MSTAT_ERR_XFER = 0 ∧ (s % 256) &&& hw.I2C_MSTAT_RD_CMPLT ≠ 0

instance (hw : Hw) (s : ℕ) : Decidable (rdDone hw s) := by
  unfold rdDone; infer_instance

/-- The six register bytes of a buffer as the list handed to the bus. -/
def Reg6.toList (r : Reg6) : List ℕ := [r.r0, r.r1, r.r2, r.r3, r.r4, r.r5]

/-- A world at state 4, the start of the divider search, with a 10 MHz target
and the running best at `DCO_MAX`. -/
def exSearch : World := { powerOn with state := 4, dco := SI570_DCO_MAX, fout := 10 }

/-- A calibration word: 114.285 MHz in the byte-reversed 8.24 layout. -/
def exXtal : ℕ := 0xC2F54872

/-- A world at state 1 whose previous setting (`hsdiv = 9`, `n1 = 58`,
`dco = 5220`) is within the smooth-tune limit of the new target
`10 + 1/1024` MHz. -/
def exSmooth : World :=
  { powerOn with state := 1, hsdiv := 9, n1 := 58, dco := 5220, fout := 10241 / 1024,
                 Si570_Xtal := exXtal, Current_Si570_Xtal := exXtal }

/-- A world at state 1 just after power-on (no previous setting), with a
10 MHz target. -/
def exFull : World :=
  { powerOn with state := 1, fout := 10, Si570_Xtal := exXtal, Current_Si570_Xtal := exXtal }

/-- Invariant of the loop of `Si570_Init`, relative to the variables `w0` on
entry: the loop state is at most 6, only the working buffer and the bus trace
have changed, and once the loop state is 6 the buffer holds the image read. -/
def initInv (w0 : World) (img : Reg6) (l : InitLoc) (w : World) : Prop :=
  l.state ≤ 6 ∧ { w with Si570_Buf := w0.Si570_Buf, bus := w0.bus } = w0 ∧
    (l.state = 6 → regsOf w.Si570_Buf = img)

/-- A factory image that decodes to `hsdiv = 7`, `n1 = 4`, `rfreq = 120.5`. -/
def exImage : Reg6 := ⟨0x60, 0xC7, 0x88, 0, 0, 0⟩

/-- A register image that decodes to `hsdiv = 11`, `n1 = 128`, `rfreq = 1`. -/
def exImageLow : Reg6 := ⟨0xFF, 0xC0, 0x10, 0, 0, 0⟩

/-- A status stream that reports every transfer finished at once. -/
def exStat : ℕ → ℕ := fun _ => 3

/-- Line 131 of state 0: a pending legacy request replaces `Si570_LO`. -/
def afterLegacy (hw : Hw) (w : World) : World :=
  if w.Si570_OLD.r0 ≠ 0 then { (FreqFromOLD hw w).2 with Si570_LO := (FreqFromOLD hw w).1 }
  else w

/-- The value `FreqFromOLD` converts to a frequency word, for the image
`o`: `114.285 * rfreq / (hsdiv * n1) * 0x200000` as line 110 computes it. -/
def legacyValue (hw : Hw) (o : Reg6) : ℚ :=
  dbl hw (dbl hw (dbl hw (dbl hw ((22857 : ℚ) / 200) *
    rfreqDec (OLD_decode o).2.2.1 (OLD_decode o).2.2.2) /
    (((OLD_decode o).1 * (OLD_decode o).2.1 : ℕ) : ℚ)) * 0x200000)

/-- The same quantity as the specification words it, in exact arithmetic:
`114.285 * rfreq / (hsdiv * n1) * 2^21`. -/
def legacyExact (o : Reg6) : ℚ :=
  (22857 : ℚ) / 200 * rfreqOf (OLD_decode o).2.2.1 (OLD_decode o).2.2.2 /
    (((OLD_decode o).1 * (OLD_decode o).2.1 : ℕ) : ℚ) * 2 ^ 21

/-- The value `Si570_Init` converts to the calibration word, for the decoded
fields: `SI570_STARTUP_FREQ * hsdiv * n1 / rfreq * 0x01000000` as line 87
computes it. -/
def calValue (hw : Hw) (hsdiv n1 rfreqint rfreqfrac : ℕ) : ℚ :=
  dbl hw (dbl hw (dbl hw (dbl hw (dbl hw hw.SI570_STARTUP_FREQ * (hsdiv : ℚ)) * (n1 : ℚ)) /
    rfreqDec rfreqint rfreqfrac) * 0x01000000)

/-- The crystal frequency as the specification words it, in exact
arithmetic: `F * hsdiv * n1 / rfreq`. -/
def calExact (hw : Hw) (hsdiv n1 rfreqint rfreqfrac : ℕ) : ℚ :=
  hw.SI570_STARTUP_FREQ * (hsdiv : ℚ) * (n1 : ℚ) / rfreqOf rfreqint rfreqfrac

/-- A world at state 14 with the setting found for 10 MHz. -/
def exWrite : World :=
  { powerOn with state := 14, hsdiv := 9, n1 := 58, dco := 5220, fout := 10,
                 Si570_Xtal := exXtal, Current_Si570_Xtal := exXtal }

/-- The number of write-await polls still to come before `--err` reaches
zero. -/
def errLeft (err : ℕ) : ℕ := if err = 0 then 65536 else err

/-- A status with the transfer-error bit set. -/
def xferErr (hw : Hw) (s : ℕ) : Prop := (s % 256) &&& hw.I2C_MSTAT_ERR_XFER ≠ 0

instance (hw : Hw) (s : ℕ) : Decidable (xferErr hw s) := by
  unfold xferErr; infer_instance

/-- The loop of `Si570_Init` after at most `n` iterations: the `return 1` it
has executed, or the locals and variables reached (it stops at state 6). -/
def Init_run (hw : Hw) (stat : ℕ → ℕ) (img : Reg6) : ℕ → InitLoc → World → InitIter
  | 0, l, w => InitIter.cont l w
  | n + 1, l, w =>
    if l.state < 6 then
      match Init_iter hw stat img l w with
      | InitIter.ret code l1 w1 => InitIter.ret code l1 w1
      | InitIter.cont l1 w1 => Init_run hw stat img n l1 w1
    else InitIter.cont l w

/-- The number of status polls made in the write-await states 1 and 3 during
the first `n` iterations of the loop of `Si570_Init`. -/
def Init_wrPolls (hw : Hw) (stat : ℕ → ℕ) (img : Reg6) : ℕ → InitLoc → World → ℕ
  | 0, _, _ => 0
  | n + 1, l, w =>
    if l.state < 6 then
      (if l.state = 1 ∨ l.state = 3 then 1 else 0) +
        (match Init_iter hw stat img l w with
          | InitIter.ret _ _ _ => 0
          | InitIter.cont l1 w1 => Init_wrPolls hw stat img n l1 w1)
    else 0

/-- A status stream on which both writes finish at once and the read never
finishes nor fails. -/
def exStallStat : ℕ → ℕ := fun k => if k < 2 then 2 else 0

/-- A status stream that reports a transfer error at every poll. -/
def exErrStat : ℕ → ℕ := fun _ => 0x80

/-- The locals with which an iteration of the loop of `Si570_Init` ends. -/
def InitIter.loc : InitIter → InitLoc
  | InitIter.cont l _ => l
  | InitIter.ret _ l _ => l

/-- The externally written variables as an idle or busy tick finds them, and
the status the bus would report: one step of the environment. -/
structure Env where
  lo : ℕ
  xtal : ℕ
  old : Reg6
  status : ℕ
  deriving DecidableEq

/-- The environment writes `Si570_LO`, `Si570_Xtal` and `Si570_OLD`, then
`Si570_Main` is called. -/
def envStep (hw : Hw) (e : Env) (w : World) : World :=
  Si570_Main hw e.status { w with Si570_LO := e.lo, Si570_Xtal := e.xtal, Si570_OLD := e.old }

/-- A run of `Si570_Main` against a sequence of environment steps. -/
def runEnv (hw : Hw) : List Env → World → World
  | [], w => w
  | e :: es, w => runEnv hw es (envStep hw e w)

/-- The states `Si570_Main` is in after each tick of a run. -/
def traceMain (hw : Hw) : List ℕ → World → List ℕ
  | [], _ => []
  | s :: ss, w => (Si570_Main hw s w).state :: traceMain hw ss (Si570_Main hw s w)

/-- The target word of the most recent reprogram cycle started during a run
(an idle tick that went to state 1), or `cur` if the run starts none. -/
def lastStarted (hw : Hw) : List Env → World → ℕ → ℕ
  | [], _, cur => cur
  | e :: es, w, cur =>
    lastStarted hw es (envStep hw e w)
      (if w.state = 0 ∧ (envStep hw e w).state = 1 then (envStep hw e w).Si570_LO else cur)

/-- The freeze write issued by state 12. -/
def freezeOp : BusOp := BusOp.write SI570_ADDR [135, 0x20] I2CMode.COMPLETE_XFER

/-- The 7-byte register write issued by state 14 for the setting held in
`w`. -/
def regsOp (w : World) : BusOp :=
  BusOp.write SI570_ADDR
    (7 :: (regsOf (packRegs w.hsdiv w.n1 (rfreqSplit (rfreqCalc w.dco w.Current_Si570_Xtal)).1
      (rfreqSplit (rfreqCalc w.dco w.Current_Si570_Xtal)).2 w.Si570_Buf)).toList)
    I2CMode.COMPLETE_XFER

/-- The unfreeze write issued by state 16. -/
def releaseOp (w : World) : BusOp :=
  BusOp.write SI570_ADDR [135, if w.smooth ≠ 0 then 0x00 else 0x40] I2CMode.COMPLETE_XFER

/-- The N1 candidate as the specification words it: `DCO_CENTER / (fout * h)`
in exact arithmetic, rounded to the nearest integer, then the parity rule.
It is compared with `n1Cand`, the candidate the code computes. -/
def n1CandRounded (fout : ℚ) (h : ℕ) : ℤ :=
  let i := round (SI570_DCO_CENTER / (fout * (h : ℚ)))
  if i > 1 ∧ i % 2 = 1 then i + 1 else i

/-- After the HS_DIV values of `P` have been tried from `w0`: the running best
is at most every acceptable candidate of `P`; either no candidate of `P` is
acceptable and nothing was selected, or the selection is the acceptable
candidate of least `dco`, the first such in case of a tie. -/
def bestAmong (hw : Hw) (w0 : World) (P : List ℕ) (w : World) : Prop :=
  w.dco ≤ SI570_DCO_MAX ∧
  (∀ h ∈ P, candOk hw w0.fout h → w.dco ≤ candDco hw w0.fout h) ∧
  ((w.dco = SI570_DCO_MAX ∧ w.hsdiv = w0.hsdiv ∧ w.n1 = w0.n1 ∧
      ∀ h ∈ P, ¬ candOk hw w0.fout h) ∨
   (w.hsdiv ∈ P ∧ candOk hw w0.fout w.hsdiv ∧ w.n1 = n1Cand hw w0.fout w.hsdiv ∧
     w.dco = candDco hw w0.fout w.hsdiv ∧
     ∀ h ∈ P, candOk hw w0.fout h → candDco hw w0.fout h = w.dco → w.hsdiv ≤ h))

/-- The dividers held in the variables are a legal pair for the chip. -/
def settingOk (w : World) : Prop :=
  (w.hsdiv = 4 ∨ w.hsdiv = 5 ∨ w.hsdiv = 6 ∨ w.hsdiv = 7 ∨ w.hsdiv = 9 ∨ w.hsdiv = 11) ∧
  (w.n1 = 1 ∨ (w.n1 % 2 = 0 ∧ 2 ≤ w.n1 ∧ w.n1 ≤ 128))

/-- The working target is inside the supported range. -/
def foutOk (w : World) : Prop := MIN_LO ≤ w.fout ∧ w.fout ≤ MAX_LO

/-- The HS_DIV values still to be tried when the search is in state `s`. -/
def searchRest (s : ℕ) : List ℕ :=
  if s = 4 then [4, 5, 6, 7, 9, 11]
  else if s = 5 then [5, 6, 7, 9, 11]
  else if s = 6 then [6, 7, 9, 11]
  else if s = 7 then [7, 9, 11]
  else if s = 8 then [9, 11]
  else if s = 10 then [11]
  else []

/-- Invariant of `Si570_Main` from power-on.  Idle or at state 1: the dividers
are legal or still the power-on zero, and zero as long as no bus write has
been made.  In the search: the target is in range, the search invariant
holds, and an acceptable candidate has been found or is still to come.  From
state 12 to state 18: the setting is valid for the target. -/
def mainInv (hw : Hw) (w : World) : Prop :=
  ((w.state = 0 ∨ (w.state = 1 ∧ foutOk w)) ∧ (w.hsdiv = 0 ∨ settingOk w) ∧
    (w.bus = [] → w.hsdiv = 0)) ∨
  ((w.state = 4 ∨ w.state = 5 ∨ w.state = 6 ∨ w.state = 7 ∨ w.state = 8 ∨ w.state = 10) ∧
    foutOk w ∧ searchInv w ∧
    (w.dco < SI570_DCO_MAX ∨ ∃ h ∈ searchRest w.state, candOk hw w.fout h)) ∨
  (w.state = 12 ∧ goodDiv w ∧ w.dco < SI570_DCO_MAX) ∨
  ((w.state = 13 ∨ w.state = 14 ∨ w.state = 15 ∨ w.state = 16 ∨ w.state = 17 ∨
      w.state = 18) ∧ goodDiv w ∧ w.dco < SI570_DCO_MAX ∧ w.bus ≠ [])

/-- A 200 MHz request right after power-on. -/
def exRequest : World := { powerOn with Si570_LO := 0x19 }

/-- Ten environment steps after power-on: a 200 MHz request that is not
changed again, and a bus that reports the freeze write finished. -/
def exRun : List Env :=
  [0, 0, 0, 0, 0, 0, 0, 0, 0, 2].map (fun s => ⟨0x19, 0, ⟨0, 0, 0, 0, 0, 0⟩, s⟩)

/-- The quotient of line 165 as the specification words it, `dco / Xtal` in
exact arithmetic, `Xtal` being the numeric value of the calibration word. -/
def rfreqExact (dco : ℚ) (xtal : ℕ) : ℚ := dco / ((swap32 xtal : ℚ) / 0x01000000)

/-- A register image whose fractional field has 28 significant bits:
`hsdiv = 11`, `n1 = 8`, `rfreq = 43 + 98427547 / 2^28`. -/
def exImageFrac : Reg6 := ⟨0xE1, 0xC2, 0xB5, 0xDD, 0xE2, 0x9B⟩

/-- The register image with every bit set. -/
def exImageMax : Reg6 := ⟨0xFF, 0xFF, 0xFF, 0xFF, 0xFF, 0xFF⟩

/-- A world at state 1 with the setting of 10 MHz and a target whose exact
DCO frequency is inside the smooth-tune limit by less than a rounding
error. -/
def exEdge : World :=
  { powerOn with state := 1, hsdiv := 9, n1 := 58, dco := 5220, fout := 2630615 / 262144,
                 Si570_Xtal := exXtal, Current_Si570_Xtal := exXtal }

/-- A world at state 4, the start of the divider search, for the request
word `0x0A9C4001` (about 10.019 MHz). -/
def exSearchOdd : World :=
  { powerOn with state := 4, dco := SI570_DCO_MAX, fout := 10505733 / 1048576 }

/-- A world at state 4 for a target of about 146.111 MHz, for which the
candidates of HS_DIV 6 and 9 have the same exact DCO frequency. -/
def exSearchTie : World :=
  { powerOn with state := 4, dco := SI570_DCO_MAX, fout := 9575537 / 65536 }

/-- Ten environment steps after power-on: the request word `0x0A9C4001`,
not changed again, and a bus that reports the freeze write finished. -/
def exRunOdd : List Env :=
  [0, 0, 0, 0, 0, 0, 0, 0, 0, 2].map (fun s => ⟨0x0A9C4001, 0, ⟨0, 0, 0, 0, 0, 0⟩, s⟩)

/-- The variables at power-on with a calibration word present. -/
def exCalibrated : World := { powerOn with Si570_Xtal := exXtal }

/-! # Properties -/

/-! ## Floating point -/

theorem log2Fuel_spec : ∀ (f m : ℕ), 0 < m → m ≤ f →
    2 ^ log2Fuel f m ≤ m ∧ m < 2 ^ (log2Fuel f m + 1) := by
  intro f
  induction f with
  | zero => intro m h1 h2; omega
  | succ f ih =>
    intro m h1 h2
    unfold log2Fuel
    by_cases hm : m < 2
    · rw [if_pos hm]
      constructor
      · simpa using h1
      · simpa using hm
    · rw [if_neg hm]
      obtain ⟨a, b⟩ := ih (m / 2) (by omega) (by omega)
      constructor
      · rw [pow_succ]; omega
      · rw [pow_succ]; omega

theorem natLog2_spec (n : ℕ) (h : 0 < n) : 2 ^ natLog2 n ≤ n ∧ n < 2 ^ (natLog2 n + 1) :=
  log2Fuel_spec n n h (le_refl n)

theorem abs_eq_natAbs_div (q : ℚ) : |q| = (q.num.natAbs : ℚ) / (q.den : ℚ) := by
  have h1 : (q.num : ℚ) / (q.den : ℚ) = q := Rat.num_div_den q
  have hd : (0 : ℚ) < (q.den : ℚ) := by exact_mod_cast q.den_pos
  conv_lhs => rw [← h1]
  rw [abs_div, abs_of_pos hd, Nat.cast_natAbs]
  push_cast
  rfl

/-- The exponent `ilog2 q` brackets `|q|` between two consecutive powers of
two. -/
theorem ilog2_spec (q : ℚ) (hq : q ≠ 0) :
    (2 : ℚ) ^ ilog2 q ≤ |q| ∧ |q| < (2 : ℚ) ^ (ilog2 q + 1) := by
  have hn0 : 0 < q.num.natAbs := Int.natAbs_pos.mpr (Rat.num_ne_zero.mpr hq)
  have hd0 : 0 < q.den := q.den_pos
  obtain ⟨n1, n2⟩ := natLog2_spec _ hn0
  obtain ⟨d1, d2⟩ := natLog2_spec _ hd0
  have habs := abs_eq_natAbs_div q
  set n := q.num.natAbs with hn
  have hdq : (0 : ℚ) < (q.den : ℚ) := by exact_mod_cast hd0
  have n1q : (2 : ℚ) ^ natLog2 n ≤ (n : ℚ) := by exact_mod_cast n1
  have n2q : (n : ℚ) < (2 : ℚ) ^ (natLog2 n + 1) := by exact_mod_cast n2
  have d1q : (2 : ℚ) ^ natLog2 q.den ≤ (q.den : ℚ) := by exact_mod_cast d1
  have d2q : (q.den : ℚ) < (2 : ℚ) ^ (natLog2 q.den + 1) := by exact_mod_cast d2
  have h2 : (2 : ℚ) ≠ 0 := by norm_num
  have hpn : (0 : ℚ) < (2 : ℚ) ^ natLog2 n := by positivity
  have hpd : (0 : ℚ) < (2 : ℚ) ^ natLog2 q.den := by positivity
  have ea : (2 : ℚ) ^ ((natLog2 n : ℤ) - (natLog2 q.den : ℤ)) =
      (2 : ℚ) ^ natLog2 n / (2 : ℚ) ^ natLog2 q.den := by
    rw [zpow_sub₀ h2, zpow_natCast, zpow_natCast]
  have hup : |q| < (2 : ℚ) ^ ((natLog2 n : ℤ) - (natLog2 q.den : ℤ) + 1) := by
    rw [zpow_add_one₀ h2, ea, habs, div_lt_iff₀ hdq]
    have e : (2 : ℚ) ^ natLog2 n / (2 : ℚ) ^ natLog2 q.den * 2 * (q.den : ℚ) =
        (2 : ℚ) ^ (natLog2 n + 1) * ((q.den : ℚ) / (2 : ℚ) ^ natLog2 q.den) := by
      rw [pow_succ]; field_simp
    rw [e]
    have h1 : (1 : ℚ) ≤ (q.den : ℚ) / (2 : ℚ) ^ natLog2 q.den := by
      rw [le_div_iff₀ hpd]; linarith
    have hp : (0 : ℚ) < (2 : ℚ) ^ (natLog2 n + 1) := by positivity
    nlinarith
  have hlo : (2 : ℚ) ^ ((natLog2 n : ℤ) - (natLog2 q.den : ℤ) - 1) ≤ |q| := by
    rw [zpow_sub_one₀ h2, ea, habs, le_div_iff₀ hdq]
    have e : (2 : ℚ) ^ natLog2 n / (2 : ℚ) ^ natLog2 q.den * 2⁻¹ * (q.den : ℚ) =
        (2 : ℚ) ^ natLog2 n * ((q.den : ℚ) / (2 : ℚ) ^ (natLog2 q.den + 1)) := by
      rw [pow_succ]; field_simp
    rw [e]
    have hp1 : (0 : ℚ) < (2 : ℚ) ^ (natLog2 q.den + 1) := by positivity
    have h1 : (q.den : ℚ) / (2 : ℚ) ^ (natLog2 q.den + 1) ≤ 1 := by
      rw [div_le_iff₀ hp1]; linarith
    nlinarith
  unfold ilog2
  by_cases hc : (2 : ℚ) ^ ((natLog2 n : ℤ) - (natLog2 q.den : ℤ)) ≤ |q|
  · rw [if_pos hc]
    exact ⟨hc, hup⟩
  · rw [if_neg hc]
    refine ⟨hlo, ?_⟩
    rw [sub_add_cancel]
    exact not_le.mp hc

theorem two_zpow_pos (e : ℤ) : (0 : ℚ) < (2 : ℚ) ^ e := zpow_pos (by norm_num) e

/-- The exponent is determined by the bracket. -/
theorem ilog2_unique {q : ℚ} {e : ℤ} (h1 : (2 : ℚ) ^ e ≤ |q|) (h2 : |q| < (2 : ℚ) ^ (e + 1)) :
    ilog2 q = e := by
  have hq : q ≠ 0 := by
    intro h0
    rw [h0, abs_zero] at h1
    exact absurd h1 (not_le.mpr (two_zpow_pos e))
  obtain ⟨s1, s2⟩ := ilog2_spec q hq
  have a1 : (2 : ℚ) ^ e < (2 : ℚ) ^ (ilog2 q + 1) := lt_of_le_of_lt h1 s2
  have a2 : (2 : ℚ) ^ ilog2 q < (2 : ℚ) ^ (e + 1) := lt_of_le_of_lt s1 h2
  rw [zpow_lt_zpow_iff_right₀ (by norm_num : (1 : ℚ) < 2)] at a1 a2
  omega

theorem ilog2_mono {x y : ℚ} (hx : x ≠ 0) (hxy : |x| ≤ |y|) : ilog2 x ≤ ilog2 y := by
  have hy : y ≠ 0 := by
    intro h0
    rw [h0, abs_zero] at hxy
    exact hx (abs_eq_zero.mp (le_antisymm hxy (abs_nonneg x)))
  obtain ⟨s1, _⟩ := ilog2_spec x hx
  obtain ⟨_, t2⟩ := ilog2_spec y hy
  have a : (2 : ℚ) ^ ilog2 x < (2 : ℚ) ^ (ilog2 y + 1) := lt_of_le_of_lt (le_trans s1 hxy) t2
  rw [zpow_lt_zpow_iff_right₀ (by norm_num : (1 : ℚ) < 2)] at a
  omega

theorem roundEven_cases (q : ℚ) : roundEven q = ⌊q⌋ ∧ q - ⌊q⌋ ≤ 1 / 2 ∨
    roundEven q = ⌊q⌋ + 1 ∧ 1 / 2 ≤ q - ⌊q⌋ := by
  unfold roundEven
  by_cases h1 : q - ⌊q⌋ < 1 / 2
  · rw [if_pos h1]; exact Or.inl ⟨rfl, le_of_lt h1⟩
  · rw [if_neg h1]
    by_cases h2 : 1 / 2 < q - ⌊q⌋
    · rw [if_pos h2]; exact Or.inr ⟨rfl, le_of_lt h2⟩
    · rw [if_neg h2]
      have h3 : q - ⌊q⌋ = 1 / 2 := le_antisymm (not_lt.mp h2) (not_lt.mp h1)
      by_cases h4 : ⌊q⌋ % 2 = 0
      · rw [if_pos h4]; exact Or.inl ⟨rfl, le_of_eq h3⟩
      · rw [if_neg h4]; exact Or.inr ⟨rfl, le_of_eq h3.symm⟩

/-- Rounding to an integer moves a number by at most one half. -/
theorem roundEven_err (q : ℚ) : |(roundEven q : ℚ) - q| ≤ 1 / 2 := by
  have h1 := Int.floor_le q
  have h2 := Int.lt_floor_add_one q
  rw [abs_le]
  rcases roundEven_cases q with ⟨e, h⟩ | ⟨e, h⟩
  · rw [e]; constructor <;> linarith
  · rw [e]; push_cast; constructor <;> linarith

theorem roundEven_intCast (n : ℤ) : roundEven (n : ℚ) = n := by
  unfold roundEven
  rw [Int.floor_intCast, sub_self, if_pos (by norm_num)]

theorem roundEven_le {q : ℚ} {n : ℤ} (h : q ≤ (n : ℚ)) : roundEven q ≤ n := by
  have h1 := Int.floor_le q
  have hfl : ⌊q⌋ ≤ n := by
    have := Int.floor_le_floor h
    rwa [Int.floor_intCast] at this
  rcases roundEven_cases q with ⟨e, _⟩ | ⟨e, hh⟩
  · rw [e]; exact hfl
  · rw [e]
    by_contra hc
    have : ⌊q⌋ = n := by omega
    rw [this] at hh
    linarith

theorem le_roundEven {q : ℚ} {n : ℤ} (h : (n : ℚ) ≤ q) : n ≤ roundEven q := by
  have hfl : n ≤ ⌊q⌋ := Int.le_floor.mpr h
  rcases roundEven_cases q with ⟨e, _⟩ | ⟨e, _⟩
  · rw [e]; exact hfl
  · rw [e]; omega

theorem rnd_zero (p : ℕ) : rnd p 0 = 0 := by
  unfold rnd
  rw [zero_div]
  have : roundEven 0 = 0 := by
    have := roundEven_intCast 0
    simpa using this
  rw [this]
  simp

/-- Rounding moves a number by at most half a unit in the last place, which
is at most `|q| / 2^p`. -/
theorem rnd_err (p : ℕ) (q : ℚ) : |rnd p q - q| ≤ |q| / 2 ^ p := by
  by_cases hq : q = 0
  · rw [hq, rnd_zero]; simp
  obtain ⟨s1, _⟩ := ilog2_spec q hq
  have hs : (0 : ℚ) < (2 : ℚ) ^ ulpExp p q := two_zpow_pos _
  have h2 : (2 : ℚ) ≠ 0 := by norm_num
  have herr := roundEven_err (q / 2 ^ ulpExp p q)
  have e1 : rnd p q - q = ((roundEven (q / 2 ^ ulpExp p q) : ℚ) - q / 2 ^ ulpExp p q) *
      2 ^ ulpExp p q := by
    unfold rnd
    field_simp
  have hu : (2 : ℚ) ^ ulpExp p q = (2 : ℚ) ^ ilog2 q * 2 / 2 ^ p := by
    unfold ulpExp
    rw [zpow_sub₀ h2, zpow_add_one₀ h2, zpow_natCast]
  rw [e1, abs_mul, abs_of_pos hs]
  have hp : (0 : ℚ) < (2 : ℚ) ^ p := by positivity
  calc |(roundEven (q / 2 ^ ulpExp p q) : ℚ) - q / 2 ^ ulpExp p q| * 2 ^ ulpExp p q
      ≤ 1 / 2 * 2 ^ ulpExp p q := mul_le_mul_of_nonneg_right herr hs.le
    _ = (2 : ℚ) ^ ilog2 q / 2 ^ p := by rw [hu]; field_simp
    _ ≤ |q| / 2 ^ p := div_le_div_of_nonneg_right s1 hp.le

/-- Relative error of rounding a non-negative number. -/
theorem rnd_bounds (p : ℕ) {q : ℚ} (hq : 0 ≤ q) :
    q * (1 - 1 / 2 ^ p) ≤ rnd p q ∧ rnd p q ≤ q * (1 + 1 / 2 ^ p) := by
  have h := rnd_err p q
  rw [abs_of_nonneg hq, abs_le] at h
  constructor
  · have : q * (1 - 1 / 2 ^ p) = q - q / 2 ^ p := by ring
    rw [this]; linarith
  · have : q * (1 + 1 / 2 ^ p) = q + q / 2 ^ p := by ring
    rw [this]; linarith

/-- Relative error `2^-24` for every format of at least 24 bits. -/
theorem rnd_bounds24 {p : ℕ} (hp : 24 ≤ p) {q : ℚ} (hq : 0 ≤ q) :
    q * (1 - 1 / 2 ^ 24) ≤ rnd p q ∧ rnd p q ≤ q * (1 + 1 / 2 ^ 24) := by
  obtain ⟨h1, h2⟩ := rnd_bounds p hq
  have hle : (1 : ℚ) / 2 ^ p ≤ 1 / 2 ^ 24 := by
    apply one_div_le_one_div_of_le (by positivity)
    exact pow_le_pow_right₀ (by norm_num) hp
  constructor
  · refine le_trans ?_ h1
    apply mul_le_mul_of_nonneg_left _ hq
    linarith
  · refine le_trans h2 ?_
    apply mul_le_mul_of_nonneg_left _ hq
    linarith

theorem rnd_nonneg (p : ℕ) {q : ℚ} (hq : 0 ≤ q) : 0 ≤ rnd p q := by
  unfold rnd
  apply mul_nonneg _ (two_zpow_pos _).le
  have : (0 : ℤ) ≤ roundEven (q / 2 ^ ulpExp p q) := by
    apply le_roundEven
    push_cast
    exact div_nonneg hq (two_zpow_pos _).le
  exact_mod_cast this

theorem rnd_pos {p : ℕ} (hp : 1 ≤ p) {q : ℚ} (hq : 0 < q) : 0 < rnd p q := by
  obtain ⟨h1, _⟩ := rnd_bounds p hq.le
  have h2 : (1 : ℚ) / 2 ^ p ≤ 1 / 2 ^ 1 := by
    apply one_div_le_one_div_of_le (by positivity)
    exact pow_le_pow_right₀ (by norm_num) hp
  have : 0 < q * (1 - 1 / 2 ^ p) := by
    apply mul_pos hq
    norm_num at h2 ⊢
    linarith
  linarith

/-- A number with a significand of at most `p` bits is not changed by
rounding. -/
theorem rnd_repr (p : ℕ) (m e : ℤ) (hm : |m| < 2 ^ p) :
    rnd p ((m : ℚ) * 2 ^ e) = (m : ℚ) * 2 ^ e := by
  by_cases hm0 : m = 0
  · rw [hm0]; simp [rnd_zero]
  have h2 : (2 : ℚ) ≠ 0 := by norm_num
  have hx : (m : ℚ) * 2 ^ e ≠ 0 := mul_ne_zero (by exact_mod_cast hm0) (zpow_ne_zero _ h2)
  obtain ⟨s1, _⟩ := ilog2_spec _ hx
  have habs : |(m : ℚ) * 2 ^ e| < (2 : ℚ) ^ (e + (p : ℤ)) := by
    rw [abs_mul, abs_of_pos (two_zpow_pos e), zpow_add₀ h2, mul_comm, zpow_natCast]
    apply mul_lt_mul_of_pos_left _ (two_zpow_pos e)
    have : |(m : ℚ)| = ((|m| : ℤ) : ℚ) := by push_cast; rfl
    rw [this]
    exact_mod_cast hm
  have hlt : (2 : ℚ) ^ ilog2 ((m : ℚ) * 2 ^ e) < (2 : ℚ) ^ (e + (p : ℤ)) := lt_of_le_of_lt s1 habs
  rw [zpow_lt_zpow_iff_right₀ (by norm_num : (1 : ℚ) < 2)] at hlt
  have hk : 0 ≤ e - ulpExp p ((m : ℚ) * 2 ^ e) := by unfold ulpExp; omega
  obtain ⟨k, hk⟩ := Int.eq_ofNat_of_zero_le hk
  have he : e = ulpExp p ((m : ℚ) * 2 ^ e) + (k : ℤ) := by omega
  unfold rnd
  generalize ulpExp p ((m : ℚ) * 2 ^ e) = u at he
  have hq : (m : ℚ) * 2 ^ e / 2 ^ u = ((m * 2 ^ k : ℤ) : ℚ) := by
    rw [he, zpow_add₀ h2, zpow_natCast]
    push_cast
    field_simp
    ring
  rw [hq, roundEven_intCast, he, zpow_add₀ h2, zpow_natCast]
  push_cast
  ring

theorem rnd_natCast (p : ℕ) (n : ℕ) (hn : n < 2 ^ p) : rnd p (n : ℚ) = (n : ℚ) := by
  have := rnd_repr p (n : ℤ) 0 (by rw [abs_of_nonneg (Int.natCast_nonneg n)]; exact_mod_cast hn)
  simpa using this

/-- The rounding of a positive number stays between the two powers of two
that bracket it. -/
theorem rnd_bracket {p : ℕ} (hp : 1 ≤ p) {q : ℚ} (hq : 0 < q) :
    (2 : ℚ) ^ ilog2 q ≤ rnd p q ∧ rnd p q ≤ (2 : ℚ) ^ (ilog2 q + 1) := by
  obtain ⟨s1, s2⟩ := ilog2_spec q hq.ne'
  rw [abs_of_pos hq] at s1 s2
  have h2 : (2 : ℚ) ≠ 0 := by norm_num
  have hs : (0 : ℚ) < (2 : ℚ) ^ ulpExp p q := two_zpow_pos _
  have e1 : (2 : ℚ) ^ ilog2 q = ((2 ^ (p - 1) : ℤ) : ℚ) * 2 ^ ulpExp p q := by
    unfold ulpExp
    push_cast
    rw [← zpow_natCast, ← zpow_add₀ h2]
    congr 1
    have : ((p - 1 : ℕ) : ℤ) = (p : ℤ) - 1 := by omega
    rw [this]; ring
  have e2 : (2 : ℚ) ^ (ilog2 q + 1) = ((2 ^ p : ℤ) : ℚ) * 2 ^ ulpExp p q := by
    unfold ulpExp
    push_cast
    rw [← zpow_natCast, ← zpow_add₀ h2]
    congr 1
    ring
  constructor
  · rw [e1]
    unfold rnd
    apply mul_le_mul_of_nonneg_right _ hs.le
    have : (2 ^ (p - 1) : ℤ) ≤ roundEven (q / 2 ^ ulpExp p q) := by
      apply le_roundEven
      rw [le_div_iff₀ hs, ← e1]
      exact s1
    exact_mod_cast this
  · rw [e2]
    unfold rnd
    apply mul_le_mul_of_nonneg_right _ hs.le
    have : roundEven (q / 2 ^ ulpExp p q) ≤ (2 ^ p : ℤ) := by
      apply roundEven_le
      rw [div_le_iff₀ hs, ← e2]
      exact s2.le
    exact_mod_cast this

theorem roundEven_mono {a b : ℚ} (h : a ≤ b) : roundEven a ≤ roundEven b := by
  have hfl : ⌊a⌋ ≤ ⌊b⌋ := Int.floor_le_floor h
  rcases lt_or_eq_of_le hfl with hlt | heq
  · have h1 : roundEven a ≤ ⌊a⌋ + 1 := by
      rcases roundEven_cases a with ⟨e, _⟩ | ⟨e, _⟩
      · rw [e]; omega
      · rw [e]
    have h2 : ⌊b⌋ ≤ roundEven b := by
      rcases roundEven_cases b with ⟨e, _⟩ | ⟨e, _⟩
      · rw [e]
      · rw [e]; omega
    omega
  · unfold roundEven
    rw [← heq]
    by_cases a1 : a - ⌊a⌋ < 1 / 2
    · rw [if_pos a1]
      split_ifs <;> omega
    · rw [if_neg a1]
      have b1 : ¬ b - (⌊a⌋ : ℚ) < 1 / 2 := by
        intro hb; apply a1; linarith
      rw [if_neg b1]
      by_cases a2 : 1 / 2 < a - ⌊a⌋
      · rw [if_pos a2, if_pos (by linarith)]
      · rw [if_neg a2]
        by_cases b2 : 1 / 2 < b - (⌊a⌋ : ℚ)
        · rw [if_pos b2]
          split_ifs <;> omega
        · rw [if_neg b2]

/-- Rounding is monotone on the non-negative numbers. -/
theorem rnd_mono {p : ℕ} (hp : 1 ≤ p) {x y : ℚ} (hx : 0 ≤ x) (hxy : x ≤ y) :
    rnd p x ≤ rnd p y := by
  rcases eq_or_lt_of_le hx with h0 | hpos
  · rw [← h0, rnd_zero]
    exact rnd_nonneg p (le_trans hx hxy)
  have hy : 0 < y := lt_of_lt_of_le hpos hxy
  have hm : ilog2 x ≤ ilog2 y := ilog2_mono hpos.ne' (by rwa [abs_of_pos hpos, abs_of_pos hy])
  rcases lt_or_eq_of_le hm with hlt | heq
  · obtain ⟨_, a2⟩ := rnd_bracket hp hpos
    obtain ⟨b1, _⟩ := rnd_bracket hp hy
    have : (2 : ℚ) ^ (ilog2 x + 1) ≤ (2 : ℚ) ^ ilog2 y :=
      zpow_le_zpow_right₀ (by norm_num) (by omega)
    linarith
  · have hu : ulpExp p x = ulpExp p y := by unfold ulpExp; rw [heq]
    unfold rnd
    rw [hu]
    apply mul_le_mul_of_nonneg_right _ (two_zpow_pos _).le
    have : roundEven (x / 2 ^ ulpExp p y) ≤ roundEven (y / 2 ^ ulpExp p y) :=
      roundEven_mono (div_le_div_of_nonneg_right hxy (two_zpow_pos _).le)
    exact_mod_cast this

theorem prec_ge (f : FloatFormat) : 24 ≤ f.prec := by
  cases f <;> decide

theorem f32_bounds {q : ℚ} (hq : 0 ≤ q) :
    q * (1 - 1 / 2 ^ 24) ≤ f32 q ∧ f32 q ≤ q * (1 + 1 / 2 ^ 24) :=
  rnd_bounds 24 hq

theorem dbl_bounds (hw : Hw) {q : ℚ} (hq : 0 ≤ q) :
    q * (1 - 1 / 2 ^ 24) ≤ dbl hw q ∧ dbl hw q ≤ q * (1 + 1 / 2 ^ 24) :=
  rnd_bounds24 (prec_ge hw.double) hq

theorem f32_nonneg {q : ℚ} (hq : 0 ≤ q) : 0 ≤ f32 q := rnd_nonneg 24 hq

theorem dbl_nonneg (hw : Hw) {q : ℚ} (hq : 0 ≤ q) : 0 ≤ dbl hw q := rnd_nonneg _ hq

theorem f32_pos {q : ℚ} (hq : 0 < q) : 0 < f32 q := rnd_pos (by decide) hq

theorem dbl_pos (hw : Hw) {q : ℚ} (hq : 0 < q) : 0 < dbl hw q :=
  rnd_pos (le_trans (by decide) (prec_ge hw.double)) hq

theorem f32_mono {x y : ℚ} (hx : 0 ≤ x) (hxy : x ≤ y) : f32 x ≤ f32 y :=
  rnd_mono (by decide) hx hxy

theorem dbl_mono (hw : Hw) {x y : ℚ} (hx : 0 ≤ x) (hxy : x ≤ y) : dbl hw x ≤ dbl hw y :=
  rnd_mono (le_trans (by decide) (prec_ge hw.double)) hx hxy

theorem f32_natCast (n : ℕ) (hn : n < 2 ^ 24) : f32 (n : ℚ) = (n : ℚ) := rnd_natCast 24 n hn

theorem dbl_natCast (hw : Hw) (n : ℕ) (hn : n < 2 ^ 24) : dbl hw (n : ℚ) = (n : ℚ) :=
  rnd_natCast _ n (lt_of_lt_of_le hn (Nat.pow_le_pow_right (by decide) (prec_ge hw.double)))

/-! ## Propagation of rounding errors -/

theorem within_refl (x : ℚ) : within 1 1 x x := by
  unfold within; constructor <;> simp

theorem within_nonneg {lo hi x' x : ℚ} (hx : 0 ≤ x) (hlo : 0 ≤ lo) (h : within lo hi x' x) :
    0 ≤ x' := le_trans (mul_nonneg hx hlo) h.1

theorem within_pos {lo hi x' x : ℚ} (hx : 0 < x) (hlo : 0 < lo) (h : within lo hi x' x) :
    0 < x' := lt_of_lt_of_le (mul_pos hx hlo) h.1

theorem within_weaken {lo hi lo' hi' x' x : ℚ} (hx : 0 ≤ x) (h : within lo hi x' x)
    (h1 : lo' ≤ lo) (h2 : hi ≤ hi') : within lo' hi' x' x :=
  ⟨le_trans (mul_le_mul_of_nonneg_left h1 hx) h.1,
    le_trans h.2 (mul_le_mul_of_nonneg_left h2 hx)⟩

/-- One rounding widens the enclosure by `1 ± 2^-24`. -/
theorem within_rnd {p : ℕ} (hp : 24 ≤ p) {lo hi x' x : ℚ} (hx : 0 ≤ x) (hlo : 0 ≤ lo)
    (h : within lo hi x' x) :
    within (lo * (1 - 1 / 2 ^ 24)) (hi * (1 + 1 / 2 ^ 24)) (rnd p x') x := by
  have hx' := within_nonneg hx hlo h
  obtain ⟨r1, r2⟩ := rnd_bounds24 hp hx'
  constructor
  · refine le_trans ?_ r1
    rw [← mul_assoc]
    exact mul_le_mul_of_nonneg_right h.1 (by norm_num)
  · refine le_trans r2 ?_
    rw [← mul_assoc]
    exact mul_le_mul_of_nonneg_right h.2 (by norm_num)

theorem within_f32 {lo hi x' x : ℚ} (hx : 0 ≤ x) (hlo : 0 ≤ lo) (h : within lo hi x' x) :
    within (lo * (1 - 1 / 2 ^ 24)) (hi * (1 + 1 / 2 ^ 24)) (f32 x') x :=
  within_rnd (le_refl 24) hx hlo h

theorem within_dbl (hw : Hw) {lo hi x' x : ℚ} (hx : 0 ≤ x) (hlo : 0 ≤ lo)
    (h : within lo hi x' x) :
    within (lo * (1 - 1 / 2 ^ 24)) (hi * (1 + 1 / 2 ^ 24)) (dbl hw x') x :=
  within_rnd (prec_ge hw.double) hx hlo h

theorem within_mul_const {lo hi x' x : ℚ} (c : ℚ) (hc : 0 ≤ c) (h : within lo hi x' x) :
    within lo hi (x' * c) (x * c) := by
  constructor
  · have := mul_le_mul_of_nonneg_right h.1 hc
    calc x * c * lo = x * lo * c := by ring
      _ ≤ x' * c := this
  · have := mul_le_mul_of_nonneg_right h.2 hc
    calc x' * c ≤ x * hi * c := this
      _ = x * c * hi := by ring

theorem within_div_const {lo hi x' x : ℚ} (c : ℚ) (hc : 0 ≤ c) (h : within lo hi x' x) :
    within lo hi (x' / c) (x / c) := by
  have := within_mul_const c⁻¹ (inv_nonneg.mpr hc) h
  simpa [div_eq_mul_inv] using this

theorem within_add_left {lo hi x' x : ℚ} (c : ℚ) (hc : 0 ≤ c) (hlo : lo ≤ 1) (hhi : 1 ≤ hi)
    (h : within lo hi x' x) : within lo hi (c + x') (c + x) := by
  constructor
  · have : c * lo ≤ c := by
      calc c * lo ≤ c * 1 := mul_le_mul_of_nonneg_left hlo hc
        _ = c := mul_one c
    have h1 := h.1
    calc (c + x) * lo = c * lo + x * lo := by ring
      _ ≤ c + x' := by linarith
  · have : c ≤ c * hi := by
      calc c = c * 1 := (mul_one c).symm
        _ ≤ c * hi := mul_le_mul_of_nonneg_left hhi hc
    have h2 := h.2
    calc c + x' ≤ c * hi + x * hi := by linarith
      _ = (c + x) * hi := by ring

/-- Enclosure of a quotient of two enclosed positive quantities. -/
theorem within_div {lo1 hi1 lo2 hi2 x' x y' y : ℚ} (hx : 0 ≤ x) (hy : 0 < y)
    (hlo1 : 0 ≤ lo1) (hlo2 : 0 < lo2) (h1 : within lo1 hi1 x' x) (h2 : within lo2 hi2 y' y) :
    within (lo1 / hi2) (hi1 / lo2) (x' / y') (x / y) := by
  have hy' : 0 < y' := within_pos hy hlo2 h2
  have hx' : 0 ≤ x' := within_nonneg hx hlo1 h1
  have hhi2 : 0 < hi2 := by
    have : y * lo2 ≤ y * hi2 := le_trans h2.1 h2.2
    have h3 : 0 < y * hi2 := lt_of_lt_of_le (mul_pos hy hlo2) this
    by_contra hc
    have hc := not_lt.mp hc
    have : y * hi2 ≤ 0 := mul_nonpos_of_nonneg_of_nonpos hy.le hc
    linarith
  constructor
  · rw [le_div_iff₀ hy']
    have e : x / y * (lo1 / hi2) * y' = x * lo1 * (y' / (y * hi2)) := by
      field_simp
    rw [e]
    have h3 : y' / (y * hi2) ≤ 1 := by
      rw [div_le_one (mul_pos hy hhi2)]
      exact h2.2
    calc x * lo1 * (y' / (y * hi2)) ≤ x * lo1 * 1 :=
          mul_le_mul_of_nonneg_left h3 (mul_nonneg hx hlo1)
      _ = x * lo1 := mul_one _
      _ ≤ x' := h1.1
  · rw [div_le_iff₀ hy']
    have e : x / y * (hi1 / lo2) * y' = x * hi1 * (y' / (y * lo2)) := by
      field_simp
    rw [e]
    have hhi1 : 0 ≤ x * hi1 := le_trans hx' h1.2
    have h3 : 1 ≤ y' / (y * lo2) := by
      rw [one_le_div (mul_pos hy hlo2)]
      exact h2.1
    calc x' ≤ x * hi1 := h1.2
      _ = x * hi1 * 1 := (mul_one _).symm
      _ ≤ x * hi1 * (y' / (y * lo2)) := mul_le_mul_of_nonneg_left h3 hhi1

/-- An enclosure within `1 ± e` bounds the absolute error by `x * e`. -/
theorem within_abs {x' x e : ℚ} (h : within (1 - e) (1 + e) x' x) : |x' - x| ≤ x * e := by
  obtain ⟨h1, h2⟩ := h
  rw [abs_le]
  constructor
  · have : x * (1 - e) = x - x * e := by ring
    linarith
  · have : x * (1 + e) = x + x * e := by ring
    linarith

/-- The decoders' `rfreq` encloses the number the two fields stand for. -/
theorem rfreqDec_within (rfreqint rfreqfrac : ℕ) :
    within ((1 - 1 / 2 ^ 24) * (1 - 1 / 2 ^ 24) * (1 - 1 / 2 ^ 24))
      ((1 + 1 / 2 ^ 24) * (1 + 1 / 2 ^ 24) * (1 + 1 / 2 ^ 24))
      (rfreqDec rfreqint rfreqfrac) (rfreqOf rfreqint rfreqfrac) := by
  have hF : (0 : ℚ) ≤ (rfreqfrac : ℚ) := Nat.cast_nonneg _
  have hI : (0 : ℚ) ≤ (rfreqint : ℚ) := Nat.cast_nonneg _
  have a := within_f32 hF (by norm_num) (within_refl (rfreqfrac : ℚ))
  have b := within_div_const 0x10000000 (by norm_num) a
  have hFd : (0 : ℚ) ≤ (rfreqfrac : ℚ) / 0x10000000 := div_nonneg hF (by norm_num)
  have c := within_f32 hFd (by norm_num) b
  have d := within_add_left (rfreqint : ℚ) hI (by norm_num) (by norm_num) c
  have e := within_f32 (add_nonneg hI hFd) (by norm_num) d
  unfold rfreqDec rfreqOf
  simpa using e

theorem rfreqOf_nonneg (rfreqint rfreqfrac : ℕ) : 0 ≤ rfreqOf rfreqint rfreqfrac := by
  unfold rfreqOf; positivity

theorem rfreqDec_nonneg (rfreqint rfreqfrac : ℕ) : 0 ≤ rfreqDec rfreqint rfreqfrac :=
  within_nonneg (rfreqOf_nonneg _ _) (by norm_num) (rfreqDec_within _ _)

theorem rfreqDec_pos {rfreqint rfreqfrac : ℕ} (h : 0 < rfreqOf rfreqint rfreqfrac) :
    0 < rfreqDec rfreqint rfreqfrac :=
  within_pos h (by norm_num) (rfreqDec_within _ _)

/-! ## Scaling by a power of two and idempotence -/

theorem ilog2_mul_zpow {q : ℚ} (hq : q ≠ 0) (k : ℤ) : ilog2 (q * 2 ^ k) = ilog2 q + k := by
  obtain ⟨s1, s2⟩ := ilog2_spec q hq
  have h2 : (2 : ℚ) ≠ 0 := by norm_num
  have hk : (0 : ℚ) < (2 : ℚ) ^ k := two_zpow_pos k
  apply ilog2_unique
  · rw [abs_mul, abs_of_pos hk, zpow_add₀ h2]
    exact mul_le_mul_of_nonneg_right s1 hk.le
  · rw [abs_mul, abs_of_pos hk]
    have : ilog2 q + k + 1 = (ilog2 q + 1) + k := by ring
    rw [this, zpow_add₀ h2]
    exact mul_lt_mul_of_pos_right s2 hk

/-- Multiplication by a power of two commutes with rounding (the exponent
range being unbounded). -/
theorem rnd_mul_zpow (p : ℕ) (q : ℚ) (k : ℤ) : rnd p (q * 2 ^ k) = rnd p q * 2 ^ k := by
  by_cases hq : q = 0
  · rw [hq, zero_mul, rnd_zero, zero_mul]
  have h2 : (2 : ℚ) ≠ 0 := by norm_num
  have hu : ulpExp p (q * 2 ^ k) = ulpExp p q + k := by
    unfold ulpExp
    rw [ilog2_mul_zpow hq]
    ring
  unfold rnd
  rw [hu, zpow_add₀ h2]
  have e : q * 2 ^ k / (2 ^ ulpExp p q * 2 ^ k) = q / 2 ^ ulpExp p q := by
    field_simp
    ring
  rw [e]
  ring

theorem rnd_div_pow (p : ℕ) (q : ℚ) (k : ℕ) : rnd p (q / 2 ^ k) = rnd p q / 2 ^ k := by
  have := rnd_mul_zpow p q (-(k : ℤ))
  rw [zpow_neg, zpow_natCast] at this
  simpa [div_eq_mul_inv] using this

/-- A rounded non-negative number is not changed by rounding again. -/
theorem rnd_idem {p : ℕ} (hp : 1 ≤ p) {q : ℚ} (hq : 0 ≤ q) : rnd p (rnd p q) = rnd p q := by
  rcases eq_or_lt_of_le hq with h0 | hpos
  · rw [← h0, rnd_zero, rnd_zero]
  obtain ⟨_, b2⟩ := rnd_bracket hp hpos
  have h2 : (2 : ℚ) ≠ 0 := by norm_num
  have hs : (0 : ℚ) < (2 : ℚ) ^ ulpExp p q := two_zpow_pos _
  have e2 : (2 : ℚ) ^ (ilog2 q + 1) = ((2 ^ p : ℤ) : ℚ) * 2 ^ ulpExp p q := by
    unfold ulpExp
    push_cast
    rw [← zpow_natCast, ← zpow_add₀ h2]
    congr 1
    ring
  have hm0 : (0 : ℤ) ≤ roundEven (q / 2 ^ ulpExp p q) := by
    apply le_roundEven
    push_cast
    exact div_nonneg hq hs.le
  have hm : roundEven (q / 2 ^ ulpExp p q) ≤ (2 ^ p : ℤ) := by
    have : (roundEven (q / 2 ^ ulpExp p q) : ℚ) * 2 ^ ulpExp p q ≤
        ((2 ^ p : ℤ) : ℚ) * 2 ^ ulpExp p q := by
      rw [← e2]; exact b2
    have := le_of_mul_le_mul_right this hs
    exact_mod_cast this
  have hdef : rnd p q = (roundEven (q / 2 ^ ulpExp p q) : ℚ) * 2 ^ ulpExp p q := rfl
  rw [hdef]
  rcases lt_or_eq_of_le hm with hlt | heq
  · exact rnd_repr p _ _ (by rw [abs_of_nonneg hm0]; exact hlt)
  · rw [heq]
    have e3 : ((2 ^ p : ℤ) : ℚ) * 2 ^ ulpExp p q =
        ((2 ^ (p - 1) : ℤ) : ℚ) * 2 ^ (ulpExp p q + 1) := by
      rw [zpow_add_one₀ h2]
      push_cast
      have : (2 : ℚ) ^ p = 2 ^ (p - 1) * 2 := by
        rw [← pow_succ]
        congr 1
        omega
      rw [this]
      ring
    rw [e3]
    apply rnd_repr
    rw [abs_of_nonneg (by positivity)]
    exact pow_lt_pow_right₀ (by norm_num) (by omega)

theorem f32_idem {q : ℚ} (hq : 0 ≤ q) : f32 (f32 q) = f32 q := rnd_idem (by decide) hq

/-- Dividing a `float` by a power of two is exact. -/
theorem f32_div_pow {q : ℚ} (hq : 0 ≤ q) (k : ℕ) : f32 (f32 q / 2 ^ k) = f32 q / 2 ^ k := by
  unfold f32
  rw [rnd_div_pow, rnd_idem (by decide) hq]

/-! ## Conversions -/

theorem truncZ_of_floor {q : ℚ} {k : ℕ} (h1 : (k : ℚ) ≤ q) (h2 : q < (k : ℚ) + 1) :
    truncZ q = (k : ℤ) := by
  have h0 : (0 : ℚ) ≤ q := le_trans (Nat.cast_nonneg k) h1
  unfold truncZ
  rw [if_pos h0, Int.floor_eq_iff]
  exact ⟨by exact_mod_cast h1, by exact_mod_cast h2⟩

theorem toUInt_of_floor {w : ℕ} {q : ℚ} {k : ℕ} (h1 : (k : ℚ) ≤ q) (h2 : q < (k : ℚ) + 1)
    (hk : k < 2 ^ w) : toUInt w q = k := by
  unfold toUInt
  rw [truncZ_of_floor h1 h2]
  have h3 : ((k : ℤ) % (2 : ℤ) ^ w) = (k : ℤ) := by
    apply Int.emod_eq_of_lt (Int.natCast_nonneg k)
    exact_mod_cast hk
  rw [h3]
  exact Int.toNat_natCast k

theorem toUInt_nonneg {w : ℕ} {q : ℚ} (h0 : 0 ≤ q) : toUInt w q = ⌊q⌋₊ % 2 ^ w := by
  unfold toUInt truncZ
  rw [if_pos h0]
  have h1 : ⌊q⌋ = ((⌊q⌋₊ : ℕ) : ℤ) := (Int.natCast_floor_eq_floor h0).symm
  rw [h1]
  have h2 : ((⌊q⌋₊ : ℕ) : ℤ) % (2 : ℤ) ^ w = ((⌊q⌋₊ % 2 ^ w : ℕ) : ℤ) := by
    push_cast
    rfl
  rw [h2]
  exact Int.toNat_natCast _

/-! ## Divider search -/

/-- The quotient of line 207 before its conversion to `uint8`. -/
theorem n1Cand_of_floor {hw : Hw} {fout : ℚ} {s k : ℕ}
    (h1 : (k : ℚ) ≤ dbl hw (5260 / f32 (fout * (s : ℚ))))
    (h2 : dbl hw (5260 / f32 (fout * (s : ℚ))) < (k : ℚ) + 1) (hk : k < 256) :
    n1Cand hw fout s = if k > 1 ∧ k % 2 = 1 then (k + 1) % 256 else k := by
  have hc : SI570_DCO_CENTER = 5260 := by
    norm_num [SI570_DCO_CENTER, SI570_DCO_MIN, SI570_DCO_MAX]
  have hq : toUInt 8 (dbl hw (SI570_DCO_CENTER / f32 (fout * (s : ℚ)))) = k := by
    rw [hc]
    exact toUInt_of_floor h1 h2 (by norm_num; exact hk)
  unfold n1Cand
  simp only [hq, Nat.and_one_is_mod]
  by_cases h : k > 1 ∧ k % 2 = 1
  · rw [if_pos h, if_pos]; exact ⟨h.1, by omega⟩
  · rw [if_neg h, if_neg]; intro h'; exact h ⟨h'.1, by omega⟩

/-- The candidate is the even number `2 * j` when the quotient lies in
`[2 * j - 1, 2 * j + 1)`. -/
theorem n1Cand_even {hw : Hw} {fout : ℚ} {s j : ℕ} (hj : 2 ≤ j) (hj64 : j ≤ 64)
    (h1 : (2 * (j : ℚ) - 1) ≤ dbl hw (5260 / f32 (fout * (s : ℚ))))
    (h2 : dbl hw (5260 / f32 (fout * (s : ℚ))) < 2 * (j : ℚ) + 1) :
    n1Cand hw fout s = 2 * j := by
  have hq0 : (0 : ℚ) ≤ dbl hw (5260 / f32 (fout * (s : ℚ))) := by
    have : (3 : ℚ) ≤ 2 * (j : ℚ) - 1 := by
      have : (2 : ℚ) ≤ (j : ℚ) := by exact_mod_cast hj
      linarith
    linarith
  have hfl := Nat.floor_le hq0
  have hlt := Nat.lt_floor_add_one (dbl hw (5260 / f32 (fout * (s : ℚ))))
  have hk1 : 2 * j - 1 ≤ ⌊dbl hw (5260 / f32 (fout * (s : ℚ)))⌋₊ := by
    apply Nat.le_floor
    have : ((2 * j - 1 : ℕ) : ℚ) = 2 * (j : ℚ) - 1 := by
      rw [Nat.cast_sub (by omega)]; push_cast; ring
    rw [this]; exact h1
  have hk2 : ⌊dbl hw (5260 / f32 (fout * (s : ℚ)))⌋₊ < 2 * j + 1 := by
    apply (Nat.floor_lt hq0).2
    push_cast
    exact h2
  generalize ⌊dbl hw (5260 / f32 (fout * (s : ℚ)))⌋₊ = k at hfl hlt hk1 hk2
  rw [n1Cand_of_floor hfl hlt (by omega)]
  by_cases hc : k > 1 ∧ k % 2 = 1
  · rw [if_pos hc]; omega
  · rw [if_neg hc]; omega

theorem testDco_bounds {fout : ℚ} {s i : ℕ} {a b : ℚ} (ha : 0 ≤ a) (hfa : a ≤ fout)
    (hfb : fout ≤ b) :
    a * (s : ℚ) * (1 - 1 / 2 ^ 24) * (i : ℚ) * (1 - 1 / 2 ^ 24) ≤ testDco fout s i ∧
    testDco fout s i ≤ b * (s : ℚ) * (1 + 1 / 2 ^ 24) * (i : ℚ) * (1 + 1 / 2 ^ 24) := by
  have hs : (0 : ℚ) ≤ (s : ℚ) := Nat.cast_nonneg s
  have hi : (0 : ℚ) ≤ (i : ℚ) := Nat.cast_nonneg i
  have hf0 : 0 ≤ fout := le_trans ha hfa
  have hp0 : 0 ≤ fout * (s : ℚ) := mul_nonneg hf0 hs
  obtain ⟨y1, y2⟩ := f32_bounds hp0
  have hy0 : 0 ≤ f32 (fout * (s : ℚ)) := f32_nonneg hp0
  obtain ⟨t1, t2⟩ := f32_bounds (mul_nonneg hy0 hi)
  have hu1 : (0 : ℚ) ≤ 1 - 1 / 2 ^ 24 := by norm_num
  have hu2 : (0 : ℚ) ≤ 1 + 1 / 2 ^ 24 := by norm_num
  unfold testDco
  constructor
  · refine le_trans ?_ t1
    apply mul_le_mul_of_nonneg_right _ hu1
    apply mul_le_mul_of_nonneg_right _ hi
    refine le_trans ?_ y1
    apply mul_le_mul_of_nonneg_right _ hu1
    exact mul_le_mul_of_nonneg_right hfa hs
  · refine le_trans t2 ?_
    apply mul_le_mul_of_nonneg_right _ hu2
    apply mul_le_mul_of_nonneg_right _ hi
    refine le_trans y2 ?_
    apply mul_le_mul_of_nonneg_right _ hu2
    exact mul_le_mul_of_nonneg_right hfb hs

/-- Bounds of the rounded product `fout * s` and of the quotient of line 207
for a target in `[a, b]`. -/
theorem quot_bounds (hw : Hw) {fout : ℚ} {s : ℕ} {a b : ℚ} (ha : 0 < a) (hs : 0 < s)
    (hfa : a ≤ fout) (hfb : fout ≤ b) :
    0 < f32 (fout * (s : ℚ)) ∧
    a * (s : ℚ) * (1 - 1 / 2 ^ 24) ≤ f32 (fout * (s : ℚ)) ∧
    f32 (fout * (s : ℚ)) ≤ b * (s : ℚ) * (1 + 1 / 2 ^ 24) ∧
    5260 * (1 - 1 / 2 ^ 24) ≤ dbl hw (5260 / f32 (fout * (s : ℚ))) * f32 (fout * (s : ℚ)) ∧
    dbl hw (5260 / f32 (fout * (s : ℚ))) * f32 (fout * (s : ℚ)) ≤ 5260 * (1 + 1 / 2 ^ 24) := by
  have hsq : (0 : ℚ) < (s : ℚ) := by exact_mod_cast hs
  have hf0 : 0 < fout := lt_of_lt_of_le ha hfa
  have hp0 : 0 < fout * (s : ℚ) := mul_pos hf0 hsq
  obtain ⟨y1, y2⟩ := f32_bounds hp0.le
  have hy : 0 < f32 (fout * (s : ℚ)) := f32_pos hp0
  have hu1 : (0 : ℚ) ≤ 1 - 1 / 2 ^ 24 := by norm_num
  have hu2 : (0 : ℚ) ≤ 1 + 1 / 2 ^ 24 := by norm_num
  obtain ⟨q1, q2⟩ := dbl_bounds hw (div_nonneg (by norm_num : (0 : ℚ) ≤ 5260) hy.le)
  refine ⟨hy, ?_, ?_, ?_, ?_⟩
  · refine le_trans ?_ y1
    apply mul_le_mul_of_nonneg_right _ hu1
    exact mul_le_mul_of_nonneg_right hfa hsq.le
  · refine le_trans y2 ?_
    apply mul_le_mul_of_nonneg_right _ hu2
    exact mul_le_mul_of_nonneg_right hfb hsq.le
  · have := mul_le_mul_of_nonneg_right q1 hy.le
    have e : 5260 / f32 (fout * (s : ℚ)) * (1 - 1 / 2 ^ 24) * f32 (fout * (s : ℚ)) =
        5260 * (1 - 1 / 2 ^ 24) := by field_simp; ring
    rw [e] at this
    exact this
  · have := mul_le_mul_of_nonneg_right q2 hy.le
    have e : 5260 / f32 (fout * (s : ℚ)) * (1 + 1 / 2 ^ 24) * f32 (fout * (s : ℚ)) =
        5260 * (1 + 1 / 2 ^ 24) := by field_simp; ring
    rw [e] at this
    exact this

/-- For a target in `[a, b]` whose quotient stays in `[2 * j - 1, 2 * j + 1)`
and whose DCO frequency for `n1 = 2 * j` stays inside the range, rounding
included, the candidate of `s` is acceptable. -/
theorem candOk_even (hw : Hw) {fout : ℚ} {s j : ℕ} {a b : ℚ} (ha : 0 < a) (hs : 0 < s)
    (hfa : a ≤ fout) (hfb : fout ≤ b) (hj : 2 ≤ j) (hj64 : j ≤ 64)
    (c1 : (2 * (j : ℚ) - 1) * (b * (s : ℚ) * (1 + 1 / 2 ^ 24)) ≤ 5260 * (1 - 1 / 2 ^ 24))
    (c2 : 5260 * (1 + 1 / 2 ^ 24) < (2 * (j : ℚ) + 1) * (a * (s : ℚ) * (1 - 1 / 2 ^ 24)))
    (c3 : 4850 < a * (s : ℚ) * (1 - 1 / 2 ^ 24) * ((2 * j : ℕ) : ℚ) * (1 - 1 / 2 ^ 24))
    (c4 : b * (s : ℚ) * (1 + 1 / 2 ^ 24) * ((2 * j : ℕ) : ℚ) * (1 + 1 / 2 ^ 24) < 5670) :
    candOk hw fout s := by
  obtain ⟨hy, y1, y2, q1, q2⟩ := quot_bounds hw ha hs hfa hfb
  have hj2 : (2 : ℚ) ≤ (j : ℚ) := by exact_mod_cast hj
  have hn : n1Cand hw fout s = 2 * j := by
    apply n1Cand_even hj hj64
    · have h3 : (2 * (j : ℚ) - 1) * f32 (fout * (s : ℚ)) ≤ 5260 * (1 - 1 / 2 ^ 24) := by
        refine le_trans ?_ c1
        apply mul_le_mul_of_nonneg_left y2
        linarith
      by_contra hc
      have hc := not_le.mp hc
      have := mul_lt_mul_of_pos_right hc hy
      linarith
    · have h3 : 5260 * (1 + 1 / 2 ^ 24) < (2 * (j : ℚ) + 1) * f32 (fout * (s : ℚ)) := by
        refine lt_of_lt_of_le c2 ?_
        apply mul_le_mul_of_nonneg_left y1
        linarith
      by_contra hc
      have hc := not_lt.mp hc
      have := mul_le_mul_of_nonneg_right hc hy.le
      linarith
  obtain ⟨t1, t2⟩ := @testDco_bounds fout s (2 * j) a b ha.le hfa hfb
  unfold candOk candDco
  rw [hn]
  refine ⟨by omega, ?_, ?_⟩
  · rw [show SI570_DCO_MIN = 4850 from rfl]; linarith
  · rw [show SI570_DCO_MAX = 5670 from rfl]; linarith

/-- For a target in `[a, b]` whose quotient stays in `[12, 129)`, the
candidate of `s` is acceptable. -/
theorem candOk_large (hw : Hw) {fout : ℚ} {s : ℕ} {a b : ℚ} (ha : 0 < a) (hs : 0 < s)
    (hfa : a ≤ fout) (hfb : fout ≤ b)
    (c1 : 12 * (b * (s : ℚ) * (1 + 1 / 2 ^ 24)) ≤ 5260 * (1 - 1 / 2 ^ 24))
    (c2 : 5260 * (1 + 1 / 2 ^ 24) < 129 * (a * (s : ℚ) * (1 - 1 / 2 ^ 24))) :
    candOk hw fout s := by
  obtain ⟨hy, y1, y2, q1, q2⟩ := quot_bounds hw ha hs hfa hfb
  have hq12 : (12 : ℚ) ≤ dbl hw (5260 / f32 (fout * (s : ℚ))) := by
    have h3 : 12 * f32 (fout * (s : ℚ)) ≤ 5260 * (1 - 1 / 2 ^ 24) := by linarith
    by_contra hc
    have hc := not_le.mp hc
    have := mul_lt_mul_of_pos_right hc hy
    linarith
  have hq129 : dbl hw (5260 / f32 (fout * (s : ℚ))) < 129 := by
    have h3 : 5260 * (1 + 1 / 2 ^ 24) < 129 * f32 (fout * (s : ℚ)) := by linarith
    by_contra hc
    have hc := not_lt.mp hc
    have := mul_le_mul_of_nonneg_right hc hy.le
    linarith
  have hq0 : (0 : ℚ) ≤ dbl hw (5260 / f32 (fout * (s : ℚ))) := by linarith
  have hfl := Nat.floor_le hq0
  have hlt := Nat.lt_floor_add_one (dbl hw (5260 / f32 (fout * (s : ℚ))))
  have hk12 : 12 ≤ ⌊dbl hw (5260 / f32 (fout * (s : ℚ)))⌋₊ := by
    apply Nat.le_floor; push_cast; exact hq12
  have hk128 : ⌊dbl hw (5260 / f32 (fout * (s : ℚ)))⌋₊ < 129 := by
    apply (Nat.floor_lt hq0).2; push_cast; exact hq129
  have hcand := @n1Cand_of_floor hw fout s _ hfl hlt (by omega)
  have hp0 : 0 ≤ fout * (s : ℚ) :=
    mul_nonneg (le_trans ha.le hfa) (Nat.cast_nonneg s)
  generalize ⌊dbl hw (5260 / f32 (fout * (s : ℚ)))⌋₊ = k at hfl hlt hk12 hk128 hcand
  have hk12q : (12 : ℚ) ≤ (k : ℚ) := by exact_mod_cast hk12
  -- `k * y ≤ 5260 (1 + u)` and `5260 (1 - u) < (k + 1) * y`
  have hky : (k : ℚ) * f32 (fout * (s : ℚ)) ≤ 5260 * (1 + 1 / 2 ^ 24) :=
    le_trans (mul_le_mul_of_nonneg_right hfl hy.le) q2
  have hk1y : 5260 * (1 - 1 / 2 ^ 24) < ((k : ℚ) + 1) * f32 (fout * (s : ℚ)) :=
    lt_of_le_of_lt q1 (mul_lt_mul_of_pos_right hlt hy)
  have hu1 : (0 : ℚ) < 1 - 1 / 2 ^ 24 := by norm_num
  have hu2 : (0 : ℚ) < 1 + 1 / 2 ^ 24 := by norm_num
  unfold candOk candDco testDco
  rw [show SI570_DCO_MIN = 4850 from rfl, show SI570_DCO_MAX = 5670 from rfl]
  rcases Nat.mod_two_eq_zero_or_one k with he | ho
  · have hi : n1Cand hw fout s = k := by rw [hcand, if_neg]; omega
    rw [hi]
    obtain ⟨t1, t2⟩ := f32_bounds (mul_nonneg hy.le (Nat.cast_nonneg k))
    refine ⟨by omega, ?_, ?_⟩
    · have h3 := mul_nonneg (sub_nonneg.2 hk12q) hy.le
      have h4 : 12 * (5260 * (1 - 1 / 2 ^ 24)) < 13 * (f32 (fout * (s : ℚ)) * (k : ℚ)) := by
        nlinarith
      have h5 : 4850 < f32 (fout * (s : ℚ)) * (k : ℚ) * (1 - 1 / 2 ^ 24) := by
        have h6 : 12 * (5260 * (1 - 1 / 2 ^ 24)) * (1 - 1 / 2 ^ 24) <
            13 * (f32 (fout * (s : ℚ)) * (k : ℚ)) * (1 - 1 / 2 ^ 24) :=
          mul_lt_mul_of_pos_right h4 hu1
        norm_num at h6 ⊢
        linarith
      linarith
    · have h5 : f32 (fout * (s : ℚ)) * (k : ℚ) * (1 + 1 / 2 ^ 24) ≤
          5260 * (1 + 1 / 2 ^ 24) * (1 + 1 / 2 ^ 24) := by
        apply mul_le_mul_of_nonneg_right _ hu2.le
        linarith
      norm_num at h5 ⊢
      linarith
  · have hk13 : 13 ≤ k := by omega
    have hk13q : (13 : ℚ) ≤ (k : ℚ) := by exact_mod_cast hk13
    have hi : n1Cand hw fout s = k + 1 := by
      rw [hcand, if_pos ⟨by omega, ho⟩]; omega
    rw [hi]
    obtain ⟨t1, t2⟩ := f32_bounds (mul_nonneg hy.le (Nat.cast_nonneg (k + 1)))
    push_cast at t1 t2 ⊢
    refine ⟨by omega, ?_, ?_⟩
    · have h5 : 5260 * (1 - 1 / 2 ^ 24) * (1 - 1 / 2 ^ 24) <
          f32 (fout * (s : ℚ)) * ((k : ℚ) + 1) * (1 - 1 / 2 ^ 24) := by
        apply mul_lt_mul_of_pos_right _ hu1
        linarith
      norm_num at h5 ⊢
      linarith
    · have h3 := mul_nonneg (sub_nonneg.2 hk13q) hy.le
      have h4 : 13 * (f32 (fout * (s : ℚ)) * ((k : ℚ) + 1)) ≤
          14 * (5260 * (1 + 1 / 2 ^ 24)) := by nlinarith
      have h5 : 13 * (f32 (fout * (s : ℚ)) * ((k : ℚ) + 1)) * (1 + 1 / 2 ^ 24) ≤
          14 * (5260 * (1 + 1 / 2 ^ 24)) * (1 + 1 / 2 ^ 24) :=
        mul_le_mul_of_nonneg_right h4 hu2.le
      norm_num at h5 ⊢
      linarith

/-- Every target in the supported range has an HS_DIV value whose candidate
is acceptable, in single-precision arithmetic and with either format of
`double`. -/
theorem exists_candOk (hw : Hw) {fout : ℚ} (hlo : 4 ≤ fout) (hhi : fout ≤ 160) :
    candOk hw fout 4 ∨ candOk hw fout 6 ∨ candOk hw fout 7 ∨ candOk hw fout 11 := by
  by_cases hA : fout ≤ 39
  · right; right; right
    exact candOk_large hw (a := 4) (b := 39) (by norm_num) (by decide) hlo hA
      (by norm_num) (by norm_num)
  have hA := le_of_lt (not_le.mp hA)
  by_cases hB : fout ≤ 109
  · left
    exact candOk_large hw (a := 39) (b := 109) (by norm_num) (by decide) hA hB
      (by norm_num) (by norm_num)
  have hB := le_of_lt (not_le.mp hB)
  by_cases hC : fout ≤ 118
  · left
    exact candOk_even hw (j := 6) (a := 109) (b := 118) (by norm_num) (by decide) hB hC
      (by decide) (by decide) (by norm_num) (by norm_num) (by norm_num) (by norm_num)
  have hC := le_of_lt (not_le.mp hC)
  by_cases hD : fout ≤ 122
  · right; right; left
    exact candOk_even hw (j := 3) (a := 118) (b := 122) (by norm_num) (by decide) hC hD
      (by decide) (by decide) (by norm_num) (by norm_num) (by norm_num) (by norm_num)
  have hD := le_of_lt (not_le.mp hD)
  by_cases hE : fout ≤ 141
  · left
    exact candOk_even hw (j := 5) (a := 122) (b := 141) (by norm_num) (by decide) hD hE
      (by decide) (by decide) (by norm_num) (by norm_num) (by norm_num) (by norm_num)
  have hE := le_of_lt (not_le.mp hE)
  by_cases hF : fout ≤ 157
  · right; left
    exact candOk_even hw (j := 3) (a := 141) (b := 157) (by norm_num) (by decide) hE hF
      (by decide) (by decide) (by norm_num) (by norm_num) (by norm_num) (by norm_num)
  have hF := le_of_lt (not_le.mp hF)
  left
  exact candOk_even hw (j := 4) (a := 157) (b := 160) (by norm_num) (by decide) hF hhi
    (by decide) (by decide) (by norm_num) (by norm_num) (by norm_num) (by norm_num)

/-! ## Divider search -/

theorem n1Cand_parity (hw : Hw) (fout : ℚ) (s : ℕ) :
    n1Cand hw fout s ≤ 1 ∨ n1Cand hw fout s % 2 = 0 := by
  unfold n1Cand
  simp only [Nat.and_one_is_mod]
  split_ifs with h
  · right; omega
  · by_cases h1 : toUInt 8 (dbl hw (SI570_DCO_CENTER / f32 (fout * (s : ℚ)))) ≤ 1
    · left; exact h1
    · right
      by_contra h2
      exact h ⟨by omega, by omega⟩

theorem testDco_zero (fout : ℚ) (s : ℕ) : testDco fout s 0 = 0 := by
  unfold testDco f32
  rw [Nat.cast_zero, mul_zero, rnd_zero]

/-- The two rounded products of `testdco` stay within `2^-22` of the exact
product, relatively. -/
theorem testDco_err {fout : ℚ} (hf : 0 ≤ fout) (s i : ℕ) :
    |testDco fout s i - fout * (s : ℚ) * (i : ℚ)| ≤ fout * (s : ℚ) * (i : ℚ) / 2 ^ 22 := by
  obtain ⟨t1, t2⟩ := @testDco_bounds fout s i fout fout hf (le_refl _) (le_refl _)
  have hx : 0 ≤ fout * (s : ℚ) * (i : ℚ) :=
    mul_nonneg (mul_nonneg hf (Nat.cast_nonneg s)) (Nat.cast_nonneg i)
  have e1 : fout * (s : ℚ) * (1 - 1 / 2 ^ 24) * (i : ℚ) * (1 - 1 / 2 ^ 24) =
      fout * (s : ℚ) * (i : ℚ) * ((1 - 1 / 2 ^ 24) * (1 - 1 / 2 ^ 24)) := by ring
  have e2 : fout * (s : ℚ) * (1 + 1 / 2 ^ 24) * (i : ℚ) * (1 + 1 / 2 ^ 24) =
      fout * (s : ℚ) * (i : ℚ) * ((1 + 1 / 2 ^ 24) * (1 + 1 / 2 ^ 24)) := by ring
  rw [e1] at t1
  rw [e2] at t2
  generalize fout * (s : ℚ) * (i : ℚ) = x at hx t1 t2 ⊢
  have k1 : x * (1 - 1 / 2 ^ 22) ≤ x * ((1 - 1 / 2 ^ 24) * (1 - 1 / 2 ^ 24)) :=
    mul_le_mul_of_nonneg_left (by norm_num) hx
  have k2 : x * ((1 + 1 / 2 ^ 24) * (1 + 1 / 2 ^ 24)) ≤ x * (1 + 1 / 2 ^ 22) :=
    mul_le_mul_of_nonneg_left (by norm_num) hx
  rw [abs_le]
  constructor
  · have : x * (1 - 1 / 2 ^ 22) = x - x / 2 ^ 22 := by ring
    linarith
  · have : x * (1 + 1 / 2 ^ 22) = x + x / 2 ^ 22 := by ring
    linarith

theorem searchStep_spec (hw : Hw) {s : ℕ}
    (hs : s = 4 ∨ s = 5 ∨ s = 6 ∨ s = 7 ∨ s = 9 ∨ s = 11)
    {w : World} (hinv : searchInv w) :
    (searchStep hw s w).state = s + 1 ∧ (searchStep hw s w).fout = w.fout ∧
    (searchStep hw s w).bus = w.bus ∧
    searchInv (searchStep hw s w) ∧ (searchStep hw s w).dco ≤ w.dco ∧
    (candOk hw w.fout s → (searchStep hw s w).dco < SI570_DCO_MAX) := by
  have hs1 : (s + 1) % 256 = s + 1 := by omega
  have hs2 : (s + 1 + 256 - 1) % 256 = s := by omega
  obtain ⟨hle, hgood⟩ := hinv
  unfold searchStep
  simp only [hs1, hs2]
  by_cases h128 : n1Cand hw w.fout s > 128
  · rw [if_pos h128]
    refine ⟨rfl, rfl, rfl, ⟨hle, hgood⟩, le_refl _, ?_⟩
    intro hc; exact absurd hc.1 (by omega)
  · rw [if_neg h128]
    by_cases hacc : testDco w.fout s (n1Cand hw w.fout s) > SI570_DCO_MIN ∧
        testDco w.fout s (n1Cand hw w.fout s) < w.dco
    · rw [if_pos hacc]
      refine ⟨rfl, rfl, rfl, ⟨?_, ?_⟩, le_of_lt hacc.2, ?_⟩
      · exact le_trans (le_of_lt hacc.2) hle
      · intro _
        refine ⟨hs, ?_, rfl, hacc.1⟩
        have hne : n1Cand hw w.fout s ≠ 0 := by
          intro h0
          have := hacc.1
          rw [h0, testDco_zero] at this
          norm_num [SI570_DCO_MIN] at this
        rcases n1Cand_parity hw w.fout s with hp | hp
        · left; show n1Cand hw w.fout s = 1; omega
        · right
          show n1Cand hw w.fout s % 2 = 0 ∧ 2 ≤ n1Cand hw w.fout s ∧ n1Cand hw w.fout s ≤ 128
          omega
      · intro _; exact lt_of_lt_of_le hacc.2 hle
    · rw [if_neg hacc]
      refine ⟨rfl, rfl, rfl, ⟨hle, hgood⟩, le_refl _, ?_⟩
      intro hc
      by_contra hnot
      apply hacc
      refine ⟨hc.2.1, ?_⟩
      have h1 : SI570_DCO_MAX ≤ w.dco := not_lt.mp hnot
      exact lt_of_lt_of_le hc.2.2 h1

theorem Main_search {hw : Hw} {st : ℕ} {w : World}
    (h : w.state = 4 ∨ w.state = 5 ∨ w.state = 6 ∨ w.state = 7) :
    Si570_Main hw st w = searchStep hw w.state w := by
  unfold Si570_Main
  rcases h with h | h | h | h <;> simp [h]

theorem Main_search8 {hw : Hw} {st : ℕ} {w : World} (h : w.state = 8 ∨ w.state = 10) :
    Si570_Main hw st w = searchStep hw (w.state + 1) w := by
  unfold Si570_Main
  rcases h with h | h <;> simp [h]

/-- The full-path search: six calls of `Si570_Main` from state 4 with the
running best at `DCO_MAX`. -/
theorem search_from_4 (hw : Hw) (w : World) (s1 s2 s3 s4 s5 s6 : ℕ)
    (hs : w.state = 4) (hd : w.dco = SI570_DCO_MAX)
    (hlo : MIN_LO ≤ w.fout) (hhi : w.fout ≤ MAX_LO) :
    (runMain hw [s1, s2, s3, s4, s5, s6] w).state = 12 ∧
    (runMain hw [s1, s2, s3, s4, s5, s6] w).fout = w.fout ∧
    (runMain hw [s1, s2, s3, s4, s5, s6] w).bus = w.bus ∧
    goodDiv (runMain hw [s1, s2, s3, s4, s5, s6] w) ∧
    (runMain hw [s1, s2, s3, s4, s5, s6] w).dco < SI570_DCO_MAX := by
  have hinv0 : searchInv w := ⟨le_of_eq hd, fun h => absurd h (by rw [hd]; exact lt_irrefl _)⟩
  simp only [runMain]
  rw [Main_search (w := w) (Or.inl hs), hs]
  obtain ⟨a1, f1, b1, i1, d1, c1⟩ := searchStep_spec hw (s := 4) (by decide) hinv0
  rw [Main_search (Or.inr (Or.inl a1)), a1]
  obtain ⟨a2, f2, b2, i2, d2, c2⟩ := searchStep_spec hw (s := 5) (by decide) i1
  rw [Main_search (Or.inr (Or.inr (Or.inl a2))), a2]
  obtain ⟨a3, f3, b3, i3, d3, c3⟩ := searchStep_spec hw (s := 6) (by decide) i2
  rw [Main_search (Or.inr (Or.inr (Or.inr a3))), a3]
  obtain ⟨a4, f4, b4, i4, d4, c4⟩ := searchStep_spec hw (s := 7) (by decide) i3
  rw [Main_search8 (Or.inl a4), a4]
  obtain ⟨a5, f5, b5, i5, d5, c5⟩ := searchStep_spec hw (s := 9) (by decide) i4
  rw [Main_search8 (Or.inr a5), a5]
  obtain ⟨a6, f6, b6, i6, d6, c6⟩ := searchStep_spec hw (s := 11) (by decide) i5
  have hlt : (searchStep hw 11 (searchStep hw 9 (searchStep hw 7 (searchStep hw 6
      (searchStep hw 5 (searchStep hw 4 w)))))).dco < SI570_DCO_MAX := by
    have hex := @exists_candOk hw w.fout (by simpa [MIN_LO] using hlo)
      (by simpa [MAX_LO] using hhi)
    rcases hex with h | h | h | h
    · have := c1 h; linarith
    · have := c3 (by rw [f2, f1]; exact h); linarith
    · have := c4 (by rw [f3, f2, f1]; exact h); linarith
    · exact c6 (by rw [f5, f4, f3, f2, f1]; exact h)
  refine ⟨a6, ?_, ?_, i6.2 hlt, hlt⟩
  · rw [f6, f5, f4, f3, f2, f1]
  · rw [b6, b5, b4, b3, b2, b1]

/-- C1 (amended): for every target `fout` with `MIN_LO ≤ fout ≤ MAX_LO`, with
either format of `double`, the six calls of `Si570_Main` that make up the
full-path search (states 4, 5, 6, 7, 8, 10), started with `dco = DCO_MAX`, end
in state 12 with `hsdiv` in `[4, 11]` and neither 8 nor 10, `n1` equal to 1 or
even and at most 128, and `4850 < dco < 5670`, where `dco` is the product
`fout * hsdiv * n1` as the code computes it in single precision, each of the
two multiplications rounded to 24 bits: it is within `2^-22` of the exact
product, relatively, and in general not equal to it. -/
theorem C1_divider_search_succeeds (hw : Hw) (w : World) (s1 s2 s3 s4 s5 s6 : ℕ)
    (hs : w.state = 4) (hd : w.dco = SI570_DCO_MAX)
    (hlo : MIN_LO ≤ w.fout) (hhi : w.fout ≤ MAX_LO) :
    (runMain hw [s1, s2, s3, s4, s5, s6] w).state = 12 ∧
    (4 ≤ (runMain hw [s1, s2, s3, s4, s5, s6] w).hsdiv ∧
      (runMain hw [s1, s2, s3, s4, s5, s6] w).hsdiv ≤ 11 ∧
      (runMain hw [s1, s2, s3, s4, s5, s6] w).hsdiv ≠ 8 ∧
      (runMain hw [s1, s2, s3, s4, s5, s6] w).hsdiv ≠ 10) ∧
    ((runMain hw [s1, s2, s3, s4, s5, s6] w).n1 = 1 ∨
      ((runMain hw [s1, s2, s3, s4, s5, s6] w).n1 % 2 = 0 ∧
        (runMain hw [s1, s2, s3, s4, s5, s6] w).n1 ≤ 128)) ∧
    (runMain hw [s1, s2, s3, s4, s5, s6] w).dco =
      f32 (f32 (w.fout * ((runMain hw [s1, s2, s3, s4, s5, s6] w).hsdiv : ℚ)) *
        ((runMain hw [s1, s2, s3, s4, s5, s6] w).n1 : ℚ)) ∧
    |(runMain hw [s1, s2, s3, s4, s5, s6] w).dco -
        w.fout * ((runMain hw [s1, s2, s3, s4, s5, s6] w).hsdiv : ℚ) *
          ((runMain hw [s1, s2, s3, s4, s5, s6] w).n1 : ℚ)| ≤
      w.fout * ((runMain hw [s1, s2, s3, s4, s5, s6] w).hsdiv : ℚ) *
          ((runMain hw [s1, s2, s3, s4, s5, s6] w).n1 : ℚ) / 2 ^ 22 ∧
    4850 < (runMain hw [s1, s2, s3, s4, s5, s6] w).dco ∧
    (runMain hw [s1, s2, s3, s4, s5, s6] w).dco < 5670 := by
  obtain ⟨h12, hf, _, ⟨hh, hn, hdco, hmin⟩, hmax⟩ :=
    search_from_4 hw w s1 s2 s3 s4 s5 s6 hs hd hlo hhi
  have hf0 : 0 ≤ w.fout := le_trans (by norm_num [MIN_LO]) hlo
  refine ⟨h12, ?_, ?_, ?_, ?_, ?_, ?_⟩
  · omega
  · rcases hn with h | ⟨h, _, h'⟩
    · exact Or.inl h
    · exact Or.inr ⟨h, h'⟩
  · rw [hdco, hf]; rfl
  · rw [hdco, hf]
    exact testDco_err hf0 _ _
  · simpa [SI570_DCO_MIN] using hmin
  · simpa [SI570_DCO_MAX] using hmax

/-- Witness for C1: the search for a 10 MHz target. -/
theorem C1_divider_search_succeeds_witness :
    (runMain hwExample [0, 0, 0, 0, 0, 0] exSearch).state = 12 ∧
    4850 < (runMain hwExample [0, 0, 0, 0, 0, 0] exSearch).dco ∧
    (runMain hwExample [0, 0, 0, 0, 0, 0] exSearch).dco < 5670 :=
  ⟨(C1_divider_search_succeeds hwExample exSearch 0 0 0 0 0 0 rfl rfl (by decide!)
      (by decide!)).1,
    (C1_divider_search_succeeds hwExample exSearch 0 0 0 0 0 0 rfl rfl (by decide!)
      (by decide!)).2.2.2.2.2⟩

/-- Counterexample to C1 as stated: for the target of the request word
`0x0A9C4001` the search ends with `hsdiv = 9`, `n1 = 58` and
`dco = 5229.94287109375`, which is not `fout * 9 * 58`. -/
theorem C1_counterexample :
    exSearchOdd.state = 4 ∧ exSearchOdd.dco = SI570_DCO_MAX ∧
    MIN_LO ≤ exSearchOdd.fout ∧ exSearchOdd.fout ≤ MAX_LO ∧
    (runMain hwExample [0, 0, 0, 0, 0, 0] exSearchOdd).hsdiv = 9 ∧
    (runMain hwExample [0, 0, 0, 0, 0, 0] exSearchOdd).n1 = 58 ∧
    (runMain hwExample [0, 0, 0, 0, 0, 0] exSearchOdd).dco = 10710923 / 2048 ∧
    (runMain hwExample [0, 0, 0, 0, 0, 0] exSearchOdd).dco ≠
      exSearchOdd.fout * ((runMain hwExample [0, 0, 0, 0, 0, 0] exSearchOdd).hsdiv : ℚ) *
        ((runMain hwExample [0, 0, 0, 0, 0, 0] exSearchOdd).n1 : ℚ) := by
  decide!

/-! ## Register codec -/

theorem or_eq_add {a b : ℕ} (k : ℕ) (ha : 2 ^ k ∣ a) (hb : b < 2 ^ k) : a ||| b = a + b := by
  obtain ⟨c, rfl⟩ := ha
  exact (Nat.mul_add_lt_is_or hb c).symm

theorem and_31 (x : ℕ) : x &&& 0x1F = x % 32 := Nat.and_pow_two_sub_one_eq_mod x 5
theorem and_63 (x : ℕ) : x &&& 0x3F = x % 64 := Nat.and_pow_two_sub_one_eq_mod x 6
theorem and_28bits (x : ℕ) : x &&& 0x0FFFFFFF = x % 268435456 :=
  Nat.and_pow_two_sub_one_eq_mod x 28

/-- The decoder of `FreqFromOLD` in arithmetic form, for an image of bytes. -/
theorem OLD_decode_arith (o : Reg6) (ho : o.IsBytes) :
    OLD_decode o = (o.r0 / 32 + 4, 4 * (o.r0 % 32) + o.r1 / 64 + 1,
      16 * (o.r1 % 64) + o.r2 / 16, load32 o.r2 o.r3 o.r4 o.r5 % 268435456) := by
  obtain ⟨h0, h1, h2, h3, h4, h5⟩ := ho
  unfold OLD_decode
  simp only [and_31, and_63, and_28bits]
  have e1 : ((o.r0 % 32) <<< 2) ||| (o.r1 >>> 6) = (o.r0 % 32) <<< 2 + o.r1 >>> 6 :=
    or_eq_add 2 (by omega) (by omega)
  have e2 : ((o.r1 % 65536 % 64) <<< 4) ||| (o.r2 >>> 4) = (o.r1 % 65536 % 64) <<< 4 + o.r2 >>> 4 :=
    or_eq_add 4 (by omega) (by omega)
  rw [e1, e2]
  refine Prod.ext ?_ (Prod.ext ?_ (Prod.ext ?_ rfl)) <;> simp only <;> omega

/-- The decoder of `Si570_Init` reads `Si570_Buf[2..7]` exactly as the decoder
of `FreqFromOLD` reads `Si570_OLD[0..5]`. -/
theorem Init_decode_eq_OLD (b : Buf8) : Init_decode b = OLD_decode (regsOf b) := rfl

/-- The decoder of `Si570_Init` in arithmetic form, for register bytes. -/
theorem Init_decode_arith (b : Buf8) (hb : (regsOf b).IsBytes) :
    Init_decode b = (b.b2 / 32 + 4, 4 * (b.b2 % 32) + b.b3 / 64 + 1,
      16 * (b.b3 % 64) + b.b4 / 16, load32 b.b4 b.b5 b.b6 b.b7 % 268435456) := by
  rw [Init_decode_eq_OLD, OLD_decode_arith _ hb]
  rfl

/-- The fractional word after the clamp of line 169. -/
theorem pack_low_bytes (hsdiv n1 rfreqint rfreqfrac : ℕ) (b : Buf8) :
    (packRegs hsdiv n1 rfreqint rfreqfrac b).b4 =
        min rfreqfrac 0x0FFFFFFF / 16777216 + 16 * (rfreqint % 16) ∧
    (packRegs hsdiv n1 rfreqint rfreqfrac b).b5 = min rfreqfrac 0x0FFFFFFF / 65536 % 256 ∧
    (packRegs hsdiv n1 rfreqint rfreqfrac b).b6 = min rfreqfrac 0x0FFFFFFF / 256 % 256 ∧
    (packRegs hsdiv n1 rfreqint rfreqfrac b).b7 = min rfreqfrac 0x0FFFFFFF % 256 := by
  have hc : (if rfreqfrac > 0x0FFFFFFF then 0x0FFFFFFF else rfreqfrac) = min rfreqfrac 0x0FFFFFFF := by
    split_ifs with h <;> omega
  have hm : min rfreqfrac 0x0FFFFFFF ≤ 0x0FFFFFFF := Nat.min_le_right _ _
  refine ⟨?_, ?_, ?_, ?_⟩
  · simp only [packRegs, hc]
    rw [Nat.lor_comm, or_eq_add 4 (by omega) (by omega)]
    omega
  · simp only [packRegs, hc]
  · simp only [packRegs, hc]
  · simp only [packRegs, hc]

theorem pack_high_bytes (hsdiv n1 rfreqint rfreqfrac : ℕ) (b : Buf8)
    (hh : 4 ≤ hsdiv ∧ hsdiv ≤ 11) (hn : 1 ≤ n1 ∧ n1 ≤ 128) (hi : rfreqint < 1024) :
    (packRegs hsdiv n1 rfreqint rfreqfrac b).b2 = 32 * (hsdiv - 4) + (n1 - 1) / 4 ∧
    (packRegs hsdiv n1 rfreqint rfreqfrac b).b3 = 64 * ((n1 - 1) % 4) + rfreqint / 16 := by
  unfold packRegs
  simp only
  constructor
  · rw [or_eq_add 5 (by omega) (by omega)]; omega
  · rw [or_eq_add 6 (by omega) (by omega)]; omega

theorem pack_frame (hsdiv n1 rfreqint rfreqfrac : ℕ) (b : Buf8) :
    (packRegs hsdiv n1 rfreqint rfreqfrac b).b0 = b.b0 ∧
    (packRegs hsdiv n1 rfreqint rfreqfrac b).b1 = 7 := ⟨rfl, rfl⟩

/-- The integer and fractional words state 14 derives from a value `rfreq`
in `[0, 1024)`: both fit their fields and together they are `rfreq` rounded
down to a multiple of `1 / 2^28`. -/
theorem rfreqSplit_spec {rfreq : ℚ} (h0 : 0 ≤ rfreq) (h1 : rfreq < 1024) :
    (rfreqSplit rfreq).1 < 1024 ∧ (rfreqSplit rfreq).2 < 268435456 ∧
    rfreqOf (rfreqSplit rfreq).1 (rfreqSplit rfreq).2 ≤ rfreq ∧
    rfreq - rfreqOf (rfreqSplit rfreq).1 (rfreqSplit rfreq).2 < 1 / 268435456 := by
  have hk1 := Nat.floor_le h0
  have hk2 := Nat.lt_floor_add_one rfreq
  have hk3 : ⌊rfreq⌋₊ < 1024 := (Nat.floor_lt h0).2 (by exact_mod_cast h1)
  generalize ⌊rfreq⌋₊ = k at hk1 hk2 hk3
  have ek : toUInt 16 rfreq = k := toUInt_of_floor hk1 hk2 (by norm_num; omega)
  have hy0 : (0 : ℚ) ≤ (rfreq - (k : ℚ)) * 0x10000000 := by
    apply mul_nonneg <;> linarith
  have hm1 := Nat.floor_le hy0
  have hm2 := Nat.lt_floor_add_one ((rfreq - (k : ℚ)) * 0x10000000)
  have hm3 : ⌊(rfreq - (k : ℚ)) * 0x10000000⌋₊ < 268435456 := by
    apply (Nat.floor_lt hy0).2
    push_cast
    linarith
  generalize ⌊(rfreq - (k : ℚ)) * 0x10000000⌋₊ = m at hm1 hm2 hm3
  have em : toUInt 32 ((rfreq - (k : ℚ)) * 0x10000000) = m :=
    toUInt_of_floor hm1 hm2 (by norm_num; omega)
  unfold rfreqSplit rfreqOf
  simp only [ek, em]
  refine ⟨hk3, hm3, ?_, ?_⟩
  · have : (m : ℚ) / 0x10000000 ≤ rfreq - (k : ℚ) := by
      rw [div_le_iff₀ (by norm_num)]
      linarith
    linarith
  · have : (m : ℚ) / 0x10000000 > (rfreq - (k : ℚ)) - 1 / 268435456 := by
      rw [gt_iff_lt, lt_div_iff₀ (by norm_num)]
      linarith
    linarith

/-- C2: for `hsdiv` in `[4, 11]`, `n1` in `[1, 128]`, an integer part below 1024
and a 28-bit fractional part, the bytes packed by state 14 of `Si570_Main`
decode, with the decoder of `Si570_Init` and with that of `FreqFromOLD`, to
the same four values; and when the two parts are those state 14 derives from
a value `rfreq` in `[0, 1024)`, the decoded `rfreq` is within `1 / 2^28` of
it. -/
theorem C2_codec_round_trip (hsdiv n1 rfreqint rfreqfrac : ℕ) (b : Buf8)
    (hh : 4 ≤ hsdiv ∧ hsdiv ≤ 11) (hn : 1 ≤ n1 ∧ n1 ≤ 128) (hi : rfreqint < 1024)
    (hf : rfreqfrac < 2 ^ 28) :
    Init_decode (packRegs hsdiv n1 rfreqint rfreqfrac b) = (hsdiv, n1, rfreqint, rfreqfrac) ∧
    OLD_decode (regsOf (packRegs hsdiv n1 rfreqint rfreqfrac b)) =
      (hsdiv, n1, rfreqint, rfreqfrac) ∧
    ∀ rfreq : ℚ, 0 ≤ rfreq → rfreq < 1024 → rfreqSplit rfreq = (rfreqint, rfreqfrac) →
      |rfreq - rfreqOf (Init_decode (packRegs hsdiv n1 rfreqint rfreqfrac b)).2.2.1
        (Init_decode (packRegs hsdiv n1 rfreqint rfreqfrac b)).2.2.2| < 1 / 2 ^ 28 := by
  obtain ⟨e4, e5, e6, e7⟩ := pack_low_bytes hsdiv n1 rfreqint rfreqfrac b
  obtain ⟨e2, e3⟩ := pack_high_bytes hsdiv n1 rfreqint rfreqfrac b hh hn hi
  norm_num at hf
  have hmin : min rfreqfrac 0x0FFFFFFF = rfreqfrac := Nat.min_eq_left (by omega)
  rw [hmin] at e4 e5 e6 e7
  have hbytes : (regsOf (packRegs hsdiv n1 rfreqint rfreqfrac b)).IsBytes := by
    unfold Reg6.IsBytes regsOf
    simp only [e2, e3, e4, e5, e6, e7]
    omega
  have hO : OLD_decode (regsOf (packRegs hsdiv n1 rfreqint rfreqfrac b)) =
      (hsdiv, n1, rfreqint, rfreqfrac) := by
    rw [OLD_decode_arith _ hbytes]
    unfold regsOf load32
    simp only [e2, e3, e4, e5, e6, e7]
    refine Prod.ext ?_ (Prod.ext ?_ (Prod.ext ?_ ?_)) <;> simp only <;> omega
  have hI : Init_decode (packRegs hsdiv n1 rfreqint rfreqfrac b) =
      (hsdiv, n1, rfreqint, rfreqfrac) := by
    rw [Init_decode_eq_OLD, hO]
  refine ⟨hI, hO, ?_⟩
  intro rfreq h0 h1 hsplit
  obtain ⟨_, _, hle, hlt⟩ := rfreqSplit_spec h0 h1
  rw [hsplit] at hle hlt
  rw [hI]
  simp only
  rw [abs_lt]
  constructor
  · have : (0 : ℚ) < 1 / 2 ^ 28 := by norm_num
    linarith
  · norm_num at hlt ⊢
    linarith

/-- Witness for C2: `hsdiv = 11`, `n1 = 8`, `rfreq = 43 + 98427547 / 2^28`. -/
theorem C2_codec_round_trip_witness :
    Init_decode (packRegs 11 8 43 98427547 powerOn.Si570_Buf) = (11, 8, 43, 98427547) ∧
    OLD_decode (regsOf (packRegs 11 8 43 98427547 powerOn.Si570_Buf)) =
      (11, 8, 43, 98427547) ∧
    ∀ rfreq : ℚ, 0 ≤ rfreq → rfreq < 1024 → rfreqSplit rfreq = (43, 98427547) →
      |rfreq - rfreqOf (Init_decode (packRegs 11 8 43 98427547 powerOn.Si570_Buf)).2.2.1
        (Init_decode (packRegs 11 8 43 98427547 powerOn.Si570_Buf)).2.2.2| < 1 / 2 ^ 28 :=
  C2_codec_round_trip 11 8 43 98427547 powerOn.Si570_Buf (by decide) (by decide) (by decide)
    (by decide)

/-! ## Smooth-tune decision (state 1) -/

theorem Main_state1 (hw : Hw) (st : ℕ) (w : World) (hs : w.state = 1) :
    Si570_Main hw st w =
      if smoothOk w then
        { w with smooth := 1, dco := testDco w.fout w.hsdiv w.n1, state := 12 }
      else { w with smooth := 0, dco := SI570_DCO_MAX, state := 4 } := by
  unfold Si570_Main smoothOk smoothLimit
  simp only [hs, SI570_SMOOTH_PPM]
  rfl

/-- C3 (amended): at state 1 the three quantities of the decision are computed
in single precision, every operation rounded to 24 bits:
`testdco = f32 (f32 (fout * hsdiv) * n1)`,
`smooth_limit = f32 (f32 (dco * 3500) / 1000000)` and
`smooth_diff = |f32 (testdco - dco)|`.  The smooth path is taken (`smooth = 1`,
`dco := testdco`, next state 12, everything else including `hsdiv` and `n1`
unchanged) if and only if `4850 < testdco < 5670` and
`smooth_diff < smooth_limit` hold for these rounded values; in every other
case `smooth = 0`, `dco` is reset to 5670 and the next state is 4. -/
theorem C3_smooth_tune_decision (hw : Hw) (st : ℕ) (w : World) (hs : w.state = 1) :
    ((4850 < f32 (f32 (w.fout * (w.hsdiv : ℚ)) * (w.n1 : ℚ)) ∧
        f32 (f32 (w.fout * (w.hsdiv : ℚ)) * (w.n1 : ℚ)) < 5670 ∧
        |f32 (f32 (f32 (w.fout * (w.hsdiv : ℚ)) * (w.n1 : ℚ)) - w.dco)| <
          f32 (f32 (w.dco * 3500) / 1000000)) →
      Si570_Main hw st w =
        { w with smooth := 1, dco := f32 (f32 (w.fout * (w.hsdiv : ℚ)) * (w.n1 : ℚ)),
                 state := 12 }) ∧
    (¬ (4850 < f32 (f32 (w.fout * (w.hsdiv : ℚ)) * (w.n1 : ℚ)) ∧
        f32 (f32 (w.fout * (w.hsdiv : ℚ)) * (w.n1 : ℚ)) < 5670 ∧
        |f32 (f32 (f32 (w.fout * (w.hsdiv : ℚ)) * (w.n1 : ℚ)) - w.dco)| <
          f32 (f32 (w.dco * 3500) / 1000000)) →
      Si570_Main hw st w = { w with smooth := 0, dco := 5670, state := 4 }) ∧
    ((Si570_Main hw st w).state = 12 ↔
      (4850 < f32 (f32 (w.fout * (w.hsdiv : ℚ)) * (w.n1 : ℚ)) ∧
        f32 (f32 (w.fout * (w.hsdiv : ℚ)) * (w.n1 : ℚ)) < 5670 ∧
        |f32 (f32 (f32 (w.fout * (w.hsdiv : ℚ)) * (w.n1 : ℚ)) - w.dco)| <
          f32 (f32 (w.dco * 3500) / 1000000))) ∧
    ((Si570_Main hw st w).smooth = 1 ↔
      (4850 < f32 (f32 (w.fout * (w.hsdiv : ℚ)) * (w.n1 : ℚ)) ∧
        f32 (f32 (w.fout * (w.hsdiv : ℚ)) * (w.n1 : ℚ)) < 5670 ∧
        |f32 (f32 (f32 (w.fout * (w.hsdiv : ℚ)) * (w.n1 : ℚ)) - w.dco)| <
          f32 (f32 (w.dco * 3500) / 1000000))) := by
  have hm := Main_state1 hw st w hs
  have hiff : smoothOk w ↔
      (4850 < f32 (f32 (w.fout * (w.hsdiv : ℚ)) * (w.n1 : ℚ)) ∧
        f32 (f32 (w.fout * (w.hsdiv : ℚ)) * (w.n1 : ℚ)) < 5670 ∧
        |f32 (f32 (f32 (w.fout * (w.hsdiv : ℚ)) * (w.n1 : ℚ)) - w.dco)| <
          f32 (f32 (w.dco * 3500) / 1000000)) := by
    unfold smoothOk smoothLimit testDco SI570_DCO_MIN SI570_DCO_MAX
    exact Iff.rfl
  rw [← hiff]
  by_cases hc : smoothOk w
  · rw [if_pos hc] at hm
    rw [hm]
    exact ⟨fun _ => rfl, fun h => absurd hc h, ⟨fun _ => hc, fun _ => rfl⟩,
      ⟨fun _ => hc, fun _ => rfl⟩⟩
  · rw [if_neg hc] at hm
    rw [hm]
    refine ⟨fun h => absurd h hc, fun _ => rfl, ⟨fun h => ?_, fun h => absurd h hc⟩,
      ⟨fun h => ?_, fun h => absurd h hc⟩⟩
    · exact absurd (show (4 : ℕ) = 12 from h) (by decide)
    · exact absurd (show (0 : ℕ) = 1 from h) (by decide)

/-! ## The state machine of `Si570_Main`, state by state -/

theorem runMain_append (hw : Hw) (l1 l2 : List ℕ) (w : World) :
    runMain hw (l1 ++ l2) w = runMain hw l2 (runMain hw l1 w) := by
  induction l1 generalizing w with
  | nil => rfl
  | cons s l1 ih => exact ih (Si570_Main hw s w)

theorem Main_state12 (hw : Hw) (st : ℕ) (w : World) (hs : w.state = 12) :
    Si570_Main hw st w =
      { w with Si570_Buf := { w.Si570_Buf with b0 := 135, b1 := 0x20 }, state := 13,
               bus := w.bus ++ [BusOp.write SI570_ADDR [135, 0x20] I2CMode.COMPLETE_XFER] } := by
  unfold Si570_Main
  simp [hs]

theorem Main_state14 (hw : Hw) (st : ℕ) (w : World) (hs : w.state = 14) :
    Si570_Main hw st w =
      { w with
        Si570_Buf := packRegs w.hsdiv w.n1 (rfreqSplit (rfreqCalc w.dco w.Current_Si570_Xtal)).1
          (rfreqSplit (rfreqCalc w.dco w.Current_Si570_Xtal)).2 w.Si570_Buf,
        state := 15,
        bus := w.bus ++ [BusOp.write SI570_ADDR
          (7 :: (regsOf (packRegs w.hsdiv w.n1 (rfreqSplit (rfreqCalc w.dco w.Current_Si570_Xtal)).1
            (rfreqSplit (rfreqCalc w.dco w.Current_Si570_Xtal)).2 w.Si570_Buf)).toList)
          I2CMode.COMPLETE_XFER] } := by
  unfold Si570_Main
  simp only [hs]
  rfl

theorem Main_state16 (hw : Hw) (st : ℕ) (w : World) (hs : w.state = 16) :
    Si570_Main hw st w =
      { w with
        Si570_Buf := { w.Si570_Buf with b0 := 135, b1 := if w.smooth ≠ 0 then 0x00 else 0x40 },
        state := 17,
        bus := w.bus ++ [BusOp.write SI570_ADDR [135, if w.smooth ≠ 0 then 0x00 else 0x40]
          I2CMode.COMPLETE_XFER] } := by
  unfold Si570_Main
  simp only [hs]
  rfl

theorem Main_state18 (hw : Hw) (st : ℕ) (w : World) (hs : w.state = 18) :
    Si570_Main hw st w = { w with state := 0 } := by
  unfold Si570_Main
  simp [hs]

theorem Main_await (hw : Hw) (st : ℕ) (w : World)
    (hs : w.state = 13 ∨ w.state = 15 ∨ w.state = 17) :
    Si570_Main hw st w =
      if (st % 256) &&& hw.I2C_MSTAT_ERR_XFER ≠ 0 then { w with state := w.state - 1 }
      else if (st % 256) &&& hw.I2C_MSTAT_WR_CMPLT ≠ 0 then { w with state := w.state + 1 }
      else w := by
  unfold Si570_Main
  rcases hs with h | h | h <;> simp [h]

theorem Main_await_done (hw : Hw) (st : ℕ) (w : World)
    (hs : w.state = 13 ∨ w.state = 15 ∨ w.state = 17) (hd : wrDone hw st) :
    Si570_Main hw st w = { w with state := w.state + 1 } := by
  rw [Main_await hw st w hs, if_neg (not_not.mpr hd.1), if_pos hd.2]

/-- What one HS_DIV candidate step leaves alone. -/
theorem searchStep_frame (hw : Hw) (s : ℕ) (w : World) :
    (searchStep hw s w).state = (s + 1) % 256 ∧
    (searchStep hw s w).Si570_Xtal = w.Si570_Xtal ∧ (searchStep hw s w).Si570_LO = w.Si570_LO ∧
    (searchStep hw s w).Current_LO = w.Current_LO ∧ (searchStep hw s w).Si570_Buf = w.Si570_Buf ∧
    (searchStep hw s w).Si570_Factory = w.Si570_Factory ∧ (searchStep hw s w).Si570_OLD = w.Si570_OLD ∧
    (searchStep hw s w).smooth = w.smooth ∧ (searchStep hw s w).fout = w.fout ∧
    (searchStep hw s w).Current_Si570_Xtal = w.Current_Si570_Xtal ∧
    (searchStep hw s w).bus = w.bus := by
  unfold searchStep
  simp only
  split_ifs <;> exact ⟨rfl, rfl, rfl, rfl, rfl, rfl, rfl, rfl, rfl, rfl, rfl⟩

/-- The six ticks of the divider search from state 4 end in state 12 and
touch nothing but `state`, `dco`, `hsdiv` and `n1`. -/
theorem search_frame (hw : Hw) (w : World) (s1 s2 s3 s4 s5 s6 : ℕ) (hs : w.state = 4) :
    (runMain hw [s1, s2, s3, s4, s5, s6] w).state = 12 ∧
    (runMain hw [s1, s2, s3, s4, s5, s6] w).Si570_Xtal = w.Si570_Xtal ∧
    (runMain hw [s1, s2, s3, s4, s5, s6] w).Si570_LO = w.Si570_LO ∧
    (runMain hw [s1, s2, s3, s4, s5, s6] w).Current_LO = w.Current_LO ∧
    (runMain hw [s1, s2, s3, s4, s5, s6] w).Si570_Buf = w.Si570_Buf ∧
    (runMain hw [s1, s2, s3, s4, s5, s6] w).Si570_Factory = w.Si570_Factory ∧
    (runMain hw [s1, s2, s3, s4, s5, s6] w).Si570_OLD = w.Si570_OLD ∧
    (runMain hw [s1, s2, s3, s4, s5, s6] w).smooth = w.smooth ∧
    (runMain hw [s1, s2, s3, s4, s5, s6] w).fout = w.fout ∧
    (runMain hw [s1, s2, s3, s4, s5, s6] w).Current_Si570_Xtal = w.Current_Si570_Xtal ∧
    (runMain hw [s1, s2, s3, s4, s5, s6] w).bus = w.bus := by
  simp only [runMain]
  rw [Main_search (w := w) (Or.inl hs), hs]
  obtain ⟨a1, x1, l1, c1, b1, f1, o1, m1, t1, k1, u1⟩ := searchStep_frame hw 4 w
  rw [Main_search (Or.inr (Or.inl a1))]
  simp only [a1, Nat.reduceAdd, Nat.reduceMod]
  obtain ⟨a2, x2, l2, c2, b2, f2, o2, m2, t2, k2, u2⟩ := searchStep_frame hw 5 (searchStep hw 4 w)
  rw [Main_search (Or.inr (Or.inr (Or.inl a2)))]
  simp only [a2, Nat.reduceAdd, Nat.reduceMod]
  obtain ⟨a3, x3, l3, c3, b3, f3, o3, m3, t3, k3, u3⟩ :=
    searchStep_frame hw 6 (searchStep hw 5 (searchStep hw 4 w))
  rw [Main_search (Or.inr (Or.inr (Or.inr a3)))]
  simp only [a3, Nat.reduceAdd, Nat.reduceMod]
  obtain ⟨a4, x4, l4, c4, b4, f4, o4, m4, t4, k4, u4⟩ :=
    searchStep_frame hw 7 (searchStep hw 6 (searchStep hw 5 (searchStep hw 4 w)))
  rw [Main_search8 (Or.inl a4)]
  simp only [a4, Nat.reduceAdd, Nat.reduceMod]
  obtain ⟨a5, x5, l5, c5, b5, f5, o5, m5, t5, k5, u5⟩ :=
    searchStep_frame hw 9 (searchStep hw 7 (searchStep hw 6 (searchStep hw 5 (searchStep hw 4 w))))
  rw [Main_search8 (Or.inr a5)]
  simp only [a5, Nat.reduceAdd, Nat.reduceMod]
  obtain ⟨a6, x6, l6, c6, b6, f6, o6, m6, t6, k6, u6⟩ :=
    searchStep_frame hw 11 (searchStep hw 9 (searchStep hw 7 (searchStep hw 6 (searchStep hw 5 (searchStep hw 4 w)))))
  refine ⟨a6, ?_, ?_, ?_, ?_, ?_, ?_, ?_, ?_, ?_, ?_⟩
  · rw [x6, x5, x4, x3, x2, x1]
  · rw [l6, l5, l4, l3, l2, l1]
  · rw [c6, c5, c4, c3, c2, c1]
  · rw [b6, b5, b4, b3, b2, b1]
  · rw [f6, f5, f4, f3, f2, f1]
  · rw [o6, o5, o4, o3, o2, o1]
  · rw [m6, m5, m4, m3, m2, m1]
  · rw [t6, t5, t4, t3, t2, t1]
  · rw [k6, k5, k4, k3, k2, k1]
  · rw [u6, u5, u4, u3, u2, u1]

/-- The seven ticks from the freeze write (state 12) back to idle when every
status poll reports a finished write. -/
theorem sequencer_run (hw : Hw) (w : World) (a s1 b s2 c s3 d : ℕ) (hs : w.state = 12)
    (h1 : wrDone hw s1) (h2 : wrDone hw s2) (h3 : wrDone hw s3) :
    runMain hw [a, s1, b, s2, c, s3, d] w =
      { w with
        Si570_Buf :=
          { packRegs w.hsdiv w.n1 (rfreqSplit (rfreqCalc w.dco w.Current_Si570_Xtal)).1
              (rfreqSplit (rfreqCalc w.dco w.Current_Si570_Xtal)).2 w.Si570_Buf with
            b0 := 135, b1 := if w.smooth ≠ 0 then 0x00 else 0x40 },
        state := 0,
        bus := w.bus ++
          [BusOp.write SI570_ADDR [135, 0x20] I2CMode.COMPLETE_XFER,
           BusOp.write SI570_ADDR
            (7 :: (regsOf (packRegs w.hsdiv w.n1
              (rfreqSplit (rfreqCalc w.dco w.Current_Si570_Xtal)).1
              (rfreqSplit (rfreqCalc w.dco w.Current_Si570_Xtal)).2 w.Si570_Buf)).toList)
            I2CMode.COMPLETE_XFER,
           BusOp.write SI570_ADDR [135, if w.smooth ≠ 0 then 0x00 else 0x40]
            I2CMode.COMPLETE_XFER] } := by
  simp only [runMain]
  rw [Main_state12 hw a w hs]
  rw [Main_await_done hw s1 _ (Or.inl rfl) h1]
  rw [Main_state14 hw b _ rfl]
  rw [Main_await_done hw s2 _ (Or.inr (Or.inl rfl)) h2]
  rw [Main_state16 hw c _ rfl]
  rw [Main_await_done hw s3 _ (Or.inr (Or.inr rfl)) h3]
  rw [Main_state18 hw d _ rfl]
  simp [packRegs, regsOf, Reg6.toList]

theorem list_length_one {l : List ℕ} (h : l.length = 1) : ∃ a, l = [a] := by
  match l, h with
  | [a], _ => exact ⟨a, rfl⟩

theorem list_length_seven {l : List ℕ} (h : l.length = 7) :
    ∃ a b c d e f g, l = [a, b, c, d, e, f, g] := by
  match l, h with
  | [a, b, c, d, e, f, g], _ => exact ⟨a, b, c, d, e, f, g, rfl⟩

/-- From state 1 to state 12: one tick on the smooth path, seven on the full
path; no bus call is made and the snapshot and buffer are untouched. -/
theorem math_phase (hw : Hw) (w : World) (pre : List ℕ) (hs : w.state = 1)
    (hpre : pre.length = if smoothOk w then 1 else 7) :
    (runMain hw pre w).state = 12 ∧ (runMain hw pre w).bus = w.bus ∧
    (runMain hw pre w).Si570_Buf = w.Si570_Buf ∧
    (runMain hw pre w).Current_Si570_Xtal = w.Current_Si570_Xtal ∧
    (runMain hw pre w).fout = w.fout ∧
    (runMain hw pre w).smooth = if smoothOk w then 1 else 0 := by
  by_cases hc : smoothOk w
  · rw [if_pos hc] at hpre
    obtain ⟨a, rfl⟩ := list_length_one hpre
    simp only [runMain]
    rw [Main_state1 hw a w hs, if_pos hc, if_pos hc]
    exact ⟨rfl, rfl, rfl, rfl, rfl, rfl⟩
  · rw [if_neg hc] at hpre
    obtain ⟨a, b, c, d, e, f, g, rfl⟩ := list_length_seven hpre
    have h1 : runMain hw [a, b, c, d, e, f, g] w =
        runMain hw [b, c, d, e, f, g] { w with smooth := 0, dco := SI570_DCO_MAX, state := 4 } := by
      show runMain hw [b, c, d, e, f, g] (Si570_Main hw a w) = _
      rw [Main_state1 hw a w hs, if_neg hc]
    rw [h1, if_neg hc]
    obtain ⟨k1, _, _, _, k5, _, _, k8, k9, k10, k11⟩ :=
      search_frame hw { w with smooth := 0, dco := SI570_DCO_MAX, state := 4 } b c d e f g rfl
    exact ⟨k1, k11, k5, k10, k9, k8⟩

/-- The quotient of line 165 is within `2^-22` of the exact quotient,
relatively. -/
theorem rfreqCalc_err {dco : ℚ} (hd : 0 ≤ dco) {xtal : ℕ} (hx : 0 < swap32 xtal) :
    |rfreqCalc dco xtal - rfreqExact dco xtal| ≤ rfreqExact dco xtal / 2 ^ 22 := by
  have hX : (0 : ℚ) < (swap32 xtal : ℚ) := by exact_mod_cast hx
  obtain ⟨a1, a2⟩ := f32_bounds hX.le
  have ha0 : 0 < f32 (swap32 xtal : ℚ) := f32_pos hX
  have hb0 : 0 < f32 (swap32 xtal : ℚ) / 0x01000000 := by positivity
  obtain ⟨b1, b2⟩ := f32_bounds hb0.le
  have hc0 : 0 < f32 (f32 (swap32 xtal : ℚ) / 0x01000000) := f32_pos hb0
  obtain ⟨c1, c2⟩ := f32_bounds (div_nonneg hd hc0.le)
  have hE : 0 < (swap32 xtal : ℚ) / 0x01000000 := by positivity
  unfold rfreqCalc rfreqExact
  generalize (swap32 xtal : ℚ) = X at hX a1 a2 ha0 hb0 b1 b2 hc0 c1 c2 hE
  generalize f32 X = A at a1 a2 ha0 hb0 b1 b2 hc0 c1 c2
  generalize f32 (A / 0x01000000) = B at b1 b2 hc0 c1 c2
  generalize f32 (dco / B) = C at c1 c2
  -- `B` lies within `(1 ± u)^2` of `X / 2^24`
  have hB1 : X / 0x01000000 * ((1 - 1 / 2 ^ 24) * (1 - 1 / 2 ^ 24)) ≤ B := by
    have : X / 0x01000000 * ((1 - 1 / 2 ^ 24) * (1 - 1 / 2 ^ 24)) =
        X * (1 - 1 / 2 ^ 24) / 0x01000000 * (1 - 1 / 2 ^ 24) := by ring
    rw [this]
    refine le_trans ?_ b1
    apply mul_le_mul_of_nonneg_right _ (by norm_num)
    exact div_le_div_of_nonneg_right a1 (by norm_num)
  have hB2 : B ≤ X / 0x01000000 * ((1 + 1 / 2 ^ 24) * (1 + 1 / 2 ^ 24)) := by
    have : X / 0x01000000 * ((1 + 1 / 2 ^ 24) * (1 + 1 / 2 ^ 24)) =
        X * (1 + 1 / 2 ^ 24) / 0x01000000 * (1 + 1 / 2 ^ 24) := by ring
    rw [this]
    refine le_trans b2 ?_
    apply mul_le_mul_of_nonneg_right _ (by norm_num)
    exact div_le_div_of_nonneg_right a2 (by norm_num)
  generalize X / 0x01000000 = E at hE hB1 hB2 ⊢
  have hq0 : 0 ≤ dco / E := div_nonneg hd hE.le
  -- `dco / B` lies between `dco / E / (1 + u)^2` and `dco / E / (1 - u)^2`
  have hD1 : dco / E * (1 - 1 / 2 ^ 23) ≤ dco / B := by
    rw [le_div_iff₀ hc0]
    have h1 : dco / E * (1 - 1 / 2 ^ 23) * B ≤
        dco / E * (1 - 1 / 2 ^ 23) * (E * ((1 + 1 / 2 ^ 24) * (1 + 1 / 2 ^ 24))) :=
      mul_le_mul_of_nonneg_left hB2 (mul_nonneg hq0 (by norm_num))
    have h2 : dco / E * (1 - 1 / 2 ^ 23) * (E * ((1 + 1 / 2 ^ 24) * (1 + 1 / 2 ^ 24))) =
        dco * ((1 - 1 / 2 ^ 23) * ((1 + 1 / 2 ^ 24) * (1 + 1 / 2 ^ 24))) := by
      field_simp
      ring
    have h3 : dco * ((1 - 1 / 2 ^ 23) * ((1 + 1 / 2 ^ 24) * (1 + 1 / 2 ^ 24))) ≤ dco * 1 :=
      mul_le_mul_of_nonneg_left (by norm_num) hd
    linarith
  have hD2 : dco / B ≤ dco / E * (1 + 5 / 2 ^ 25) := by
    rw [div_le_iff₀ hc0]
    have h1 : dco / E * (1 + 5 / 2 ^ 25) * (E * ((1 - 1 / 2 ^ 24) * (1 - 1 / 2 ^ 24))) ≤
        dco / E * (1 + 5 / 2 ^ 25) * B :=
      mul_le_mul_of_nonneg_left hB1 (mul_nonneg hq0 (by norm_num))
    have h2 : dco / E * (1 + 5 / 2 ^ 25) * (E * ((1 - 1 / 2 ^ 24) * (1 - 1 / 2 ^ 24))) =
        dco * ((1 + 5 / 2 ^ 25) * ((1 - 1 / 2 ^ 24) * (1 - 1 / 2 ^ 24))) := by
      field_simp
      ring
    have h3 : dco * 1 ≤ dco * ((1 + 5 / 2 ^ 25) * ((1 - 1 / 2 ^ 24) * (1 - 1 / 2 ^ 24))) :=
      mul_le_mul_of_nonneg_left (by norm_num) hd
    linarith
  have hC1 : dco / E * ((1 - 1 / 2 ^ 23) * (1 - 1 / 2 ^ 24)) ≤ C := by
    refine le_trans ?_ c1
    rw [← mul_assoc]
    exact mul_le_mul_of_nonneg_right hD1 (by norm_num)
  have hC2 : C ≤ dco / E * ((1 + 5 / 2 ^ 25) * (1 + 1 / 2 ^ 24)) := by
    refine le_trans c2 ?_
    rw [← mul_assoc]
    exact mul_le_mul_of_nonneg_right hD2 (by norm_num)
  generalize dco / E = Q at hq0 hC1 hC2 ⊢
  have k1 : Q * (1 - 1 / 2 ^ 22) ≤ Q * ((1 - 1 / 2 ^ 23) * (1 - 1 / 2 ^ 24)) :=
    mul_le_mul_of_nonneg_left (by norm_num) hq0
  have k2 : Q * ((1 + 5 / 2 ^ 25) * (1 + 1 / 2 ^ 24)) ≤ Q * (1 + 1 / 2 ^ 22) :=
    mul_le_mul_of_nonneg_left (by norm_num) hq0
  rw [abs_le]
  constructor
  · have : Q * (1 - 1 / 2 ^ 22) = Q - Q / 2 ^ 22 := by ring
    linarith
  · have : Q * (1 + 1 / 2 ^ 22) = Q + Q / 2 ^ 22 := by ring
    linarith

/-- C4 (amended): in a reprogram cycle of `Si570_Main` (from state 1 back to
idle) in which every status poll reports write-complete, the bus calls issued
are exactly three writes to address 0x55, in this order: the 2 bytes
`[135, 0x20]`; the 7 bytes `[7, r0..r5]` with `r0..r5` the register encoding of
the `hsdiv` and `n1` held when state 12 is reached and of `rfreq`, the
quotient `dco / Xtal` as state 14 computes it in single precision (the
calibration word converted to `float`, its division by `2^24` and the
quotient each rounded to 24 bits, so `rfreq` is within `2^-22` of the exact
quotient, relatively); and the 2 bytes `[135, 0x00]` when state 1 selected
the smooth path, `[135, 0x40]` when it selected the full path. -/
theorem C4_reprogram_bus_sequence (hw : Hw) (w : World) (pre : List ℕ) (a s1 b s2 c s3 d : ℕ)
    (hs : w.state = 1) (hpre : pre.length = if smoothOk w then 1 else 7)
    (h1 : wrDone hw s1) (h2 : wrDone hw s2) (h3 : wrDone hw s3) :
    (runMain hw pre w).state = 12 ∧ (runMain hw pre w).bus = w.bus ∧
    (runMain hw (pre ++ [a, s1, b, s2, c, s3, d]) w).state = 0 ∧
    (runMain hw (pre ++ [a, s1, b, s2, c, s3, d]) w).bus = w.bus ++
      [BusOp.write 0x55 [135, 0x20] I2CMode.COMPLETE_XFER,
       BusOp.write 0x55
        (7 :: (regsOf (packRegs (runMain hw pre w).hsdiv (runMain hw pre w).n1
          (rfreqSplit (rfreqCalc (runMain hw pre w).dco w.Current_Si570_Xtal)).1
          (rfreqSplit (rfreqCalc (runMain hw pre w).dco w.Current_Si570_Xtal)).2
          w.Si570_Buf)).toList)
        I2CMode.COMPLETE_XFER,
       BusOp.write 0x55 [135, if smoothOk w then 0x00 else 0x40] I2CMode.COMPLETE_XFER] ∧
    (0 ≤ (runMain hw pre w).dco → 0 < swap32 w.Current_Si570_Xtal →
      |rfreqCalc (runMain hw pre w).dco w.Current_Si570_Xtal -
          (runMain hw pre w).dco / ((swap32 w.Current_Si570_Xtal : ℚ) / 2 ^ 24)| ≤
        (runMain hw pre w).dco / ((swap32 w.Current_Si570_Xtal : ℚ) / 2 ^ 24) / 2 ^ 22) := by
  obtain ⟨m1, m2, m3, m4, _, m6⟩ := math_phase hw w pre hs hpre
  refine ⟨m1, m2, ?_, ?_, ?_⟩
  · rw [runMain_append, sequencer_run hw _ a s1 b s2 c s3 d m1 h1 h2 h3]
  · rw [runMain_append, sequencer_run hw _ a s1 b s2 c s3 d m1 h1 h2 h3]
    simp only [m2, m3, m4, m6, SI570_ADDR]
    by_cases hc : smoothOk w <;> simp [hc]
  · intro hd hx
    have := rfreqCalc_err hd hx
    unfold rfreqExact at this
    norm_num at this ⊢
    exact this

theorem exSmooth_ok : smoothOk exSmooth := by decide!

theorem exFull_not_ok : ¬ smoothOk exFull := by decide!

/-- Witness for C3: a target of `10 + 1/1024` MHz against the setting of
10 MHz takes the smooth path. -/
theorem C3_smooth_tune_decision_witness :
    (Si570_Main hwExample 0 exSmooth).state = 12 ∧ (Si570_Main hwExample 0 exSmooth).smooth = 1 :=
  ⟨(C3_smooth_tune_decision hwExample 0 exSmooth rfl).2.2.1.mpr
      (by decide!),
    (C3_smooth_tune_decision hwExample 0 exSmooth rfl).2.2.2.mpr
      (by decide!)⟩

/-- Counterexample to C3 as stated: with the setting of 10 MHz (`hsdiv = 9`,
`n1 = 58`, `dco = 5220`) and the target `2630615 / 262144` the exact values
satisfy `4850 < testdco < 5670` and `|testdco - dco| < dco * 3500 / 1000000`,
but the rounded difference `18.27001953125` is not below the rounded limit
`18.270000457763672` and state 1 takes the full path. -/
theorem C3_counterexample :
    exEdge.state = 1 ∧
    (4850 < exEdge.fout * (exEdge.hsdiv : ℚ) * (exEdge.n1 : ℚ) ∧
      exEdge.fout * (exEdge.hsdiv : ℚ) * (exEdge.n1 : ℚ) < 5670 ∧
      |exEdge.fout * (exEdge.hsdiv : ℚ) * (exEdge.n1 : ℚ) - exEdge.dco| <
        exEdge.dco * 3500 / 1000000) ∧
    |f32 (f32 (f32 (exEdge.fout * (exEdge.hsdiv : ℚ)) * (exEdge.n1 : ℚ)) - exEdge.dco)| =
      37417 / 2048 ∧
    f32 (f32 (exEdge.dco * 3500) / 1000000) = 4789371 / 262144 ∧
    (Si570_Main hwExample 0 exEdge).state = 4 ∧ (Si570_Main hwExample 0 exEdge).smooth = 0 := by
  decide!

/-- Witness for C4: the first reprogram after power-on, on the full path. -/
theorem C4_reprogram_bus_sequence_witness :
    (runMain hwExample ([0, 0, 0, 0, 0, 0, 0] ++ [0, 2, 0, 2, 0, 2, 0]) exFull).state = 0 ∧
    (runMain hwExample ([0, 0, 0, 0, 0, 0, 0] ++ [0, 2, 0, 2, 0, 2, 0]) exFull).bus = exFull.bus ++
      [BusOp.write 0x55 [135, 0x20] I2CMode.COMPLETE_XFER,
       BusOp.write 0x55
        (7 :: (regsOf (packRegs (runMain hwExample [0, 0, 0, 0, 0, 0, 0] exFull).hsdiv
          (runMain hwExample [0, 0, 0, 0, 0, 0, 0] exFull).n1
          (rfreqSplit (rfreqCalc (runMain hwExample [0, 0, 0, 0, 0, 0, 0] exFull).dco
            exFull.Current_Si570_Xtal)).1
          (rfreqSplit (rfreqCalc (runMain hwExample [0, 0, 0, 0, 0, 0, 0] exFull).dco
            exFull.Current_Si570_Xtal)).2
          exFull.Si570_Buf)).toList)
        I2CMode.COMPLETE_XFER,
       BusOp.write 0x55 [135, if smoothOk exFull then 0x00 else 0x40] I2CMode.COMPLETE_XFER] :=
  ⟨(C4_reprogram_bus_sequence hwExample exFull [0, 0, 0, 0, 0, 0, 0] 0 2 0 2 0 2 0 rfl
      (by rw [if_neg exFull_not_ok]; rfl) (by decide) (by decide) (by decide)).2.2.1,
    (C4_reprogram_bus_sequence hwExample exFull [0, 0, 0, 0, 0, 0, 0] 0 2 0 2 0 2 0 rfl
      (by rw [if_neg exFull_not_ok]; rfl) (by decide) (by decide) (by decide)).2.2.2.1⟩

/-- Counterexample to C4 as stated: in the first reprogram after power-on for
10 MHz (`hsdiv = 9`, `n1 = 58`, `dco = 5220`, calibration word 114.285 MHz)
the register write carries the bytes `[7, 174, 66, 218, 205, 248, 0]`, while
the encoding of the exact quotient `dco / Xtal` ends in the byte 38. -/
theorem C4_counterexample :
    (runMain hwExample ([0, 0, 0, 0, 0, 0, 0] ++ [0, 2, 0, 2, 0, 2, 0]) exFull).bus =
      [BusOp.write 0x55 [135, 0x20] I2CMode.COMPLETE_XFER,
       BusOp.write 0x55 [7, 174, 66, 218, 205, 248, 0] I2CMode.COMPLETE_XFER,
       BusOp.write 0x55 [135, 0x40] I2CMode.COMPLETE_XFER] ∧
    (runMain hwExample [0, 0, 0, 0, 0, 0, 0] exFull).hsdiv = 9 ∧
    (runMain hwExample [0, 0, 0, 0, 0, 0, 0] exFull).n1 = 58 ∧
    (runMain hwExample [0, 0, 0, 0, 0, 0, 0] exFull).dco = 5220 ∧
    7 :: (regsOf (packRegs 9 58 (rfreqSplit (rfreqExact 5220 exFull.Current_Si570_Xtal)).1
      (rfreqSplit (rfreqExact 5220 exFull.Current_Si570_Xtal)).2 exFull.Si570_Buf)).toList =
      [7, 174, 66, 218, 205, 248, 38] := by
  decide!

/-! ## `Si570_Init` -/

theorem Init_iter_state0 (hw : Hw) (stat : ℕ → ℕ) (img : Reg6) (l : InitLoc) (w : World)
    (h : l.state = 0) :
    Init_iter hw stat img l w = InitIter.cont { l with state := 1 }
      { w with Si570_Buf := { w.Si570_Buf with b0 := 135, b1 := 1 },
               bus := w.bus ++ [BusOp.write SI570_ADDR [135, 1] I2CMode.COMPLETE_XFER] } := by
  unfold Init_iter
  simp [h]

theorem Init_iter_state2 (hw : Hw) (stat : ℕ → ℕ) (img : Reg6) (l : InitLoc) (w : World)
    (h : l.state = 2) :
    Init_iter hw stat img l w = InitIter.cont { l with state := 3 }
      { w with Si570_Buf := { w.Si570_Buf with b0 := 7 },
               bus := w.bus ++ [BusOp.write SI570_ADDR [7] I2CMode.NO_STOP] } := by
  unfold Init_iter
  simp [h]

theorem Init_iter_state4 (hw : Hw) (stat : ℕ → ℕ) (img : Reg6) (l : InitLoc) (w : World)
    (h : l.state = 4) :
    Init_iter hw stat img l w = InitIter.cont { l with state := 5 }
      { w with bus := w.bus ++ [BusOp.read SI570_ADDR 6 I2CMode.REPEAT_START] } := by
  unfold Init_iter
  simp [h]

theorem Init_iter_state13 (hw : Hw) (stat : ℕ → ℕ) (img : Reg6) (l : InitLoc) (w : World)
    (h : l.state = 1 ∨ l.state = 3) :
    Init_iter hw stat img l w =
      if decErr l.err = 0 then
        InitIter.ret 1
          { state := if (stat l.polls % 256) &&& hw.I2C_MSTAT_ERR_XFER ≠ 0 then l.state - 1
              else if (stat l.polls % 256) &&& hw.I2C_MSTAT_WR_CMPLT ≠ 0 then l.state + 1
              else l.state,
            err := decErr l.err, polls := l.polls + 1 } w
      else
        InitIter.cont
          { state := if (stat l.polls % 256) &&& hw.I2C_MSTAT_ERR_XFER ≠ 0 then l.state - 1
              else if (stat l.polls % 256) &&& hw.I2C_MSTAT_WR_CMPLT ≠ 0 then l.state + 1
              else l.state,
            err := decErr l.err, polls := l.polls + 1 } w := by
  unfold Init_iter
  rcases h with h | h <;> simp [h]

theorem Init_iter_state5 (hw : Hw) (stat : ℕ → ℕ) (img : Reg6) (l : InitLoc) (w : World)
    (h : l.state = 5) :
    Init_iter hw stat img l w =
      if (stat l.polls % 256) &&& hw.I2C_MSTAT_ERR_XFER ≠ 0 then
        InitIter.cont { l with state := 2, polls := l.polls + 1 } w
      else if (stat l.polls % 256) &&& hw.I2C_MSTAT_RD_CMPLT ≠ 0 then
        InitIter.cont { l with state := 6, polls := l.polls + 1 }
          { w with Si570_Buf :=
              { w.Si570_Buf with b2 := img.r0, b3 := img.r1, b4 := img.r2,
                                 b5 := img.r3, b6 := img.r4, b7 := img.r5 } }
      else InitIter.cont { l with polls := l.polls + 1 } w := by
  unfold Init_iter
  simp [h]

theorem Init_iter_inv (hw : Hw) (stat : ℕ → ℕ) (img : Reg6) (w0 : World) (l : InitLoc)
    (w : World) (hinv : initInv w0 img l w) (hlt : l.state < 6) :
    match Init_iter hw stat img l w with
    | InitIter.cont l1 w1 => initInv w0 img l1 w1
    | InitIter.ret code _ w1 => code = 1 ∧ w1 = w := by
  obtain ⟨_, hfr, _⟩ := hinv
  have hcases : l.state = 0 ∨ l.state = 2 ∨ l.state = 4 ∨ (l.state = 1 ∨ l.state = 3) ∨
      l.state = 5 := by omega
  rcases hcases with h | h | h | h | h
  · rw [Init_iter_state0 hw stat img l w h]
    refine ⟨?_, hfr, ?_⟩ <;> simp
  · rw [Init_iter_state2 hw stat img l w h]
    refine ⟨?_, hfr, ?_⟩ <;> simp
  · rw [Init_iter_state4 hw stat img l w h]
    refine ⟨?_, hfr, ?_⟩ <;> simp
  · rw [Init_iter_state13 hw stat img l w h]
    by_cases he : decErr l.err = 0
    · rw [if_pos he]
      exact ⟨rfl, rfl⟩
    · rw [if_neg he]
      refine ⟨?_, hfr, ?_⟩ <;> simp only <;> split_ifs <;> omega
  · rw [Init_iter_state5 hw stat img l w h]
    by_cases h1 : (stat l.polls % 256) &&& hw.I2C_MSTAT_ERR_XFER ≠ 0
    · rw [if_pos h1]
      refine ⟨?_, hfr, ?_⟩ <;> simp
    · rw [if_neg h1]
      by_cases h2 : (stat l.polls % 256) &&& hw.I2C_MSTAT_RD_CMPLT ≠ 0
      · rw [if_pos h2]
        refine ⟨?_, hfr, ?_⟩
        · simp
        · intro _; rfl
      · rw [if_neg h2]
        refine ⟨?_, hfr, ?_⟩ <;> simp only <;> omega

/-- Whatever the status stream, a return of `Si570_Init` is either the failure
return 1 with only the buffer and the bus trace changed, or the return 0 after
the image has been read into `Si570_Buf[2..7]` and the code after the loop has
run on it. -/
theorem Init_loop_result (hw : Hw) (stat : ℕ → ℕ) (img : Reg6) (w0 : World) (fuel : ℕ) :
    ∀ (l : InitLoc) (w : World) (code : ℕ) (l1 : InitLoc) (w1 : World),
      initInv w0 img l w → Init_loop hw stat img fuel l w = some (code, l1, w1) →
      (code = 1 ∧ { w1 with Si570_Buf := w0.Si570_Buf, bus := w0.bus } = w0) ∨
      (code = 0 ∧ ∃ w2 : World, { w2 with Si570_Buf := w0.Si570_Buf, bus := w0.bus } = w0 ∧
        regsOf w2.Si570_Buf = img ∧ w1 = Init_finish hw w2) := by
  induction fuel with
  | zero => intro l w code l1 w1 _ h; simp [Init_loop] at h
  | succ fuel ih =>
    intro l w code l1 w1 hinv h
    unfold Init_loop at h
    by_cases hlt : l.state < 6
    · rw [if_pos hlt] at h
      have hstep := Init_iter_inv hw stat img w0 l w hinv hlt
      cases hit : Init_iter hw stat img l w with
      | cont l2 w2 =>
        rw [hit] at h hstep
        exact ih l2 w2 code l1 w1 hstep h
      | ret c l2 w2 =>
        rw [hit] at h hstep
        simp only [Option.some.injEq, Prod.mk.injEq] at h
        obtain ⟨hc, _, hw2⟩ := h
        left
        refine ⟨by rw [← hc]; exact hstep.1, ?_⟩
        rw [← hw2, hstep.2]
        exact hinv.2.1
    · rw [if_neg hlt] at h
      simp only [Option.some.injEq, Prod.mk.injEq] at h
      obtain ⟨hc, _, hw2⟩ := h
      right
      refine ⟨hc.symm, w, hinv.2.1, hinv.2.2 (by have := hinv.1; omega), hw2.symm⟩

theorem Init_result (hw : Hw) (stat : ℕ → ℕ) (img : Reg6) (fuel : ℕ) (w : World) (code : ℕ)
    (w1 : World) (h : Si570_Init hw stat img fuel w = some (code, w1)) :
    (code = 1 ∧ { w1 with Si570_Buf := w.Si570_Buf, bus := w.bus } = w) ∨
    (code = 0 ∧ ∃ w2 : World, { w2 with Si570_Buf := w.Si570_Buf, bus := w.bus } = w ∧
      regsOf w2.Si570_Buf = img ∧ w1 = Init_finish hw w2) := by
  unfold Si570_Init at h
  cases hl : Init_loop hw stat img fuel { state := 0, err := 0, polls := 0 } w with
  | none => rw [hl] at h; simp at h
  | some r =>
    rw [hl] at h
    simp only [Option.map_some', Option.some.injEq, Prod.mk.injEq] at h
    obtain ⟨hc, hw1⟩ := h
    have hinv : initInv w img { state := 0, err := 0, polls := 0 } w :=
      ⟨by simp, rfl, fun h6 => absurd h6 (by simp)⟩
    have := Init_loop_result hw stat img w fuel _ w r.1 r.2.1 r.2.2 hinv hl
    rw [hc, hw1] at this
    exact this

/-- The run of `Si570_Init` on a bus that reports each of the three transfers
finished at the first poll: seven loop tests suffice. -/
theorem Init_success (hw : Hw) (stat : ℕ → ℕ) (img : Reg6) (k : ℕ) (w : World)
    (h0 : wrDone hw (stat 0)) (h1 : wrDone hw (stat 1)) (h2 : rdDone hw (stat 2)) :
    Si570_Init hw stat img (k + 7) w = some (0, Init_finish hw
      { w with
        Si570_Buf := { b0 := 7, b1 := 1, b2 := img.r0, b3 := img.r1, b4 := img.r2,
                       b5 := img.r3, b6 := img.r4, b7 := img.r5 },
        bus := w.bus ++ [BusOp.write SI570_ADDR [135, 1] I2CMode.COMPLETE_XFER,
          BusOp.write SI570_ADDR [7] I2CMode.NO_STOP,
          BusOp.read SI570_ADDR 6 I2CMode.REPEAT_START] }) := by
  obtain ⟨e0, c0⟩ := h0
  obtain ⟨e1, c1⟩ := h1
  obtain ⟨e2, c2⟩ := h2
  unfold Si570_Init
  simp [Init_loop, Init_iter, decErr, e0, c0, e1, c1, e2, c2]

/-! ## Crystal calibration -/

theorem toUInt_floor {w : ℕ} {q : ℚ} (h0 : 0 ≤ q) (h1 : q < 2 ^ w) : toUInt w q = ⌊q⌋₊ := by
  apply toUInt_of_floor (Nat.floor_le h0) (Nat.lt_floor_add_one q)
  have := (Nat.floor_lt h0).2 (show q < ((2 ^ w : ℕ) : ℚ) by push_cast; exact h1)
  exact this

theorem swap32_load32 (a b c d : ℕ) (ha : a < 256) (hb : b < 256) (hc : c < 256)
    (hd : d < 256) : swap32 (load32 a b c d) = load32 d c b a := by
  have e0 : load32 a b c d % 256 = d := by unfold load32; omega
  have e1 : load32 a b c d / 256 % 256 = c := by unfold load32; omega
  have e2 : load32 a b c d / 65536 % 256 = b := by unfold load32; omega
  have e3 : load32 a b c d / 16777216 % 256 = a := by unfold load32; omega
  unfold swap32
  rw [e0, e1, e2, e3]
  rfl

theorem swap32_swap32 (x : ℕ) (h : x < 4294967296) : swap32 (swap32 x) = x := by
  have e : swap32 x = load32 (x % 256) (x / 256 % 256) (x / 65536 % 256) (x / 16777216 % 256) :=
    rfl
  rw [e, swap32_load32 _ _ _ _ (by omega) (by omega) (by omega) (by omega)]
  unfold load32
  omega

theorem swap32_lt (x : ℕ) : swap32 x < 4294967296 := by
  unfold swap32
  omega

theorem exImage_decode : OLD_decode exImage = (7, 4, 120, 134217728) := by decide

theorem exImageLow_decode : OLD_decode exImageLow = (11, 128, 1, 0) := by decide

theorem exImageFrac_decode : OLD_decode exImageFrac = (11, 8, 43, 98427547) := by decide

/-- The calibration word `Init_finish` stores when `Si570_Xtal` is zero. -/
theorem Init_finish_xtal (hw : Hw) (w : World) (h : w.Si570_Xtal = 0) :
    (Init_finish hw w).Si570_Xtal =
      swap32 (toUInt 32 (calValue hw (OLD_decode (regsOf w.Si570_Buf)).1
        (OLD_decode (regsOf w.Si570_Buf)).2.1 (OLD_decode (regsOf w.Si570_Buf)).2.2.1
        (OLD_decode (regsOf w.Si570_Buf)).2.2.2)) := by
  unfold Init_finish
  simp only [h, if_true]
  rfl

theorem Init_finish_factory (hw : Hw) (w : World) :
    (Init_finish hw w).Si570_Factory = regsOf w.Si570_Buf := by
  unfold Init_finish
  split_ifs <;> rfl

/-- The value line 87 computes encloses the exact one within `1 ± 2^-20`:
the constant, the three roundings of `rfreq` and the four operations each
contribute at most `2^-24`. -/
theorem calValue_within (hw : Hw) (hsdiv n1 rfreqint rfreqfrac : ℕ)
    (hF : 0 ≤ hw.SI570_STARTUP_FREQ) (hr : 0 < rfreqOf rfreqint rfreqfrac) :
    within (1 - 1 / 2 ^ 20) (1 + 1 / 2 ^ 20) (calValue hw hsdiv n1 rfreqint rfreqfrac)
      (calExact hw hsdiv n1 rfreqint rfreqfrac * 2 ^ 24) := by
  have hh : (0 : ℚ) ≤ (hsdiv : ℚ) := Nat.cast_nonneg _
  have hn : (0 : ℚ) ≤ (n1 : ℚ) := Nat.cast_nonneg _
  have a1 := within_dbl hw hF (by norm_num) (within_refl hw.SI570_STARTUP_FREQ)
  have a2 := within_mul_const (hsdiv : ℚ) hh a1
  have a3 := within_dbl hw (mul_nonneg hF hh) (by norm_num) a2
  have a4 := within_mul_const (n1 : ℚ) hn a3
  have hN : 0 ≤ hw.SI570_STARTUP_FREQ * (hsdiv : ℚ) * (n1 : ℚ) := mul_nonneg (mul_nonneg hF hh) hn
  have a5 := within_dbl hw hN (by norm_num) a4
  have q := within_div hN hr (by norm_num) (by norm_num) a5 (rfreqDec_within rfreqint rfreqfrac)
  have hQ : 0 ≤ hw.SI570_STARTUP_FREQ * (hsdiv : ℚ) * (n1 : ℚ) / rfreqOf rfreqint rfreqfrac :=
    div_nonneg hN hr.le
  have q1 := within_dbl hw hQ (by norm_num) q
  have q2 := within_mul_const (0x01000000 : ℚ) (by norm_num) q1
  have q3 := within_dbl hw (mul_nonneg hQ (by norm_num)) (by norm_num) q2
  have e : calExact hw hsdiv n1 rfreqint rfreqfrac * 2 ^ 24 =
      hw.SI570_STARTUP_FREQ * (hsdiv : ℚ) * (n1 : ℚ) / rfreqOf rfreqint rfreqfrac * 0x01000000 := by
    unfold calExact; norm_num
  rw [e]
  exact within_weaken (mul_nonneg hQ (by norm_num)) q3 (by norm_num) (by norm_num)

/-- The calibration stored by a successful `Si570_Init` entered with
`Si570_Xtal = 0`, when the exact quotient is below 255. -/
theorem Init_xtal_value (hw : Hw) (stat : ℕ → ℕ) (img : Reg6) (fuel : ℕ) (w w1 : World)
    (hsdiv n1 rfreqint rfreqfrac : ℕ)
    (hret : Si570_Init hw stat img fuel w = some (0, w1)) (hx : w.Si570_Xtal = 0)
    (hdec : OLD_decode img = (hsdiv, n1, rfreqint, rfreqfrac))
    (hr : 0 < rfreqOf rfreqint rfreqfrac) (hF : 0 ≤ hw.SI570_STARTUP_FREQ)
    (hq1 : calExact hw hsdiv n1 rfreqint rfreqfrac < 255) :
    w1.Si570_Xtal = swap32 ⌊calValue hw hsdiv n1 rfreqint rfreqfrac⌋₊ ∧
    ⌊calValue hw hsdiv n1 rfreqint rfreqfrac⌋₊ < 2 ^ 32 ∧
    |calValue hw hsdiv n1 rfreqint rfreqfrac - calExact hw hsdiv n1 rfreqint rfreqfrac * 2 ^ 24| ≤
      calExact hw hsdiv n1 rfreqint rfreqfrac * 2 ^ 24 / 2 ^ 20 ∧
    |(swap32 w1.Si570_Xtal : ℚ) / 2 ^ 24 - calExact hw hsdiv n1 rfreqint rfreqfrac| ≤
      1 / 2 ^ 24 + calExact hw hsdiv n1 rfreqint rfreqfrac / 2 ^ 20 := by
  rcases Init_result hw stat img fuel w 0 w1 hret with ⟨h10, _⟩ | ⟨_, w2, hfr, himg, hfin⟩
  · exact absurd h10 (by decide)
  have hx2 : w2.Si570_Xtal = 0 := by
    have := congrArg World.Si570_Xtal hfr
    simp only at this
    rw [this, hx]
  have hX := Init_finish_xtal hw w2 hx2
  rw [himg, hdec] at hX
  simp only at hX
  have hwi := calValue_within hw hsdiv n1 rfreqint rfreqfrac hF hr
  have hE0 : 0 ≤ calExact hw hsdiv n1 rfreqint rfreqfrac := by
    unfold calExact
    exact div_nonneg (mul_nonneg (mul_nonneg hF (Nat.cast_nonneg _)) (Nat.cast_nonneg _)) hr.le
  generalize calExact hw hsdiv n1 rfreqint rfreqfrac = E at hq1 hwi hE0 ⊢
  generalize calValue hw hsdiv n1 rfreqint rfreqfrac = V at hX hwi ⊢
  have hV0 : 0 ≤ V := within_nonneg (by positivity) (by norm_num) hwi
  have habs := within_abs hwi
  have hV1 : V < 2 ^ 32 := by
    have := hwi.2
    have h2 : E * 2 ^ 24 * (1 + 1 / 2 ^ 20) < 2 ^ 32 := by
      have : E * 2 ^ 24 * (1 + 1 / 2 ^ 20) < 255 * 2 ^ 24 * (1 + 1 / 2 ^ 20) := by
        apply mul_lt_mul_of_pos_right _ (by norm_num)
        exact mul_lt_mul_of_pos_right hq1 (by norm_num)
      norm_num at this ⊢
      linarith
    linarith
  have hfl : ⌊V⌋₊ < 2 ^ 32 := by
    apply (Nat.floor_lt hV0).2
    push_cast
    exact hV1
  have hX2 : w1.Si570_Xtal = swap32 ⌊V⌋₊ := by
    rw [hfin, hX, toUInt_floor hV0 hV1]
  refine ⟨hX2, hfl, ?_, ?_⟩
  · have : E * 2 ^ 24 / 2 ^ 20 = E * 2 ^ 24 * (1 / 2 ^ 20) := by ring
    rw [this]
    exact habs
  · rw [hX2, swap32_swap32 _ (by norm_num at hfl; exact hfl)]
    have h1 := Nat.floor_le hV0
    have h2 := Nat.lt_floor_add_one V
    rw [abs_le] at habs ⊢
    obtain ⟨b1, b2⟩ := habs
    have e1 : (⌊V⌋₊ : ℚ) / 2 ^ 24 ≤ V / 2 ^ 24 := div_le_div_of_nonneg_right h1 (by norm_num)
    have e2 : V / 2 ^ 24 - 1 / 2 ^ 24 < (⌊V⌋₊ : ℚ) / 2 ^ 24 := by
      rw [← sub_div]
      apply div_lt_div_of_pos_right _ (by norm_num)
      linarith
    have e3 : V / 2 ^ 24 - E ≤ E / 2 ^ 20 := by
      have : V / 2 ^ 24 - E = (V - E * 2 ^ 24) / 2 ^ 24 := by field_simp; ring
      rw [this, div_le_iff₀ (by norm_num)]
      have : E / 2 ^ 20 * 2 ^ 24 = E * 2 ^ 24 * (1 / 2 ^ 20) := by ring
      rw [this]
      exact b2
    have e4 : -(E / 2 ^ 20) ≤ V / 2 ^ 24 - E := by
      have : V / 2 ^ 24 - E = (V - E * 2 ^ 24) / 2 ^ 24 := by field_simp; ring
      rw [this, le_div_iff₀ (by norm_num)]
      have : -(E / 2 ^ 20) * 2 ^ 24 = -(E * 2 ^ 24 * (1 / 2 ^ 20)) := by ring
      rw [this]
      exact b1
    constructor <;> linarith

/-- C5 (amended): when `Si570_Init` returns 0 after being entered with
`Si570_Xtal = 0`, and the six bytes read decode to `(hsdiv, n1, rfreq)` with
`rfreq > 0` and `F * hsdiv * n1 / rfreq` below 255 (`F ≥ 0` the startup
reference output frequency), the stored `Si570_Xtal` is the byte-reversed
32-bit word `floor v`, where `v` is `F * hsdiv * n1 / rfreq * 2^24` as line 87
computes it in floating point: `rfreq` is held in single precision and the
four operations are rounded to the format of `double`.  `v` is within `2^-20`
of the exact value, relatively, so the numeric value of the stored word
(byte-reverse `/ 2^24`) is within `2^-24 + (F * hsdiv * n1 / rfreq) * 2^-20` of
`F * hsdiv * n1 / rfreq`; for `hsdiv = 7`, `n1 = 4`, `rfreq = 120.5`,
`F = 56.32` it matches `56.32 * 28 / 120.5` within `1e-6` relative error. -/
theorem C5_crystal_calibration :
    (∀ (hw : Hw) (stat : ℕ → ℕ) (img : Reg6) (fuel : ℕ) (w w1 : World)
        (hsdiv n1 rfreqint rfreqfrac : ℕ),
      Si570_Init hw stat img fuel w = some (0, w1) → w.Si570_Xtal = 0 →
      OLD_decode img = (hsdiv, n1, rfreqint, rfreqfrac) →
      0 < rfreqOf rfreqint rfreqfrac → 0 ≤ hw.SI570_STARTUP_FREQ →
      hw.SI570_STARTUP_FREQ * (hsdiv : ℚ) * (n1 : ℚ) / rfreqOf rfreqint rfreqfrac < 255 →
      w1.Si570_Xtal = swap32 ⌊calValue hw hsdiv n1 rfreqint rfreqfrac⌋₊ ∧
      ⌊calValue hw hsdiv n1 rfreqint rfreqfrac⌋₊ < 2 ^ 32 ∧
      calValue hw hsdiv n1 rfreqint rfreqfrac =
        dbl hw (dbl hw (dbl hw (dbl hw (dbl hw hw.SI570_STARTUP_FREQ * (hsdiv : ℚ)) * (n1 : ℚ)) /
          f32 ((rfreqint : ℚ) + f32 (f32 (rfreqfrac : ℚ) / 0x10000000))) * 0x01000000) ∧
      |calValue hw hsdiv n1 rfreqint rfreqfrac -
          hw.SI570_STARTUP_FREQ * (hsdiv : ℚ) * (n1 : ℚ) / rfreqOf rfreqint rfreqfrac * 2 ^ 24| ≤
        hw.SI570_STARTUP_FREQ * (hsdiv : ℚ) * (n1 : ℚ) / rfreqOf rfreqint rfreqfrac * 2 ^ 24 /
          2 ^ 20 ∧
      |(swap32 w1.Si570_Xtal : ℚ) / 2 ^ 24 -
          hw.SI570_STARTUP_FREQ * (hsdiv : ℚ) * (n1 : ℚ) / rfreqOf rfreqint rfreqfrac| ≤
        1 / 2 ^ 24 +
          hw.SI570_STARTUP_FREQ * (hsdiv : ℚ) * (n1 : ℚ) / rfreqOf rfreqint rfreqfrac / 2 ^ 20) ∧
    (∀ (hw : Hw) (stat : ℕ → ℕ) (fuel : ℕ) (w w1 : World),
      hw.SI570_STARTUP_FREQ = 1408 / 25 →
      Si570_Init hw stat exImage fuel w = some (0, w1) → w.Si570_Xtal = 0 →
      |(swap32 w1.Si570_Xtal : ℚ) / 2 ^ 24 - (1408 / 25 * 28 / (241 / 2) : ℚ)| ≤
        1 / 1000000 * (1408 / 25 * 28 / (241 / 2) : ℚ)) := by
  constructor
  · intro hw stat img fuel w w1 hsdiv n1 rfreqint rfreqfrac hret hx hdec hr hF hq1
    obtain ⟨h1, h2, h3, h4⟩ :=
      Init_xtal_value hw stat img fuel w w1 hsdiv n1 rfreqint rfreqfrac hret hx hdec hr hF hq1
    exact ⟨h1, h2, rfl, h3, h4⟩
  · intro hw stat fuel w w1 hF hret hx
    have hr : 0 < rfreqOf 120 134217728 := by norm_num [rfreqOf]
    obtain ⟨_, _, _, h4⟩ :=
      Init_xtal_value hw stat exImage fuel w w1 7 4 120 134217728 hret hx exImage_decode
        hr (by rw [hF]; norm_num) (by unfold calExact; rw [hF]; norm_num [rfreqOf])
    unfold calExact at h4
    rw [hF] at h4
    norm_num [rfreqOf] at h4
    rw [abs_le] at h4 ⊢
    constructor <;> norm_num <;> linarith

/-- Witness for C5: the power-on run with the image `hsdiv = 7`, `n1 = 4`,
`rfreq = 120.5` and `F = 56.32`. -/
theorem C5_crystal_calibration_witness :
    ∃ w1 : World, Si570_Init hwExample exStat exImage 7 powerOn = some (0, w1) ∧
      |(swap32 w1.Si570_Xtal : ℚ) / 2 ^ 24 - (1408 / 25 * 28 / (241 / 2) : ℚ)| ≤
        1 / 1000000 * (1408 / 25 * 28 / (241 / 2) : ℚ) :=
  ⟨_, Init_success hwExample exStat exImage 0 powerOn (by decide) (by decide) (by decide),
    C5_crystal_calibration.2 hwExample exStat 7 powerOn _ rfl
      (Init_success hwExample exStat exImage 0 powerOn (by decide) (by decide) (by decide)) rfl⟩

/-- Counterexample to C5 as stated.  With the image `E1 C2 B5 DD E2 9B`
(`hsdiv = 11`, `n1 = 8`, `rfreq = 43 + 98427547 / 2^28`) and `F = 56.32` the
quotient is about 114.285, inside the 8.24 layout, yet the stored word is
`0x80F54872` with a 32-bit `double` and `0x81F54872` with a 64-bit one, not the
word `0xBCF54872` of the exact quotient, and its numeric value is not within
`2^-24` of the quotient.  With the image `hsdiv = 11`, `n1 = 128`, `rfreq = 1`
the quotient is 79298.56, which no 32-bit word of the 8.24 layout
represents. -/
theorem C5_counterexample :
    (Si570_Init hwExample exStat exImageFrac 7 powerOn).map (fun r => (r.1, r.2.Si570_Xtal)) =
      some (0, 0x80F54872) ∧
    (Si570_Init hwHost exStat exImageFrac 7 powerOn).map (fun r => (r.1, r.2.Si570_Xtal)) =
      some (0, 0x81F54872) ∧
    powerOn.Si570_Xtal = 0 ∧ OLD_decode exImageFrac = (11, 8, 43, 98427547) ∧
    0 < rfreqOf 43 98427547 ∧
    hwExample.SI570_STARTUP_FREQ * 11 * 8 / rfreqOf 43 98427547 < 256 ∧
    swap32 ⌊hwExample.SI570_STARTUP_FREQ * 11 * 8 / rfreqOf 43 98427547 * 2 ^ 24⌋₊ =
      0xBCF54872 ∧
    ¬ |(swap32 0x80F54872 : ℚ) / 2 ^ 24 -
        hwExample.SI570_STARTUP_FREQ * 11 * 8 / rfreqOf 43 98427547| ≤ 1 / 2 ^ 24 ∧
    ¬ |(swap32 0x81F54872 : ℚ) / 2 ^ 24 -
        hwExample.SI570_STARTUP_FREQ * 11 * 8 / rfreqOf 43 98427547| ≤ 1 / 2 ^ 24 ∧
    OLD_decode exImageLow = (11, 128, 1, 0) ∧ 0 < rfreqOf 1 0 ∧
    (∀ X : ℕ, ¬ |(swap32 X : ℚ) / 2 ^ 24 -
        hwExample.SI570_STARTUP_FREQ * 11 * 128 / rfreqOf 1 0| ≤ 1 / 2 ^ 24) := by
  refine ⟨by decide!, by decide!, rfl, exImageFrac_decode, by decide!, by decide!, by decide!,
    by decide!, by decide!, exImageLow_decode, by decide!, ?_⟩
  intro X h
  have hlt : (swap32 X : ℚ) < 4294967296 := by exact_mod_cast swap32_lt X
  rw [abs_le] at h
  obtain ⟨h1, _⟩ := h
  norm_num [rfreqOf, hwExample] at h1
  linarith

/-! ## Idle state: legacy request, change detection, clamp -/

theorem Main_state0 (hw : Hw) (st : ℕ) (w : World) (hs : w.state = 0) :
    Si570_Main hw st w =
      if (afterLegacy hw w).Current_Si570_Xtal ≠ (afterLegacy hw w).Si570_Xtal ∨
          (afterLegacy hw w).Current_LO ≠ (afterLegacy hw w).Si570_LO then
        { afterLegacy hw w with
          Current_LO := (afterLegacy hw w).Si570_LO,
          Current_Si570_Xtal := (afterLegacy hw w).Si570_Xtal,
          fout := min (max (f32 (f32 (swap32 (afterLegacy hw w).Si570_LO : ℚ) / 2 ^ 21)) 4) 160,
          state := 1 }
      else afterLegacy hw w := by
  have hclamp : ∀ x : ℚ, (if (if x < MIN_LO then MIN_LO else x) > MAX_LO then MAX_LO
      else (if x < MIN_LO then MIN_LO else x)) = min (max x 4) 160 := by
    intro x
    unfold MIN_LO MAX_LO
    by_cases h1 : x < 4
    · rw [if_pos h1, max_eq_right (le_of_lt h1)]
      norm_num
    · rw [if_neg h1, max_eq_left (not_lt.mp h1)]
      by_cases h2 : x > 160
      · rw [if_pos h2, min_eq_right (le_of_lt h2)]
      · rw [if_neg h2, min_eq_left (not_lt.mp h2)]
  unfold Si570_Main
  simp only [hs, if_true]
  have e : (2 : ℚ) ^ 21 = 0x200000 := by norm_num
  rw [e]
  simp only [← hclamp]
  rfl

theorem afterLegacy_none (hw : Hw) (w : World) (h : w.Si570_OLD.r0 = 0) :
    afterLegacy hw w = w := by
  unfold afterLegacy
  rw [if_neg (not_not.mpr h)]

theorem afterLegacy_some (hw : Hw) (w : World) (h : w.Si570_OLD.r0 ≠ 0) :
    afterLegacy hw w =
      { w with Si570_OLD := { w.Si570_OLD with r0 := 0 },
               Si570_LO := swap32 (toUInt 32 (legacyValue hw w.Si570_OLD)) } := by
  unfold afterLegacy
  rw [if_pos h]
  rfl

/-- C6 (amended): when an idle tick detects a change, the working target
becomes `fout = min (max v 4.0) 160.0` and the machine goes to state 1, where
`v` is byte-reverse(`Si570_LO`) converted to `float`, that is rounded to 24
significant bits, and divided by `2^21` (an exact division), for the
`Si570_LO` word the tick sampled (the word in `Si570_LO` unless a legacy request
is pending).  `v` equals byte-reverse(`Si570_LO`) `/ 2^21` for words below
`2^24` and is within `2^-24` of it, relatively, in general; a request for
200 MHz gives `fout = 160` and a request for 1 MHz gives `fout = 4`. -/
theorem C6_request_clamped (hw : Hw) (st : ℕ) (w : World) (hs : w.state = 0)
    (hchg : (afterLegacy hw w).Current_Si570_Xtal ≠ (afterLegacy hw w).Si570_Xtal ∨
      (afterLegacy hw w).Current_LO ≠ (afterLegacy hw w).Si570_LO) :
    (Si570_Main hw st w).state = 1 ∧
    (Si570_Main hw st w).fout =
      min (max (f32 (f32 (swap32 (Si570_Main hw st w).Si570_LO : ℚ) / 2 ^ 21)) 4) 160 ∧
    f32 (f32 (swap32 (Si570_Main hw st w).Si570_LO : ℚ) / 2 ^ 21) =
      f32 (swap32 (Si570_Main hw st w).Si570_LO : ℚ) / 2 ^ 21 ∧
    |f32 (swap32 (Si570_Main hw st w).Si570_LO : ℚ) / 2 ^ 21 -
        (swap32 (Si570_Main hw st w).Si570_LO : ℚ) / 2 ^ 21| ≤
      (swap32 (Si570_Main hw st w).Si570_LO : ℚ) / 2 ^ 21 / 2 ^ 24 ∧
    (swap32 (Si570_Main hw st w).Si570_LO < 2 ^ 24 →
      (Si570_Main hw st w).fout =
        min (max ((swap32 (Si570_Main hw st w).Si570_LO : ℚ) / 2 ^ 21) 4) 160) ∧
    (Si570_Main hw st w).Current_LO = (Si570_Main hw st w).Si570_LO ∧
    (w.Si570_OLD.r0 = 0 → (Si570_Main hw st w).Si570_LO = w.Si570_LO) ∧
    (w.Si570_OLD.r0 = 0 → w.Si570_LO = swap32 (200 * 2 ^ 21) →
      (Si570_Main hw st w).fout = 160) ∧
    (w.Si570_OLD.r0 = 0 → w.Si570_LO = swap32 (1 * 2 ^ 21) →
      (Si570_Main hw st w).fout = 4) := by
  have hm := Main_state0 hw st w hs
  rw [if_pos hchg] at hm
  rw [hm]
  have hX : (0 : ℚ) ≤ (swap32 (afterLegacy hw w).Si570_LO : ℚ) := Nat.cast_nonneg _
  have hdiv := f32_div_pow hX 21
  refine ⟨rfl, rfl, hdiv, ?_, ?_, rfl, ?_, ?_, ?_⟩
  · have h := rnd_err 24 (swap32 (afterLegacy hw w).Si570_LO : ℚ)
    rw [abs_of_nonneg hX] at h
    show |f32 (swap32 (afterLegacy hw w).Si570_LO : ℚ) / 2 ^ 21 -
        (swap32 (afterLegacy hw w).Si570_LO : ℚ) / 2 ^ 21| ≤
      (swap32 (afterLegacy hw w).Si570_LO : ℚ) / 2 ^ 21 / 2 ^ 24
    rw [← sub_div, abs_div, abs_of_pos (by norm_num : (0 : ℚ) < 2 ^ 21), div_div,
      div_le_div_iff₀ (by norm_num) (by norm_num)]
    have h3 : |f32 (swap32 (afterLegacy hw w).Si570_LO : ℚ) -
        (swap32 (afterLegacy hw w).Si570_LO : ℚ)| * 2 ^ 24 ≤
        (swap32 (afterLegacy hw w).Si570_LO : ℚ) := by
      have := (le_div_iff₀ (by norm_num : (0 : ℚ) < 2 ^ 24)).mp h
      exact this
    calc |f32 (swap32 (afterLegacy hw w).Si570_LO : ℚ) -
          (swap32 (afterLegacy hw w).Si570_LO : ℚ)| * (2 ^ 21 * 2 ^ 24)
        = |f32 (swap32 (afterLegacy hw w).Si570_LO : ℚ) -
          (swap32 (afterLegacy hw w).Si570_LO : ℚ)| * 2 ^ 24 * 2 ^ 21 := by ring
      _ ≤ (swap32 (afterLegacy hw w).Si570_LO : ℚ) * 2 ^ 21 :=
          mul_le_mul_of_nonneg_right h3 (by norm_num)
  · intro hlt
    show min (max (f32 (f32 (swap32 (afterLegacy hw w).Si570_LO : ℚ) / 2 ^ 21)) 4) 160 =
      min (max ((swap32 (afterLegacy hw w).Si570_LO : ℚ) / 2 ^ 21) 4) 160
    rw [hdiv, f32_natCast _ hlt]
  · intro h0
    show (afterLegacy hw w).Si570_LO = w.Si570_LO
    rw [afterLegacy_none hw w h0]
  · intro h0 hlo
    show min (max (f32 (f32 (swap32 (afterLegacy hw w).Si570_LO : ℚ) / 2 ^ 21)) 4) 160 = 160
    rw [afterLegacy_none hw w h0, hlo]
    decide!
  · intro h0 hlo
    show min (max (f32 (f32 (swap32 (afterLegacy hw w).Si570_LO : ℚ) / 2 ^ 21)) 4) 160 = 4
    rw [afterLegacy_none hw w h0, hlo]
    decide!

/-- Witness for C6: a 200 MHz request at power-on. -/
theorem C6_request_clamped_witness :
    (Si570_Main hwExample 0 { powerOn with Si570_LO := 0x19 }).state = 1 ∧
    (Si570_Main hwExample 0 { powerOn with Si570_LO := 0x19 }).fout = 160 :=
  ⟨(C6_request_clamped hwExample 0 { powerOn with Si570_LO := 0x19 } rfl
      (Or.inr (by decide))).1,
    (C6_request_clamped hwExample 0 { powerOn with Si570_LO := 0x19 } rfl
      (Or.inr (by decide))).2.2.2.2.2.2.2.1 rfl (by decide)⟩

/-- Counterexample to C6 as stated: when a calibration word arrives while
`Si570_LO` holds the startup word `0x713D0A07`, the idle tick detects a change
and sets `fout = 7381975 / 131072`; byte-reverse(`Si570_LO`) `/ 2^21` is
`118111601 / 2097152`, whose numerator has 27 significant bits. -/
theorem C6_counterexample :
    exCalibrated.state = 0 ∧
    (exCalibrated.Current_Si570_Xtal ≠ exCalibrated.Si570_Xtal ∨
      exCalibrated.Current_LO ≠ exCalibrated.Si570_LO) ∧
    (Si570_Main hwExample 0 exCalibrated).state = 1 ∧
    (Si570_Main hwExample 0 exCalibrated).Si570_LO = 0x713D0A07 ∧
    (Si570_Main hwExample 0 exCalibrated).fout = 7381975 / 131072 ∧
    min (max ((swap32 (Si570_Main hwExample 0 exCalibrated).Si570_LO : ℚ) / 2 ^ 21) 4) 160 =
      118111601 / 2097152 ∧
    (Si570_Main hwExample 0 exCalibrated).fout ≠
      min (max ((swap32 (Si570_Main hwExample 0 exCalibrated).Si570_LO : ℚ) / 2 ^ 21) 4) 160 := by
  decide!

theorem Main_state0_fields (hw : Hw) (st : ℕ) (w : World) (hs : w.state = 0) :
    (Si570_Main hw st w).Si570_LO = (afterLegacy hw w).Si570_LO ∧
    (Si570_Main hw st w).Si570_OLD = (afterLegacy hw w).Si570_OLD := by
  rw [Main_state0 hw st w hs]
  split_ifs <;> exact ⟨rfl, rfl⟩

/-- The value line 110 computes encloses the exact one within `1 ± 2^-20`. -/
theorem legacyValue_within (hw : Hw) (o : Reg6) :
    within (1 - 1 / 2 ^ 20) (1 + 1 / 2 ^ 20) (legacyValue hw o) (legacyExact o) := by
  have hc : (0 : ℚ) ≤ 22857 / 200 := by norm_num
  have hr := rfreqOf_nonneg (OLD_decode o).2.2.1 (OLD_decode o).2.2.2
  have hd : (0 : ℚ) ≤ (((OLD_decode o).1 * (OLD_decode o).2.1 : ℕ) : ℚ) := Nat.cast_nonneg _
  have a1 := within_dbl hw hc (by norm_num) (within_refl ((22857 : ℚ) / 200))
  have r := rfreqDec_within (OLD_decode o).2.2.1 (OLD_decode o).2.2.2
  -- product of two enclosed quantities
  have a2 : within ((1 * (1 - 1 / 2 ^ 24)) *
        ((1 - 1 / 2 ^ 24) * (1 - 1 / 2 ^ 24) * (1 - 1 / 2 ^ 24)))
      ((1 * (1 + 1 / 2 ^ 24)) * ((1 + 1 / 2 ^ 24) * (1 + 1 / 2 ^ 24) * (1 + 1 / 2 ^ 24)))
      (dbl hw ((22857 : ℚ) / 200) * rfreqDec (OLD_decode o).2.2.1 (OLD_decode o).2.2.2)
      ((22857 : ℚ) / 200 * rfreqOf (OLD_decode o).2.2.1 (OLD_decode o).2.2.2) := by
    have hR0 := rfreqDec_nonneg (OLD_decode o).2.2.1 (OLD_decode o).2.2.2
    have hC0 : 0 ≤ dbl hw ((22857 : ℚ) / 200) := dbl_nonneg hw hc
    constructor
    · calc (22857 : ℚ) / 200 * rfreqOf (OLD_decode o).2.2.1 (OLD_decode o).2.2.2 *
            ((1 * (1 - 1 / 2 ^ 24)) * ((1 - 1 / 2 ^ 24) * (1 - 1 / 2 ^ 24) * (1 - 1 / 2 ^ 24)))
          = ((22857 : ℚ) / 200 * (1 * (1 - 1 / 2 ^ 24))) *
            (rfreqOf (OLD_decode o).2.2.1 (OLD_decode o).2.2.2 *
              ((1 - 1 / 2 ^ 24) * (1 - 1 / 2 ^ 24) * (1 - 1 / 2 ^ 24))) := by ring
        _ ≤ dbl hw ((22857 : ℚ) / 200) * rfreqDec (OLD_decode o).2.2.1 (OLD_decode o).2.2.2 :=
          mul_le_mul a1.1 r.1 (mul_nonneg hr (by norm_num)) hC0
    · calc dbl hw ((22857 : ℚ) / 200) * rfreqDec (OLD_decode o).2.2.1 (OLD_decode o).2.2.2
          ≤ ((22857 : ℚ) / 200 * (1 * (1 + 1 / 2 ^ 24))) *
            (rfreqOf (OLD_decode o).2.2.1 (OLD_decode o).2.2.2 *
              ((1 + 1 / 2 ^ 24) * (1 + 1 / 2 ^ 24) * (1 + 1 / 2 ^ 24))) :=
          mul_le_mul a1.2 r.2 hR0 (by norm_num)
        _ = (22857 : ℚ) / 200 * rfreqOf (OLD_decode o).2.2.1 (OLD_decode o).2.2.2 *
            ((1 * (1 + 1 / 2 ^ 24)) * ((1 + 1 / 2 ^ 24) * (1 + 1 / 2 ^ 24) * (1 + 1 / 2 ^ 24))) := by
          ring
  have hP : (0 : ℚ) ≤ 22857 / 200 * rfreqOf (OLD_decode o).2.2.1 (OLD_decode o).2.2.2 :=
    mul_nonneg hc hr
  have a3 := within_dbl hw hP (by norm_num) a2
  have a4 := within_div_const (((OLD_decode o).1 * (OLD_decode o).2.1 : ℕ) : ℚ) hd a3
  have hQ : (0 : ℚ) ≤ 22857 / 200 * rfreqOf (OLD_decode o).2.2.1 (OLD_decode o).2.2.2 /
      (((OLD_decode o).1 * (OLD_decode o).2.1 : ℕ) : ℚ) := div_nonneg hP hd
  have a5 := within_dbl hw hQ (by norm_num) a4
  have a6 := within_mul_const (0x200000 : ℚ) (by norm_num) a5
  have a7 := within_dbl hw (mul_nonneg hQ (by norm_num)) (by norm_num) a6
  have e : legacyExact o = 22857 / 200 * rfreqOf (OLD_decode o).2.2.1 (OLD_decode o).2.2.2 /
      (((OLD_decode o).1 * (OLD_decode o).2.1 : ℕ) : ℚ) * 0x200000 := by
    unfold legacyExact; norm_num
  rw [e]
  exact within_weaken (mul_nonneg hQ (by norm_num)) a7 (by norm_num) (by norm_num)

theorem legacyExact_nonneg (o : Reg6) : 0 ≤ legacyExact o := by
  unfold legacyExact rfreqOf
  positivity

theorem legacyValue_nonneg (hw : Hw) (o : Reg6) : 0 ≤ legacyValue hw o :=
  within_nonneg (legacyExact_nonneg o) (by norm_num) (legacyValue_within hw o)

/-- C7 (amended): for every 6-byte `Si570_OLD` image with byte 0 non-zero,
decoding to `(hsdiv, n1, rfreq)`, one idle tick of `Si570_Main` sets `Si570_LO`
to the byte-reversed low 32 bits of `floor v`, where `v` is
`114.285 * rfreq / (hsdiv * n1) * 2^21` as line 110 computes it in floating
point (`rfreq` held in single precision, the constant and the three
operations rounded to the format of `double`; `hsdiv * n1 > 0`): `v` is within
`2^-20` of the exact value, relatively, and in general the word is not the
floor of the exact value.  The tick leaves `Si570_OLD[0] = 0`; an idle tick that
finds `Si570_OLD` as this one left it changes neither `Si570_LO` nor
`Si570_OLD`. -/
theorem C7_legacy_request (hw : Hw) (st : ℕ) (w : World) (hs : w.state = 0)
    (hb : w.Si570_OLD.IsBytes) (h0 : w.Si570_OLD.r0 ≠ 0) :
    0 < (OLD_decode w.Si570_OLD).1 * (OLD_decode w.Si570_OLD).2.1 ∧
    (Si570_Main hw st w).Si570_LO = swap32 (⌊legacyValue hw w.Si570_OLD⌋₊ % 2 ^ 32) ∧
    legacyValue hw w.Si570_OLD =
      dbl hw (dbl hw (dbl hw (dbl hw ((22857 : ℚ) / 200) *
        f32 (((OLD_decode w.Si570_OLD).2.2.1 : ℚ) +
          f32 (f32 ((OLD_decode w.Si570_OLD).2.2.2 : ℚ) / 0x10000000))) /
        (((OLD_decode w.Si570_OLD).1 * (OLD_decode w.Si570_OLD).2.1 : ℕ) : ℚ)) * 0x200000) ∧
    |legacyValue hw w.Si570_OLD -
        (22857 : ℚ) / 200 *
          rfreqOf (OLD_decode w.Si570_OLD).2.2.1 (OLD_decode w.Si570_OLD).2.2.2 /
          (((OLD_decode w.Si570_OLD).1 * (OLD_decode w.Si570_OLD).2.1 : ℕ) : ℚ) * 2 ^ 21| ≤
      (22857 : ℚ) / 200 *
          rfreqOf (OLD_decode w.Si570_OLD).2.2.1 (OLD_decode w.Si570_OLD).2.2.2 /
          (((OLD_decode w.Si570_OLD).1 * (OLD_decode w.Si570_OLD).2.1 : ℕ) : ℚ) * 2 ^ 21 /
        2 ^ 20 ∧
    (⌊legacyValue hw w.Si570_OLD⌋₊ < 2 ^ 32 →
      swap32 (Si570_Main hw st w).Si570_LO = ⌊legacyValue hw w.Si570_OLD⌋₊) ∧
    (Si570_Main hw st w).Si570_OLD.r0 = 0 ∧
    (∀ (st2 : ℕ) (w2 : World), w2.state = 0 →
      w2.Si570_OLD = (Si570_Main hw st w).Si570_OLD →
      afterLegacy hw w2 = w2 ∧ (Si570_Main hw st2 w2).Si570_LO = w2.Si570_LO ∧
        (Si570_Main hw st2 w2).Si570_OLD = w2.Si570_OLD) := by
  obtain ⟨hlo, hold⟩ := Main_state0_fields hw st w hs
  have hal := afterLegacy_some hw w h0
  have hv : toUInt 32 (legacyValue hw w.Si570_OLD) = ⌊legacyValue hw w.Si570_OLD⌋₊ % 2 ^ 32 :=
    toUInt_nonneg (legacyValue_nonneg hw _)
  have hLO : (Si570_Main hw st w).Si570_LO =
      swap32 (⌊legacyValue hw w.Si570_OLD⌋₊ % 2 ^ 32) := by
    rw [hlo, hal, ← hv]
  have hr0 : (Si570_Main hw st w).Si570_OLD.r0 = 0 := by
    rw [hold, hal]
  have hpos : 0 < (OLD_decode w.Si570_OLD).1 * (OLD_decode w.Si570_OLD).2.1 := by
    rw [OLD_decode_arith _ hb]
    simp only
    apply Nat.mul_pos <;> omega
  refine ⟨hpos, hLO, rfl, ?_, ?_, hr0, ?_⟩
  · have h := within_abs (legacyValue_within hw w.Si570_OLD)
    unfold legacyExact at h
    have e : ∀ x : ℚ, x / 2 ^ 20 = x * (1 / 2 ^ 20) := fun x => by ring
    rw [e]
    exact h
  · intro hfit
    rw [hLO]
    rw [Nat.mod_eq_of_lt hfit, swap32_swap32 _ (by norm_num at hfit; exact hfit)]
  · intro st2 w2 hs2 hold2
    have h20 : w2.Si570_OLD.r0 = 0 := by rw [hold2, hr0]
    obtain ⟨hlo2, hold3⟩ := Main_state0_fields hw st2 w2 hs2
    have hn := afterLegacy_none hw w2 h20
    rw [hn] at hlo2 hold3
    exact ⟨hn, hlo2, hold3⟩

/-! ## Factory snapshot and calibration word: what `Si570_Main` never writes -/

theorem afterLegacy_frame (hw : Hw) (w : World) :
    (afterLegacy hw w).Si570_Factory = w.Si570_Factory ∧ (afterLegacy hw w).Si570_Xtal = w.Si570_Xtal ∧
    (afterLegacy hw w).bus = w.bus ∧ (afterLegacy hw w).Si570_Buf = w.Si570_Buf ∧
    (afterLegacy hw w).state = w.state ∧ (afterLegacy hw w).Current_LO = w.Current_LO ∧
    (afterLegacy hw w).Current_Si570_Xtal = w.Current_Si570_Xtal := by
  unfold afterLegacy
  split_ifs <;> exact ⟨rfl, rfl, rfl, rfl, rfl, rfl, rfl⟩

/-- No call of `Si570_Main` writes `Si570_Factory` or `Si570_Xtal`. -/
theorem Main_frame (hw : Hw) (st : ℕ) (w : World) :
    (Si570_Main hw st w).Si570_Factory = w.Si570_Factory ∧
    (Si570_Main hw st w).Si570_Xtal = w.Si570_Xtal := by
  by_cases h0 : w.state = 0
  · rw [Main_state0 hw st w h0]
    obtain ⟨f1, f2, _⟩ := afterLegacy_frame hw w
    split_ifs <;> exact ⟨f1, f2⟩
  by_cases h1 : w.state = 1
  · rw [Main_state1 hw st w h1]
    split_ifs <;> exact ⟨rfl, rfl⟩
  by_cases h12 : w.state = 12
  · rw [Main_state12 hw st w h12]; exact ⟨rfl, rfl⟩
  by_cases h14 : w.state = 14
  · rw [Main_state14 hw st w h14]; exact ⟨rfl, rfl⟩
  by_cases h16 : w.state = 16
  · rw [Main_state16 hw st w h16]; exact ⟨rfl, rfl⟩
  by_cases ha : w.state = 13 ∨ w.state = 15 ∨ w.state = 17
  · rw [Main_await hw st w ha]
    split_ifs <;> exact ⟨rfl, rfl⟩
  by_cases h18 : w.state = 18
  · rw [Main_state18 hw st w h18]; exact ⟨rfl, rfl⟩
  have hd : Si570_Main hw st w =
      if w.state = 8 ∨ w.state = 10 then searchStep hw (w.state + 1) w
      else searchStep hw w.state w := by
    unfold Si570_Main
    simp only [h0, h1, h12, h14, h16, ha, h18, if_false]
  rw [hd]
  split_ifs
  · obtain ⟨_, x, _, _, _, f, _⟩ := searchStep_frame hw (w.state + 1) w
    exact ⟨f, x⟩
  · obtain ⟨_, x, _, _, _, f, _⟩ := searchStep_frame hw w.state w
    exact ⟨f, x⟩

/-- C8: after `Si570_Init` returns 0, `Si570_Factory` holds exactly the six
bytes read back; no call of `Si570_Main` changes `Si570_Factory`; and
`Si570_Fake_Reset` sets `Si570_Buf[2..7]` to `Si570_Factory[0..5]`, makes no
bus call and leaves `Si570_Buf[0..1]`, `Si570_Factory` and every other variable
unchanged. -/
theorem C8_factory_snapshot :
    (∀ (hw : Hw) (stat : ℕ → ℕ) (img : Reg6) (fuel : ℕ) (w w1 : World),
      Si570_Init hw stat img fuel w = some (0, w1) → w1.Si570_Factory = img) ∧
    (∀ (hw : Hw) (st : ℕ) (w : World), (Si570_Main hw st w).Si570_Factory = w.Si570_Factory) ∧
    (∀ w : World,
      regsOf (Si570_Fake_Reset w).Si570_Buf = w.Si570_Factory ∧
      (Si570_Fake_Reset w).Si570_Buf.b0 = w.Si570_Buf.b0 ∧
      (Si570_Fake_Reset w).Si570_Buf.b1 = w.Si570_Buf.b1 ∧
      (Si570_Fake_Reset w).bus = w.bus ∧
      (Si570_Fake_Reset w).Si570_Factory = w.Si570_Factory ∧
      { Si570_Fake_Reset w with Si570_Buf := w.Si570_Buf } = w) := by
  refine ⟨?_, fun hw st w => (Main_frame hw st w).1, fun w => ⟨rfl, rfl, rfl, rfl, rfl, rfl⟩⟩
  intro hw stat img fuel w w1 hret
  rcases Init_result hw stat img fuel w 0 w1 hret with ⟨h10, _⟩ | ⟨_, w2, _, himg, hfin⟩
  · exact absurd h10 (by decide)
  · rw [hfin, Init_finish_factory, himg]

/-- Witness for C8: the power-on run of `Si570_Init` on a bus that reports
every transfer finished. -/
theorem C8_factory_snapshot_witness :
    ∃ w1 : World, Si570_Init hwExample exStat exImage 7 powerOn = some (0, w1) ∧
      w1.Si570_Factory = exImage :=
  ⟨_, Init_success hwExample exStat exImage 0 powerOn (by decide) (by decide) (by decide),
    C8_factory_snapshot.1 hwExample exStat exImage 7 powerOn _
      (Init_success hwExample exStat exImage 0 powerOn (by decide) (by decide) (by decide))⟩

/-- Witness for C7: the legacy image `hsdiv = 7`, `n1 = 4`, `rfreq = 120.5`
is consumed by one idle tick. -/
theorem C7_legacy_request_witness :
    (Si570_Main hwExample 0 { powerOn with Si570_OLD := exImage }).Si570_OLD.r0 = 0 ∧
    0 < (OLD_decode exImage).1 * (OLD_decode exImage).2.1 :=
  ⟨(C7_legacy_request hwExample 0 { powerOn with Si570_OLD := exImage } rfl (by decide)
      (by decide)).2.2.2.2.2.1,
    (C7_legacy_request hwExample 0 { powerOn with Si570_OLD := exImage } rfl (by decide)
      (by decide)).1⟩

/-- Counterexample to C7 as stated: for the legacy image `E1 C2 B5 DD E2 9B`
(`hsdiv = 11`, `n1 = 8`, `rfreq = 43 + 98427547 / 2^28`) the idle tick stores
`0x783D0A07` with a 32-bit `double` and `0x743D0A07` with a 64-bit one; the
byte-reversed floor of the exact `114.285 * rfreq / (hsdiv * n1) * 2^21` is
`0x713D0A07`. -/
theorem C7_counterexample :
    ({ powerOn with Si570_OLD := exImageFrac } : World).state = 0 ∧
    exImageFrac.IsBytes ∧ exImageFrac.r0 ≠ 0 ∧
    OLD_decode exImageFrac = (11, 8, 43, 98427547) ∧
    (Si570_Main hwExample 0 { powerOn with Si570_OLD := exImageFrac }).Si570_LO = 0x783D0A07 ∧
    (Si570_Main hwHost 0 { powerOn with Si570_OLD := exImageFrac }).Si570_LO = 0x743D0A07 ∧
    swap32 (⌊(22857 : ℚ) / 200 * rfreqOf 43 98427547 / ((11 * 8 : ℕ) : ℚ) * 2 ^ 21⌋₊ % 2 ^ 32) =
      0x713D0A07 := by
  decide!

/-! ## Fractional field and decode layout -/

theorem pack_fraction (hsdiv n1 rfreqint v : ℕ) (b : Buf8) :
    load32 (packRegs hsdiv n1 rfreqint v b).b4 (packRegs hsdiv n1 rfreqint v b).b5
        (packRegs hsdiv n1 rfreqint v b).b6 (packRegs hsdiv n1 rfreqint v b).b7 % 2 ^ 28 =
      min v (2 ^ 28 - 1) ∧
    (Init_decode (packRegs hsdiv n1 rfreqint v b)).2.2.2 = min v (2 ^ 28 - 1) ∧
    (packRegs hsdiv n1 rfreqint v b).b4 >>> 4 = rfreqint % 16 ∧
    (packRegs hsdiv n1 rfreqint v b).b4 < 256 := by
  obtain ⟨e4, e5, e6, e7⟩ := pack_low_bytes hsdiv n1 rfreqint v b
  have hm : min v 0x0FFFFFFF ≤ 0x0FFFFFFF := Nat.min_le_right _ _
  have hmin : min v (2 ^ 28 - 1) = min v 0x0FFFFFFF := by norm_num
  have hl : load32 (packRegs hsdiv n1 rfreqint v b).b4 (packRegs hsdiv n1 rfreqint v b).b5
        (packRegs hsdiv n1 rfreqint v b).b6 (packRegs hsdiv n1 rfreqint v b).b7 % 268435456 =
      min v 0x0FFFFFFF := by
    rw [e4, e5, e6, e7]
    unfold load32
    generalize min v 0x0FFFFFFF = m at hm
    omega
  have h28 : (2 : ℕ) ^ 28 = 268435456 := by norm_num
  refine ⟨?_, ?_, ?_, ?_⟩
  · rw [hmin, h28, hl]
  · rw [hmin, ← hl]
    unfold Init_decode
    simp only [and_28bits]
  · rw [e4]
    generalize min v 0x0FFFFFFF = m at hm
    omega
  · rw [e4]
    generalize min v 0x0FFFFFFF = m at hm
    omega

/-- C9: whatever 32-bit value `v` the fractional product of state 14 is,
`v ≥ 2^28` included, the 28-bit fractional field packed into register bytes
2..5 is `min v (2^28 - 1)`, and the upper four bits of register byte 2 are the
low four bits of `rfreqint`. -/
theorem C9_fraction_clamped (hw : Hw) (st : ℕ) (w : World) (hs : w.state = 14) :
    load32 (Si570_Main hw st w).Si570_Buf.b4 (Si570_Main hw st w).Si570_Buf.b5
        (Si570_Main hw st w).Si570_Buf.b6 (Si570_Main hw st w).Si570_Buf.b7 % 2 ^ 28 =
      min (rfreqSplit (rfreqCalc w.dco w.Current_Si570_Xtal)).2 (2 ^ 28 - 1) ∧
    (Si570_Main hw st w).Si570_Buf.b4 >>> 4 =
      (rfreqSplit (rfreqCalc w.dco w.Current_Si570_Xtal)).1 % 16 ∧
    (∀ (hsdiv n1 rfreqint v : ℕ) (b : Buf8),
      load32 (packRegs hsdiv n1 rfreqint v b).b4 (packRegs hsdiv n1 rfreqint v b).b5
          (packRegs hsdiv n1 rfreqint v b).b6 (packRegs hsdiv n1 rfreqint v b).b7 % 2 ^ 28 =
        min v (2 ^ 28 - 1) ∧
      (Init_decode (packRegs hsdiv n1 rfreqint v b)).2.2.2 = min v (2 ^ 28 - 1) ∧
      (packRegs hsdiv n1 rfreqint v b).b4 >>> 4 = rfreqint % 16) := by
  rw [Main_state14 hw st w hs]
  obtain ⟨p1, _, p3, _⟩ := pack_fraction w.hsdiv w.n1
    (rfreqSplit (rfreqCalc w.dco w.Current_Si570_Xtal)).1
    (rfreqSplit (rfreqCalc w.dco w.Current_Si570_Xtal)).2 w.Si570_Buf
  refine ⟨p1, p3, ?_⟩
  intro hsdiv n1 rfreqint v b
  obtain ⟨q1, q2, q3, _⟩ := pack_fraction hsdiv n1 rfreqint v b
  exact ⟨q1, q2, q3⟩

/-- Witness for C9: the register write for the 10 MHz setting. -/
theorem C9_fraction_clamped_witness :
    (Si570_Main hwExample 0 exWrite).Si570_Buf.b4 >>> 4 =
      (rfreqSplit (rfreqCalc exWrite.dco exWrite.Current_Si570_Xtal)).1 % 16 :=
  (C9_fraction_clamped hwExample 0 exWrite rfl).2.1

theorem rfreqDec_le (rfreqint rfreqfrac : ℕ) (hI : rfreqint < 1024) (hF : rfreqfrac < 2 ^ 28) :
    rfreqDec rfreqint rfreqfrac ≤ 1024 := by
  have hFq : (0 : ℚ) ≤ (rfreqfrac : ℚ) := Nat.cast_nonneg _
  have h1 : f32 (rfreqfrac : ℚ) ≤ 2 ^ 28 := by
    have hle : (rfreqfrac : ℚ) ≤ 2 ^ 28 := by exact_mod_cast hF.le
    have := f32_mono hFq hle
    have e : f32 ((2 : ℚ) ^ 28) = 2 ^ 28 := by decide!
    rwa [e] at this
  have h2 : f32 (f32 (rfreqfrac : ℚ) / 0x10000000) ≤ 1 := by
    have e0 : (0x10000000 : ℚ) = 2 ^ 28 := by norm_num
    rw [e0, f32_div_pow hFq 28, div_le_one (by norm_num)]
    exact h1
  have h3 : (rfreqint : ℚ) + f32 (f32 (rfreqfrac : ℚ) / 0x10000000) ≤ 1024 := by
    have : (rfreqint : ℚ) ≤ 1023 := by
      have : rfreqint ≤ 1023 := by omega
      exact_mod_cast this
    linarith
  have h4 : 0 ≤ (rfreqint : ℚ) + f32 (f32 (rfreqfrac : ℚ) / 0x10000000) :=
    add_nonneg (Nat.cast_nonneg _) (f32_nonneg (div_nonneg (f32_nonneg hFq) (by norm_num)))
  have := f32_mono h4 h3
  have e : f32 (1024 : ℚ) = 1024 := by decide!
  rw [e] at this
  exact this

/-- C10 (amended): for every 6-byte register image the decoder gives
`hsdiv = (b0 >> 5) + 4` in `[4, 11]`,
`n1 = (((b0 & 0x1F) << 2) | (b1 >> 6)) + 1` in `[1, 128]`, and integer and
fractional fields `I = ((b1 & 0x3F) << 4) | (b2 >> 4) < 1024` and `Fr`, the low
28 bits of the big-endian word `b2 b3 b4 b5`.  The value `rfreq` it computes
is `I + Fr / 2^28` in single precision: `Fr` rounded to 24 significant bits,
divided by `2^28`, added to `I`, and the sum rounded to 24 significant bits.
It is within `2^-22` of `I + Fr / 2^28`, relatively, and `0 ≤ rfreq ≤ 1024`,
the bound 1024 being reached.  The decoder of `Si570_Init` on `Si570_Buf[2..7]`
and that of `FreqFromOLD` on `Si570_OLD[0..5]` give the same values on the same
bytes. -/
theorem C10_decode_layout (o : Reg6) (ho : o.IsBytes) :
    OLD_decode o = ((o.r0 >>> 5) + 4, (((o.r0 &&& 0x1F) <<< 2) ||| (o.r1 >>> 6)) + 1,
      ((o.r1 &&& 0x3F) <<< 4) ||| (o.r2 >>> 4), load32 o.r2 o.r3 o.r4 o.r5 % 2 ^ 28) ∧
    (4 ≤ (OLD_decode o).1 ∧ (OLD_decode o).1 ≤ 11) ∧
    (1 ≤ (OLD_decode o).2.1 ∧ (OLD_decode o).2.1 ≤ 128 ∧ (OLD_decode o).2.1 < 2 ^ 8) ∧
    (OLD_decode o).2.2.1 < 1024 ∧ (OLD_decode o).2.2.2 < 2 ^ 28 ∧
    rfreqDec (OLD_decode o).2.2.1 (OLD_decode o).2.2.2 =
      f32 (((OLD_decode o).2.2.1 : ℚ) + f32 ((OLD_decode o).2.2.2 : ℚ) / 2 ^ 28) ∧
    |rfreqDec (OLD_decode o).2.2.1 (OLD_decode o).2.2.2 -
        (((OLD_decode o).2.2.1 : ℚ) + ((OLD_decode o).2.2.2 : ℚ) / 2 ^ 28)| ≤
      (((OLD_decode o).2.2.1 : ℚ) + ((OLD_decode o).2.2.2 : ℚ) / 2 ^ 28) / 2 ^ 22 ∧
    0 ≤ rfreqDec (OLD_decode o).2.2.1 (OLD_decode o).2.2.2 ∧
    rfreqDec (OLD_decode o).2.2.1 (OLD_decode o).2.2.2 ≤ 1024 ∧
    (∀ b : Buf8, regsOf b = o → Init_decode b = OLD_decode o ∧
      rfreqDec (Init_decode b).2.2.1 (Init_decode b).2.2.2 =
        rfreqDec (OLD_decode o).2.2.1 (OLD_decode o).2.2.2) := by
  have ha := OLD_decode_arith o ho
  obtain ⟨h0, h1, h2, h3, h4, h5⟩ := ho
  have e1 : ((o.r0 % 32) <<< 2) ||| (o.r1 >>> 6) = (o.r0 % 32) <<< 2 + o.r1 >>> 6 :=
    or_eq_add 2 (by omega) (by omega)
  have e2 : ((o.r1 % 64) <<< 4) ||| (o.r2 >>> 4) = (o.r1 % 64) <<< 4 + o.r2 >>> 4 :=
    or_eq_add 4 (by omega) (by omega)
  have hI : (OLD_decode o).2.2.1 < 1024 := by rw [ha]; simp only; omega
  have hF : (OLD_decode o).2.2.2 < 2 ^ 28 := by
    rw [ha]; simp only; exact Nat.mod_lt _ (by norm_num)
  refine ⟨?_, ?_, ?_, hI, hF, ?_, ?_, rfreqDec_nonneg _ _, rfreqDec_le _ _ hI hF, ?_⟩
  · rw [ha, and_31, and_63, e1, e2]
    refine Prod.ext ?_ (Prod.ext ?_ (Prod.ext ?_ ?_)) <;> simp only <;> omega
  · rw [ha]; simp only; omega
  · rw [ha]; simp only; omega
  · unfold rfreqDec
    have e0 : (0x10000000 : ℚ) = 2 ^ 28 := by norm_num
    rw [e0, f32_div_pow (Nat.cast_nonneg _) 28]
  · have hw := rfreqDec_within (OLD_decode o).2.2.1 (OLD_decode o).2.2.2
    have hx := rfreqOf_nonneg (OLD_decode o).2.2.1 (OLD_decode o).2.2.2
    have h := within_abs (within_weaken hx hw (show (1 : ℚ) - 1 / 2 ^ 22 ≤ _ by norm_num)
      (show _ ≤ (1 : ℚ) + 1 / 2 ^ 22 by norm_num))
    unfold rfreqOf at h
    have e0 : (0x10000000 : ℚ) = 2 ^ 28 := by norm_num
    rw [e0] at h
    have e : ∀ x : ℚ, x / 2 ^ 22 = x * (1 / 2 ^ 22) := fun x => by ring
    rw [e]
    exact h
  · intro b hb
    rw [Init_decode_eq_OLD, hb]
    exact ⟨rfl, rfl⟩

/-- Witness for C10: the image `hsdiv = 7`, `n1 = 4`, `rfreq = 120.5`. -/
theorem C10_decode_layout_witness :
    OLD_decode exImage = (7, 4, 120, 134217728) ∧
    rfreqDec (OLD_decode exImage).2.2.1 (OLD_decode exImage).2.2.2 ≤ 1024 :=
  ⟨(C10_decode_layout exImage (by decide)).1.trans (by decide),
    (C10_decode_layout exImage (by decide)).2.2.2.2.2.2.2.2.1⟩

/-- Counterexample to C10 as stated: for the image with every bit set the
fields are `I = 1023` and `Fr = 2^28 - 1` and the decoder's `rfreq` is exactly
1024, not below it; for the image `E1 C2 B5 DD E2 9B` the decoder's `rfreq` is
`11368313 / 262144`, not `43 + 98427547 / 2^28`. -/
theorem C10_counterexample :
    exImageMax.IsBytes ∧ OLD_decode exImageMax = (11, 128, 1023, 268435455) ∧
    rfreqDec (OLD_decode exImageMax).2.2.1 (OLD_decode exImageMax).2.2.2 = 1024 ∧
    ¬ rfreqDec (OLD_decode exImageMax).2.2.1 (OLD_decode exImageMax).2.2.2 < 1024 ∧
    exImageFrac.IsBytes ∧ OLD_decode exImageFrac = (11, 8, 43, 98427547) ∧
    rfreqDec (OLD_decode exImageFrac).2.2.1 (OLD_decode exImageFrac).2.2.2 =
      11368313 / 262144 ∧
    rfreqDec (OLD_decode exImageFrac).2.2.1 (OLD_decode exImageFrac).2.2.2 ≠
      (43 : ℚ) + 98427547 / 2 ^ 28 := by
  decide!

/-! ## Calibration word and bounded retry of `Si570_Init` -/

theorem Init_finish_xtal_keep (hw : Hw) (w : World) (h : w.Si570_Xtal ≠ 0) :
    (Init_finish hw w).Si570_Xtal = w.Si570_Xtal := by
  unfold Init_finish
  simp only [h, if_false]

/-- C11: for every status stream and every register image read back, if
`Si570_Xtal` is non-zero when `Si570_Init` is entered it has the same value
when `Si570_Init` returns (with 0 or with 1); and no call of `Si570_Main`
writes `Si570_Xtal`. -/
theorem C11_calibration_once :
    (∀ (hw : Hw) (stat : ℕ → ℕ) (img : Reg6) (fuel : ℕ) (w : World) (code : ℕ) (w1 : World),
      Si570_Init hw stat img fuel w = some (code, w1) → w.Si570_Xtal ≠ 0 →
      w1.Si570_Xtal = w.Si570_Xtal) ∧
    (∀ (hw : Hw) (st : ℕ) (w : World), (Si570_Main hw st w).Si570_Xtal = w.Si570_Xtal) := by
  refine ⟨?_, fun hw st w => (Main_frame hw st w).2⟩
  intro hw stat img fuel w code w1 hret hx
  rcases Init_result hw stat img fuel w code w1 hret with ⟨_, hfr⟩ | ⟨_, w2, hfr, _, hfin⟩
  · have := congrArg World.Si570_Xtal hfr
    exact this
  · have hx2 : w2.Si570_Xtal = w.Si570_Xtal := by
      have := congrArg World.Si570_Xtal hfr
      exact this
    rw [hfin, Init_finish_xtal_keep hw w2 (by rw [hx2]; exact hx), hx2]

/-- Witness for C11: a run of `Si570_Init` entered with a calibration word
already present. -/
theorem C11_calibration_once_witness :
    ∃ w1 : World, Si570_Init hwExample exStat exImage 7 { powerOn with Si570_Xtal := exXtal } =
        some (0, w1) ∧ w1.Si570_Xtal = exXtal :=
  ⟨_, Init_success hwExample exStat exImage 0 { powerOn with Si570_Xtal := exXtal }
      (by decide) (by decide) (by decide),
    C11_calibration_once.1 hwExample exStat exImage 7 { powerOn with Si570_Xtal := exXtal } 0 _
      (Init_success hwExample exStat exImage 0 { powerOn with Si570_Xtal := exXtal }
        (by decide) (by decide) (by decide)) (by decide)⟩

theorem decErr_zero_iff (e : ℕ) : decErr e = 0 ↔ errLeft e = 1 := by
  unfold decErr errLeft
  by_cases h : e = 0
  · simp [h]
  · simp only [h, if_false]
    omega

theorem errLeft_decErr (e : ℕ) (h : errLeft e ≠ 1) : errLeft (decErr e) = errLeft e - 1 := by
  unfold decErr errLeft at *
  by_cases h0 : e = 0
  · simp [h0]
  · simp only [h0, if_false] at h ⊢
    rw [if_neg (by omega)]

/-- When every poll reports a transfer error, `Si570_Init` alternates between
the write of state 0 and the poll of state 1 until the counter runs out. -/
theorem Init_loop_all_errors (hw : Hw) (stat : ℕ → ℕ) (img : Reg6)
    (herr : ∀ n, xferErr hw (stat n)) :
    ∀ (r : ℕ) (l : InitLoc) (w : World) (k : ℕ), l.state = 0 → errLeft l.err = r + 1 →
      ∃ l1 w1, Init_loop hw stat img (2 * (r + 1) + k) l w = some (1, l1, w1) ∧
        l1.polls = l.polls + (r + 1) := by
  intro r
  induction r with
  | zero =>
    intro l w k hs he
    have hd : decErr l.err = 0 := (decErr_zero_iff _).2 he
    have e1 : 2 * (0 + 1) + k = (k + 1) + 1 := by omega
    rw [e1]
    unfold Init_loop
    rw [if_pos (by omega), Init_iter_state0 hw stat img l w hs]
    simp only
    unfold Init_loop
    rw [if_pos (by simp), Init_iter_state13 hw stat img _ _ (Or.inl rfl)]
    simp only [hd, if_true]
    exact ⟨_, _, rfl, rfl⟩
  | succ r ih =>
    intro l w k hs he
    have hd : decErr l.err ≠ 0 := by
      rw [Ne, decErr_zero_iff]; omega
    have hl : errLeft (decErr l.err) = r + 1 := by
      rw [errLeft_decErr _ (by omega)]; omega
    have e1 : 2 * (r + 1 + 1) + k = (2 * (r + 1) + k + 1) + 1 := by omega
    rw [e1]
    unfold Init_loop
    rw [if_pos (by omega), Init_iter_state0 hw stat img l w hs]
    simp only
    unfold Init_loop
    rw [if_pos (by simp), Init_iter_state13 hw stat img _ _ (Or.inl rfl)]
    have hx := herr l.polls
    unfold xferErr at hx
    rw [if_neg hd, if_pos hx]
    simp only
    obtain ⟨l1, w1, h1, h2⟩ := ih
      { state := 1 - 1, err := decErr l.err, polls := l.polls + 1 }
      { w with Si570_Buf := { w.Si570_Buf with b0 := 135, b1 := 1 },
               bus := w.bus ++ [BusOp.write SI570_ADDR [135, 1] I2CMode.COMPLETE_XFER] }
      k rfl hl
    refine ⟨l1, w1, h1, ?_⟩
    rw [h2]
    simp only
    omega

/-- C12: if every status poll reports a transfer error, `Si570_Init` returns 1
(131072 loop iterations suffice, whatever fuel is left over), it has then
made exactly 65536 status polls, and `Si570_Xtal` and `Si570_Factory` are as
they were on entry. -/
theorem C12_bounded_retry (hw : Hw) (stat : ℕ → ℕ) (img : Reg6) (w : World) (k : ℕ)
    (herr : ∀ n, xferErr hw (stat n)) :
    (∃ l1 w1, Init_loop hw stat img (131072 + k) { state := 0, err := 0, polls := 0 } w =
        some (1, l1, w1) ∧ l1.polls = 65536) ∧
    (∃ w1, Si570_Init hw stat img (131072 + k) w = some (1, w1) ∧
      w1.Si570_Xtal = w.Si570_Xtal ∧ w1.Si570_Factory = w.Si570_Factory) := by
  obtain ⟨l1, w1, h1, h2⟩ := Init_loop_all_errors hw stat img herr 65535
    { state := 0, err := 0, polls := 0 } w k rfl rfl
  have e : 2 * (65535 + 1) + k = 131072 + k := by omega
  rw [e] at h1
  have hI : Si570_Init hw stat img (131072 + k) w = some (1, w1) := by
    unfold Si570_Init
    rw [h1]
    rfl
  refine ⟨⟨l1, w1, h1, by rw [h2]⟩, w1, hI, ?_, ?_⟩
  · rcases Init_result hw stat img _ w 1 w1 hI with ⟨_, hfr⟩ | ⟨h10, _⟩
    · have := congrArg World.Si570_Xtal hfr
      exact this
    · exact absurd h10 (by decide)
  · rcases Init_result hw stat img _ w 1 w1 hI with ⟨_, hfr⟩ | ⟨h10, _⟩
    · have := congrArg World.Si570_Factory hfr
      exact this
    · exact absurd h10 (by decide)

/-- Witness for C12: a bus on which every poll returns the error bit. -/
theorem C12_bounded_retry_witness :
    ∃ w1, Si570_Init hwExample exErrStat exImage (131072 + 0) powerOn = some (1, w1) ∧
      w1.Si570_Xtal = powerOn.Si570_Xtal ∧ w1.Si570_Factory = powerOn.Si570_Factory :=
  (C12_bounded_retry hwExample exErrStat exImage powerOn 0 (fun _ => show xferErr hwExample 0x80 by decide)).2

/-! ## Retry counter of `Si570_Init` -/

theorem errLeft_pos (e : ℕ) : 1 ≤ errLeft e := by
  unfold errLeft
  split_ifs <;> omega

/-- The only `return` inside the loop is the `return 1` of states 1 and 3,
taken when `--err` gives zero. -/
theorem Init_iter_ret (hw : Hw) (stat : ℕ → ℕ) (img : Reg6) (l : InitLoc) (w : World)
    (hlt : l.state < 6) (c : ℕ) (l1 : InitLoc) (w1 : World)
    (h : Init_iter hw stat img l w = InitIter.ret c l1 w1) :
    c = 1 ∧ (l.state = 1 ∨ l.state = 3) ∧ decErr l.err = 0 ∧ w1 = w := by
  have hcases : l.state = 0 ∨ l.state = 2 ∨ l.state = 4 ∨ (l.state = 1 ∨ l.state = 3) ∨
      l.state = 5 := by omega
  rcases hcases with h0 | h0 | h0 | h0 | h0
  · rw [Init_iter_state0 hw stat img l w h0] at h; cases h
  · rw [Init_iter_state2 hw stat img l w h0] at h; cases h
  · rw [Init_iter_state4 hw stat img l w h0] at h; cases h
  · rw [Init_iter_state13 hw stat img l w h0] at h
    by_cases he : decErr l.err = 0
    · rw [if_pos he] at h
      cases h
      exact ⟨rfl, h0, he, rfl⟩
    · rw [if_neg he] at h; cases h
  · rw [Init_iter_state5 hw stat img l w h0] at h
    split_ifs at h

/-- A continuing iteration leaves `err` alone outside states 1 and 3 and
decrements it, whatever the status, in states 1 and 3. -/
theorem Init_iter_cont (hw : Hw) (stat : ℕ → ℕ) (img : Reg6) (l : InitLoc) (w : World)
    (hlt : l.state < 6) (l1 : InitLoc) (w1 : World)
    (h : Init_iter hw stat img l w = InitIter.cont l1 w1) :
    ((l.state = 1 ∨ l.state = 3) → decErr l.err ≠ 0 ∧ l1.err = decErr l.err) ∧
    (¬ (l.state = 1 ∨ l.state = 3) → l1.err = l.err) := by
  have hcases : l.state = 0 ∨ l.state = 2 ∨ l.state = 4 ∨ (l.state = 1 ∨ l.state = 3) ∨
      l.state = 5 := by omega
  rcases hcases with h0 | h0 | h0 | h0 | h0
  · rw [Init_iter_state0 hw stat img l w h0] at h; cases h
    exact ⟨fun h13 => by omega, fun _ => rfl⟩
  · rw [Init_iter_state2 hw stat img l w h0] at h; cases h
    exact ⟨fun h13 => by omega, fun _ => rfl⟩
  · rw [Init_iter_state4 hw stat img l w h0] at h; cases h
    exact ⟨fun h13 => by omega, fun _ => rfl⟩
  · rw [Init_iter_state13 hw stat img l w h0] at h
    by_cases he : decErr l.err = 0
    · rw [if_pos he] at h; cases h
    · rw [if_neg he] at h
      cases h
      exact ⟨fun _ => ⟨he, rfl⟩, fun hn => absurd h0 hn⟩
  · rw [Init_iter_state5 hw stat img l w h0] at h
    split_ifs at h <;> cases h <;> exact ⟨fun h13 => by omega, fun _ => rfl⟩

/-- The counter invariant: the write-await polls made so far never exceed
what `err` allowed on entry, the loop returns 1 exactly when they reach it,
and a running loop has the rest still to go. -/
theorem Init_counter (hw : Hw) (stat : ℕ → ℕ) (img : Reg6) :
    ∀ (n : ℕ) (l : InitLoc) (w : World),
      match Init_run hw stat img n l w with
      | InitIter.ret code _ _ => code = 1 ∧ Init_wrPolls hw stat img n l w = errLeft l.err
      | InitIter.cont l1 _ => Init_wrPolls hw stat img n l w < errLeft l.err ∧
          errLeft l1.err = errLeft l.err - Init_wrPolls hw stat img n l w := by
  intro n
  induction n with
  | zero =>
    intro l w
    simp only [Init_run, Init_wrPolls]
    exact ⟨by have := errLeft_pos l.err; omega, by omega⟩
  | succ n ih =>
    intro l w
    by_cases hlt : l.state < 6
    · simp only [Init_run, Init_wrPolls, if_pos hlt]
      cases hit : Init_iter hw stat img l w with
      | ret c l1 w1 =>
        obtain ⟨hc, h13, hd, _⟩ := Init_iter_ret hw stat img l w hlt c l1 w1 hit
        simp only [if_pos h13]
        exact ⟨hc, by rw [(decErr_zero_iff _).1 hd]⟩
      | cont l1 w1 =>
        obtain ⟨ha, hb⟩ := Init_iter_cont hw stat img l w hlt l1 w1 hit
        have hih := ih l1 w1
        simp only
        by_cases h13 : l.state = 1 ∨ l.state = 3
        · obtain ⟨hd, he⟩ := ha h13
          have hl : errLeft l1.err = errLeft l.err - 1 := by
            rw [he]
            exact errLeft_decErr _ (fun h => hd ((decErr_zero_iff _).2 h))
          have hp := errLeft_pos l1.err
          rw [if_pos h13]
          cases hr : Init_run hw stat img n l1 w1 with
          | ret c2 l2 w2 =>
            rw [hr] at hih
            simp only at hih ⊢
            exact ⟨hih.1, by omega⟩
          | cont l2 w2 =>
            rw [hr] at hih
            simp only at hih ⊢
            exact ⟨by omega, by omega⟩
        · have he := hb h13
          rw [if_neg h13]
          cases hr : Init_run hw stat img n l1 w1 with
          | ret c2 l2 w2 =>
            rw [hr] at hih
            simp only at hih ⊢
            rw [he] at hih
            exact ⟨hih.1, by omega⟩
          | cont l2 w2 =>
            rw [hr] at hih
            simp only at hih ⊢
            rw [he] at hih
            exact ⟨by omega, by omega⟩
    · simp only [Init_run, Init_wrPolls, if_neg hlt]
      exact ⟨by have := errLeft_pos l.err; omega, by omega⟩

/-- `Init_run` and `Init_loop` agree on the `return 1`. -/
theorem Init_run_loop (hw : Hw) (stat : ℕ → ℕ) (img : Reg6) :
    ∀ (n : ℕ) (l : InitLoc) (w : World),
      match Init_run hw stat img n l w with
      | InitIter.ret _ l1 w1 => Init_loop hw stat img n l w = some (1, l1, w1)
      | InitIter.cont _ _ => ∀ l1 w1, Init_loop hw stat img n l w ≠ some (1, l1, w1) := by
  intro n
  induction n with
  | zero =>
    intro l w
    simp [Init_run, Init_loop]
  | succ n ih =>
    intro l w
    by_cases hlt : l.state < 6
    · simp only [Init_run, Init_loop, if_pos hlt]
      cases hit : Init_iter hw stat img l w with
      | ret c l1 w1 =>
        obtain ⟨hc, _⟩ := Init_iter_ret hw stat img l w hlt c l1 w1 hit
        simp only [hc]
      | cont l1 w1 =>
        simp only
        exact ih l1 w1
    · simp only [Init_run, Init_loop, if_neg hlt]
      intro l1 w1 h
      simp at h

/-- Once in the read-await state with a bus that reports neither an error nor
the end of the read, the loop never leaves it. -/
theorem Init_loop_stuck (hw : Hw) (stat : ℕ → ℕ) (img : Reg6)
    (hq : ∀ k, 2 ≤ k → ¬ xferErr hw (stat k) ∧ (stat k % 256) &&& hw.I2C_MSTAT_RD_CMPLT = 0) :
    ∀ (fuel : ℕ) (l : InitLoc) (w : World), l.state = 5 → 2 ≤ l.polls →
      Init_loop hw stat img fuel l w = none := by
  intro fuel
  induction fuel with
  | zero => intro l w _ _; rfl
  | succ fuel ih =>
    intro l w hs hp
    obtain ⟨h1, h2⟩ := hq l.polls hp
    unfold xferErr at h1
    unfold Init_loop
    rw [if_pos (by omega), Init_iter_state5 hw stat img l w hs, if_neg h1,
      if_neg (not_not.mpr h2)]
    exact ih _ w hs (by simp only; omega)

/-- With both writes reported finished at the first poll, the loop reaches the
read-await state after five iterations having made two polls. -/
theorem Init_loop_to_read (hw : Hw) (stat : ℕ → ℕ) (img : Reg6) (w : World)
    (h0 : wrDone hw (stat 0)) (h1 : wrDone hw (stat 1)) (fuel : ℕ) :
    ∃ w1, Init_loop hw stat img (fuel + 5) { state := 0, err := 0, polls := 0 } w =
      Init_loop hw stat img fuel { state := 5, err := 65534, polls := 2 } w1 := by
  obtain ⟨e0, c0⟩ := h0
  obtain ⟨e1, c1⟩ := h1
  refine ⟨{ w with
    Si570_Buf := { w.Si570_Buf with b0 := 7, b1 := 1 },
    bus := w.bus ++ [BusOp.write SI570_ADDR [135, 1] I2CMode.COMPLETE_XFER,
      BusOp.write SI570_ADDR [7] I2CMode.NO_STOP,
      BusOp.read SI570_ADDR 6 I2CMode.REPEAT_START] }, ?_⟩
  simp [Init_loop, Init_iter, decErr, e0, c0, e1, c1]

theorem Init_loop_mono (hw : Hw) (stat : ℕ → ℕ) (img : Reg6) :
    ∀ (n k : ℕ) (l : InitLoc) (w : World) (r : ℕ × InitLoc × World),
      Init_loop hw stat img n l w = some r → Init_loop hw stat img (n + k) l w = some r := by
  intro n
  induction n with
  | zero => intro k l w r h; simp [Init_loop] at h
  | succ n ih =>
    intro k l w r h
    have e : n + 1 + k = (n + k) + 1 := by omega
    rw [e]
    unfold Init_loop at h ⊢
    by_cases hlt : l.state < 6
    · rw [if_pos hlt] at h ⊢
      cases hit : Init_iter hw stat img l w with
      | ret c l1 w1 => rw [hit] at h; exact h
      | cont l1 w1 =>
        rw [hit] at h
        exact ih k l1 w1 r h
    · rw [if_neg hlt] at h ⊢
      exact h

/-- C20: on a bus where both writes are reported finished and every later
poll reports neither a transfer error nor the end of the read, `Si570_Init`
never returns, whatever the number of loop iterations allowed.  An iteration
in the read-await state 5 never returns and leaves the retry counter alone,
while every poll in the write-await states 1 and 3 decrements it whatever the
status; so for every status stream the write-await polls never exceed 65536
and the loop returns 1 exactly when they reach 65536. -/
theorem C20_init_may_not_return (hw : Hw) (stat : ℕ → ℕ) (img : Reg6) (w : World)
    (h0 : wrDone hw (stat 0)) (h1 : wrDone hw (stat 1))
    (hq : ∀ k, 2 ≤ k → ¬ xferErr hw (stat k) ∧ (stat k % 256) &&& hw.I2C_MSTAT_RD_CMPLT = 0) :
    (∀ fuel, Si570_Init hw stat img fuel w = none) ∧
    (∀ (st : ℕ → ℕ) (l : InitLoc) (v : World), l.state = 5 →
      ∃ l1 v1, Init_iter hw st img l v = InitIter.cont l1 v1 ∧ l1.err = l.err) ∧
    (∀ (st : ℕ → ℕ) (l : InitLoc) (v : World), l.state = 1 ∨ l.state = 3 →
      (decErr l.err = 0 → ∃ l1, Init_iter hw st img l v = InitIter.ret 1 l1 v) ∧
      (decErr l.err ≠ 0 →
        ∃ l1, Init_iter hw st img l v = InitIter.cont l1 v ∧ l1.err = decErr l.err)) ∧
    (∀ (st : ℕ → ℕ) (v : World) (n : ℕ),
      Init_wrPolls hw st img n { state := 0, err := 0, polls := 0 } v ≤ 65536 ∧
      (Init_wrPolls hw st img n { state := 0, err := 0, polls := 0 } v = 65536 ↔
        ∃ l1 v1, Init_loop hw st img n { state := 0, err := 0, polls := 0 } v =
          some (1, l1, v1))) := by
  refine ⟨?_, ?_, ?_, ?_⟩
  · intro fuel
    obtain ⟨w1, hw1⟩ := Init_loop_to_read hw stat img w h0 h1 fuel
    have hnone : Init_loop hw stat img (fuel + 5) { state := 0, err := 0, polls := 0 } w = none := by
      rw [hw1]
      exact Init_loop_stuck hw stat img hq fuel _ w1 rfl (by simp)
    unfold Si570_Init
    cases hl : Init_loop hw stat img fuel { state := 0, err := 0, polls := 0 } w with
    | none => rfl
    | some r =>
      have := Init_loop_mono hw stat img fuel 5 _ w r hl
      rw [hnone] at this
      cases this
  · intro st l v hs
    rw [Init_iter_state5 hw st img l v hs]
    split_ifs
    · exact ⟨_, _, rfl, rfl⟩
    · exact ⟨_, _, rfl, rfl⟩
    · exact ⟨_, _, rfl, rfl⟩
  · intro st l v hs
    rw [Init_iter_state13 hw st img l v hs]
    constructor
    · intro hd
      rw [if_pos hd]
      exact ⟨_, rfl⟩
    · intro hd
      rw [if_neg hd]
      exact ⟨_, rfl, rfl⟩
  · intro st v n
    have hc := Init_counter hw st img n { state := 0, err := 0, polls := 0 } v
    have hr := Init_run_loop hw st img n { state := 0, err := 0, polls := 0 } v
    have he : errLeft ({ state := 0, err := 0, polls := 0 } : InitLoc).err = 65536 := rfl
    cases hrun : Init_run hw st img n { state := 0, err := 0, polls := 0 } v with
    | ret c l1 v1 =>
      rw [hrun] at hc hr
      simp only at hc hr
      rw [he] at hc
      exact ⟨by omega, ⟨fun _ => ⟨l1, v1, hr⟩, fun _ => hc.2⟩⟩
    | cont l1 v1 =>
      rw [hrun] at hc hr
      simp only at hc hr
      rw [he] at hc
      refine ⟨by omega, ⟨fun h => by omega, fun h => ?_⟩⟩
      obtain ⟨l2, v2, h2⟩ := h
      exact absurd h2 (hr l2 v2)

/-- Witness for C20: two finished writes, then a read that never ends. -/
theorem C20_init_may_not_return_witness :
    Si570_Init hwExample exStallStat exImage 1000000 powerOn = none :=
  (C20_init_may_not_return hwExample exStallStat exImage powerOn (by decide) (by decide)
    (fun k hk => by
      have e : exStallStat k = 0 := by
        unfold exStallStat
        rw [if_neg (by omega)]
      rw [e]
      exact ⟨by decide, by decide⟩)).1 1000000

/-! ## Await states -/

/-- C15 (amended): in the await states 13, 15 and 17 of `Si570_Main` and 1 and
3 of `Si570_Init`, a status with the transfer-error bit set moves the state
exactly one state backward, a status with no error and the write-complete bit
set moves it exactly one state forward, and any other status leaves it
unchanged; in the read-await state 5 of `Si570_Init` a status with no error
and the read-complete bit set moves the state forward to 6 and any other
status without error leaves it unchanged, but a transfer error moves it back
to state 2, the write of the register pointer. -/
theorem C15_await_transitions (hw : Hw) (s : ℕ) :
    (∀ w : World, w.state = 13 ∨ w.state = 15 ∨ w.state = 17 →
      (xferErr hw s → Si570_Main hw s w = { w with state := w.state - 1 }) ∧
      (¬ xferErr hw s → (s % 256) &&& hw.I2C_MSTAT_WR_CMPLT ≠ 0 →
        Si570_Main hw s w = { w with state := w.state + 1 }) ∧
      (¬ xferErr hw s → (s % 256) &&& hw.I2C_MSTAT_WR_CMPLT = 0 → Si570_Main hw s w = w)) ∧
    (∀ (stat : ℕ → ℕ) (img : Reg6) (l : InitLoc) (w : World), stat l.polls = s →
      (l.state = 1 ∨ l.state = 3) →
      (xferErr hw s → (Init_iter hw stat img l w).loc.state = l.state - 1) ∧
      (¬ xferErr hw s → (s % 256) &&& hw.I2C_MSTAT_WR_CMPLT ≠ 0 →
        (Init_iter hw stat img l w).loc.state = l.state + 1) ∧
      (¬ xferErr hw s → (s % 256) &&& hw.I2C_MSTAT_WR_CMPLT = 0 →
        (Init_iter hw stat img l w).loc.state = l.state)) ∧
    (∀ (stat : ℕ → ℕ) (img : Reg6) (l : InitLoc) (w : World), stat l.polls = s →
      l.state = 5 →
      (xferErr hw s → (Init_iter hw stat img l w).loc.state = 2) ∧
      (¬ xferErr hw s → (s % 256) &&& hw.I2C_MSTAT_RD_CMPLT ≠ 0 →
        (Init_iter hw stat img l w).loc.state = 6) ∧
      (¬ xferErr hw s → (s % 256) &&& hw.I2C_MSTAT_RD_CMPLT = 0 →
        (Init_iter hw stat img l w).loc.state = 5)) := by
  unfold xferErr
  refine ⟨?_, ?_, ?_⟩
  · intro w hs
    rw [Main_await hw s w hs]
    refine ⟨fun he => by rw [if_pos he], fun he hc => by rw [if_neg he, if_pos hc],
      fun he hc => by rw [if_neg he, if_neg (not_not.mpr hc)]⟩
  · intro stat img l w hst hs
    rw [Init_iter_state13 hw stat img l w hs, hst]
    refine ⟨fun he => ?_, fun he hc => ?_, fun he hc => ?_⟩
    · by_cases hd : decErr l.err = 0
      · rw [if_pos hd]; simp only [InitIter.loc]; rw [if_pos he]
      · rw [if_neg hd]; simp only [InitIter.loc]; rw [if_pos he]
    · by_cases hd : decErr l.err = 0
      · rw [if_pos hd]; simp only [InitIter.loc]; rw [if_neg he, if_pos hc]
      · rw [if_neg hd]; simp only [InitIter.loc]; rw [if_neg he, if_pos hc]
    · by_cases hd : decErr l.err = 0
      · rw [if_pos hd]; simp only [InitIter.loc]; rw [if_neg he, if_neg (not_not.mpr hc)]
      · rw [if_neg hd]; simp only [InitIter.loc]; rw [if_neg he, if_neg (not_not.mpr hc)]
  · intro stat img l w hst hs
    rw [Init_iter_state5 hw stat img l w hs, hst]
    refine ⟨fun he => ?_, fun he hc => ?_, fun he hc => ?_⟩
    · rw [if_pos he]; rfl
    · rw [if_neg he, if_pos hc]; rfl
    · rw [if_neg he, if_neg (not_not.mpr hc)]; exact hs

/-- Counterexample to C15 as stated: in the read-await state 5 of
`Si570_Init` a transfer error moves the state to 2, not to 4. -/
theorem C15_counterexample :
    xferErr hwExample (exErrStat 0) ∧
    (Init_iter hwExample exErrStat exImage { state := 5, err := 0, polls := 0 }
      powerOn).loc.state = 2 ∧
    (Init_iter hwExample exErrStat exImage { state := 5, err := 0, polls := 0 }
      powerOn).loc.state ≠ 5 - 1 := by
  have he : xferErr hwExample (exErrStat 0) := by decide
  have h : (Init_iter hwExample exErrStat exImage { state := 5, err := 0, polls := 0 }
      powerOn).loc.state = 2 := by
    decide
  exact ⟨he, h, by rw [h]; decide⟩

/-- Witness for C15: in state 13 of `Si570_Main` a write-complete status
without error moves the machine to state 14. -/
theorem C15_await_transitions_witness :
    ¬ xferErr hwExample 2 ∧
    Si570_Main hwExample 2 { powerOn with state := 13 } = { powerOn with state := 14 } :=
  ⟨by decide,
    ((C15_await_transitions hwExample 2).1 { powerOn with state := 13 } (Or.inl rfl)).2.1
      (by decide) (by decide)⟩

/-! ## Requests arriving while a reprogram is in flight -/

theorem Main_default (hw : Hw) (st : ℕ) (w : World) (h0 : w.state ≠ 0) (h1 : w.state ≠ 1)
    (h12 : w.state ≠ 12) (h14 : w.state ≠ 14) (h16 : w.state ≠ 16)
    (ha : ¬ (w.state = 13 ∨ w.state = 15 ∨ w.state = 17)) (h18 : w.state ≠ 18) :
    Si570_Main hw st w =
      if w.state = 8 ∨ w.state = 10 then searchStep hw (w.state + 1) w
      else searchStep hw w.state w := by
  unfold Si570_Main
  simp only [h0, h1, h12, h14, h16, ha, h18, if_false]

theorem searchStep_override (hw : Hw) (s : ℕ) (w : World) (lo xtal : ℕ) (old : Reg6) :
    searchStep hw s { w with Si570_LO := lo, Si570_Xtal := xtal, Si570_OLD := old } =
      { searchStep hw s w with Si570_LO := lo, Si570_Xtal := xtal, Si570_OLD := old } := by
  unfold searchStep
  simp only
  split_ifs <;> rfl

/-- Outside the idle state a tick neither reads nor writes `Si570_LO`,
`Si570_Xtal` and `Si570_OLD`: it commutes with any change of them. -/
theorem Main_override (hw : Hw) (st : ℕ) (w : World) (hs : w.state ≠ 0) (lo xtal : ℕ)
    (old : Reg6) :
    Si570_Main hw st { w with Si570_LO := lo, Si570_Xtal := xtal, Si570_OLD := old } =
      { Si570_Main hw st w with Si570_LO := lo, Si570_Xtal := xtal, Si570_OLD := old } := by
  by_cases h1 : w.state = 1
  · refine (Main_state1 hw st { w with Si570_LO := lo, Si570_Xtal := xtal, Si570_OLD := old }
      h1).trans ?_
    rw [Main_state1 hw st w h1]
    by_cases hc : smoothOk w
    · have hc2 : smoothOk { w with Si570_LO := lo, Si570_Xtal := xtal, Si570_OLD := old } := hc
      rw [if_pos hc, if_pos hc2]
    · have hc2 : ¬ smoothOk { w with Si570_LO := lo, Si570_Xtal := xtal, Si570_OLD := old } := hc
      rw [if_neg hc, if_neg hc2]
  by_cases h12 : w.state = 12
  · refine (Main_state12 hw st { w with Si570_LO := lo, Si570_Xtal := xtal, Si570_OLD := old }
      h12).trans ?_
    rw [Main_state12 hw st w h12]
  by_cases h14 : w.state = 14
  · refine (Main_state14 hw st { w with Si570_LO := lo, Si570_Xtal := xtal, Si570_OLD := old }
      h14).trans ?_
    rw [Main_state14 hw st w h14]
  by_cases h16 : w.state = 16
  · refine (Main_state16 hw st { w with Si570_LO := lo, Si570_Xtal := xtal, Si570_OLD := old }
      h16).trans ?_
    rw [Main_state16 hw st w h16]
  by_cases ha : w.state = 13 ∨ w.state = 15 ∨ w.state = 17
  · refine (Main_await hw st { w with Si570_LO := lo, Si570_Xtal := xtal, Si570_OLD := old }
      ha).trans ?_
    rw [Main_await hw st w ha]
    split_ifs <;> rfl
  by_cases h18 : w.state = 18
  · refine (Main_state18 hw st { w with Si570_LO := lo, Si570_Xtal := xtal, Si570_OLD := old }
      h18).trans ?_
    rw [Main_state18 hw st w h18]
  refine (Main_default hw st { w with Si570_LO := lo, Si570_Xtal := xtal, Si570_OLD := old }
    hs h1 h12 h14 h16 ha h18).trans ?_
  rw [Main_default hw st w hs h1 h12 h14 h16 ha h18]
  simp only
  split_ifs
  · exact searchStep_override hw _ w lo xtal old
  · exact searchStep_override hw _ w lo xtal old

/-- Outside the idle state a tick leaves the request variables and the two
snapshots alone. -/
theorem Main_busy_frame (hw : Hw) (st : ℕ) (w : World) (hs : w.state ≠ 0) :
    (Si570_Main hw st w).Current_LO = w.Current_LO ∧
    (Si570_Main hw st w).Current_Si570_Xtal = w.Current_Si570_Xtal ∧
    (Si570_Main hw st w).Si570_OLD = w.Si570_OLD ∧
    (Si570_Main hw st w).Si570_LO = w.Si570_LO ∧
    (Si570_Main hw st w).Si570_Xtal = w.Si570_Xtal := by
  by_cases h1 : w.state = 1
  · rw [Main_state1 hw st w h1]
    split_ifs <;> exact ⟨rfl, rfl, rfl, rfl, rfl⟩
  by_cases h12 : w.state = 12
  · rw [Main_state12 hw st w h12]; exact ⟨rfl, rfl, rfl, rfl, rfl⟩
  by_cases h14 : w.state = 14
  · rw [Main_state14 hw st w h14]; exact ⟨rfl, rfl, rfl, rfl, rfl⟩
  by_cases h16 : w.state = 16
  · rw [Main_state16 hw st w h16]; exact ⟨rfl, rfl, rfl, rfl, rfl⟩
  by_cases ha : w.state = 13 ∨ w.state = 15 ∨ w.state = 17
  · rw [Main_await hw st w ha]
    split_ifs <;> exact ⟨rfl, rfl, rfl, rfl, rfl⟩
  by_cases h18 : w.state = 18
  · rw [Main_state18 hw st w h18]; exact ⟨rfl, rfl, rfl, rfl, rfl⟩
  rw [Main_default hw st w hs h1 h12 h14 h16 ha h18]
  split_ifs
  · obtain ⟨_, x, l, c, _, _, o, _, _, k, _⟩ := searchStep_frame hw (w.state + 1) w
    exact ⟨c, k, o, l, x⟩
  · obtain ⟨_, x, l, c, _, _, o, _, _, k, _⟩ := searchStep_frame hw w.state w
    exact ⟨c, k, o, l, x⟩

/-- C16: for every tick of `Si570_Main` taken in a non-idle state, the next
state, the tuning values (`fout`, `dco`, `hsdiv`, `n1`, `smooth`), the buffer
and the bus trace are the same for any two values of `Si570_LO`, `Si570_Xtal`
and `Si570_OLD`; and the tick modifies none of `Current_LO`, the calibration
snapshot, `Si570_OLD`, `Si570_LO` and `Si570_Xtal`. -/
theorem C16_no_request_in_flight (hw : Hw) (st : ℕ) (w : World) (hs : w.state ≠ 0)
    (lo1 xtal1 : ℕ) (old1 : Reg6) (lo2 xtal2 : ℕ) (old2 : Reg6) :
    ((Si570_Main hw st
        { w with Si570_LO := lo1, Si570_Xtal := xtal1, Si570_OLD := old1 }).state =
      (Si570_Main hw st
        { w with Si570_LO := lo2, Si570_Xtal := xtal2, Si570_OLD := old2 }).state ∧
     (Si570_Main hw st
        { w with Si570_LO := lo1, Si570_Xtal := xtal1, Si570_OLD := old1 }).fout =
      (Si570_Main hw st
        { w with Si570_LO := lo2, Si570_Xtal := xtal2, Si570_OLD := old2 }).fout ∧
     (Si570_Main hw st
        { w with Si570_LO := lo1, Si570_Xtal := xtal1, Si570_OLD := old1 }).dco =
      (Si570_Main hw st
        { w with Si570_LO := lo2, Si570_Xtal := xtal2, Si570_OLD := old2 }).dco ∧
     (Si570_Main hw st
        { w with Si570_LO := lo1, Si570_Xtal := xtal1, Si570_OLD := old1 }).hsdiv =
      (Si570_Main hw st
        { w with Si570_LO := lo2, Si570_Xtal := xtal2, Si570_OLD := old2 }).hsdiv ∧
     (Si570_Main hw st
        { w with Si570_LO := lo1, Si570_Xtal := xtal1, Si570_OLD := old1 }).n1 =
      (Si570_Main hw st
        { w with Si570_LO := lo2, Si570_Xtal := xtal2, Si570_OLD := old2 }).n1 ∧
     (Si570_Main hw st
        { w with Si570_LO := lo1, Si570_Xtal := xtal1, Si570_OLD := old1 }).smooth =
      (Si570_Main hw st
        { w with Si570_LO := lo2, Si570_Xtal := xtal2, Si570_OLD := old2 }).smooth ∧
     (Si570_Main hw st
        { w with Si570_LO := lo1, Si570_Xtal := xtal1, Si570_OLD := old1 }).Si570_Buf =
      (Si570_Main hw st
        { w with Si570_LO := lo2, Si570_Xtal := xtal2, Si570_OLD := old2 }).Si570_Buf ∧
     (Si570_Main hw st
        { w with Si570_LO := lo1, Si570_Xtal := xtal1, Si570_OLD := old1 }).bus =
      (Si570_Main hw st
        { w with Si570_LO := lo2, Si570_Xtal := xtal2, Si570_OLD := old2 }).bus) ∧
    ((Si570_Main hw st w).Current_LO = w.Current_LO ∧
     (Si570_Main hw st w).Current_Si570_Xtal = w.Current_Si570_Xtal ∧
     (Si570_Main hw st w).Si570_OLD = w.Si570_OLD ∧
     (Si570_Main hw st w).Si570_LO = w.Si570_LO ∧
     (Si570_Main hw st w).Si570_Xtal = w.Si570_Xtal) := by
  refine ⟨?_, Main_busy_frame hw st w hs⟩
  rw [Main_override hw st w hs lo1 xtal1 old1, Main_override hw st w hs lo2 xtal2 old2]
  exact ⟨rfl, rfl, rfl, rfl, rfl, rfl, rfl, rfl⟩

/-- Witness for C16: the freeze write of state 12 with two different pending
requests. -/
theorem C16_no_request_in_flight_witness :
    (Si570_Main hwExample 0 { powerOn with state := 12, Si570_LO := 0x19 }).bus =
      (Si570_Main hwExample 0 { powerOn with state := 12, Si570_LO := 0x2000 }).bus :=
  (C16_no_request_in_flight hwExample 0 { powerOn with state := 12 } (by decide)
    0x19 0 powerOn.Si570_OLD 0x2000 0 powerOn.Si570_OLD).1.2.2.2.2.2.2.2

/-! ## `Current_LO` -/

/-- What an idle tick does to `Current_LO`: it either starts a cycle and
copies the sampled `Si570_LO`, or stays idle and leaves it alone. -/
theorem Main_idle_current (hw : Hw) (st : ℕ) (w : World) (hs : w.state = 0) :
    ((Si570_Main hw st w).state = 1 ∧
      (Si570_Main hw st w).Current_LO = (Si570_Main hw st w).Si570_LO) ∨
    ((Si570_Main hw st w).state = 0 ∧ (Si570_Main hw st w).Current_LO = w.Current_LO) := by
  rw [Main_state0 hw st w hs]
  obtain ⟨_, _, _, _, f5, f6, _⟩ := afterLegacy_frame hw w
  split_ifs
  · left; exact ⟨rfl, rfl⟩
  · right; exact ⟨by rw [f5, hs], f6⟩

theorem runEnv_current (hw : Hw) :
    ∀ (es : List Env) (w : World) (cur : ℕ), cur = w.Current_LO →
      (runEnv hw es w).Current_LO = lastStarted hw es w cur := by
  intro es
  induction es with
  | nil => intro w cur h; exact h.symm
  | cons e es ih =>
    intro w cur h
    simp only [runEnv, lastStarted]
    apply ih
    by_cases hs : w.state = 0
    · rcases Main_idle_current hw e.status
        { w with Si570_LO := e.lo, Si570_Xtal := e.xtal, Si570_OLD := e.old } hs with
        ⟨h1, h2⟩ | ⟨h1, h2⟩
      · rw [if_pos ⟨hs, h1⟩]
        exact h2.symm
      · have hne : ¬ (w.state = 0 ∧ (envStep hw e w).state = 1) := by
          intro hh
          have : (envStep hw e w).state = 0 := h1
          omega
        rw [if_neg hne, h]
        exact h2.symm
    · rw [if_neg (fun hh => hs hh.1), h]
      exact ((Main_busy_frame hw e.status
        { w with Si570_LO := e.lo, Si570_Xtal := e.xtal, Si570_OLD := e.old } hs).1).symm

/-- C13 (amended): `Current_LO` is written only by the idle tick that detects
a change, which copies the `Si570_LO` word it sampled before the freeze, write
and unfreeze sequence starts; no tick taken in a non-idle state changes it.
Hence in every state reached from power-on `Current_LO` equals the target
word of the most recent reprogram cycle that was started, or the startup
value if none has. -/
theorem C13_current_lo :
    (∀ (hw : Hw) (st : ℕ) (w : World), w.state ≠ 0 →
      (Si570_Main hw st w).Current_LO = w.Current_LO) ∧
    (∀ (hw : Hw) (st : ℕ) (w : World), w.state = 0 →
      ((Si570_Main hw st w).state = 1 ∧
        (Si570_Main hw st w).Current_LO = (Si570_Main hw st w).Si570_LO) ∨
      ((Si570_Main hw st w).state = 0 ∧ (Si570_Main hw st w).Current_LO = w.Current_LO)) ∧
    (∀ (hw : Hw) (es : List Env),
      (runEnv hw es powerOn).Current_LO = lastStarted hw es powerOn STARTUP_LO) :=
  ⟨fun hw st w hs => (Main_busy_frame hw st w hs).1,
    fun hw st w hs => Main_idle_current hw st w hs,
    fun hw es => runEnv_current hw es powerOn STARTUP_LO rfl⟩

/-- Counterexample to C13 as stated: the idle tick that accepts a new target
word changes `Current_LO` although no bus write has been issued, let alone a
complete freeze, write and unfreeze sequence. -/
theorem C13_counterexample :
    ({ powerOn with Si570_LO := 0x19 } : World).state = 0 ∧
    (Si570_Main hwExample 0 { powerOn with Si570_LO := 0x19 }).bus = [] ∧
    (Si570_Main hwExample 0 { powerOn with Si570_LO := 0x19 }).Current_LO = 0x19 ∧
    (Si570_Main hwExample 0 { powerOn with Si570_LO := 0x19 }).Current_LO ≠
      ({ powerOn with Si570_LO := 0x19 } : World).Current_LO := by
  refine ⟨rfl, by decide, by decide, by decide⟩

/-- Witness for C13: a tick of the divider search leaves `Current_LO` as it
was. -/
theorem C13_current_lo_witness :
    exSearch.state ≠ 0 ∧ (Si570_Main hwExample 0 exSearch).Current_LO = exSearch.Current_LO :=
  ⟨by decide, C13_current_lo.1 hwExample 0 exSearch (by decide)⟩

/-! ## Tick counts of the runtime sequencer -/

theorem traceMain_append (hw : Hw) (l1 l2 : List ℕ) (w : World) :
    traceMain hw (l1 ++ l2) w = traceMain hw l1 w ++ traceMain hw l2 (runMain hw l1 w) := by
  induction l1 generalizing w with
  | nil => rfl
  | cons s l1 ih =>
    show (Si570_Main hw s w).state :: traceMain hw (l1 ++ l2) (Si570_Main hw s w) = _
    rw [ih]
    rfl

theorem Main_await_err (hw : Hw) (st : ℕ) (w : World)
    (hs : w.state = 13 ∨ w.state = 15 ∨ w.state = 17) (he : xferErr hw st) :
    Si570_Main hw st w = { w with state := w.state - 1 } := by
  unfold xferErr at he
  rw [Main_await hw st w hs, if_pos he]

/-- The states visited by the six ticks of the divider search. -/
theorem search_trace (hw : Hw) (w : World) (s1 s2 s3 s4 s5 s6 : ℕ) (hs : w.state = 4) :
    traceMain hw [s1, s2, s3, s4, s5, s6] w = [5, 6, 7, 8, 10, 12] := by
  simp only [traceMain]
  rw [Main_search (w := w) (Or.inl hs), hs]
  have a1 := (searchStep_frame hw 4 w).1
  rw [Main_search (Or.inr (Or.inl a1))]
  simp only [a1, Nat.reduceAdd, Nat.reduceMod]
  have a2 := (searchStep_frame hw 5 (searchStep hw 4 w)).1
  rw [Main_search (Or.inr (Or.inr (Or.inl a2)))]
  simp only [a2, Nat.reduceAdd, Nat.reduceMod]
  have a3 := (searchStep_frame hw 6 (searchStep hw 5 (searchStep hw 4 w))).1
  rw [Main_search (Or.inr (Or.inr (Or.inr a3)))]
  simp only [a3, Nat.reduceAdd, Nat.reduceMod]
  have a4 := (searchStep_frame hw 7 (searchStep hw 6 (searchStep hw 5 (searchStep hw 4 w)))).1
  rw [Main_search8 (Or.inl a4)]
  simp only [a4, Nat.reduceAdd, Nat.reduceMod]
  have a5 := (searchStep_frame hw 9 (searchStep hw 7 (searchStep hw 6 (searchStep hw 5 (searchStep hw 4 w))))).1
  rw [Main_search8 (Or.inr a5)]
  simp only [a5, Nat.reduceAdd, Nat.reduceMod]
  have a6 := (searchStep_frame hw 11
    (searchStep hw 9 (searchStep hw 7 (searchStep hw 6 (searchStep hw 5 (searchStep hw 4 w)))))).1
  simp only [a6, Nat.reduceAdd, Nat.reduceMod]

/-- The next state of every step of the freeze, write, unfreeze sequence. -/
theorem Main_seq_state (hw : Hw) (st : ℕ) (w : World) :
    (w.state = 12 → (Si570_Main hw st w).state = 13) ∧
    (w.state = 14 → (Si570_Main hw st w).state = 15) ∧
    (w.state = 16 → (Si570_Main hw st w).state = 17) ∧
    (w.state = 18 → (Si570_Main hw st w).state = 0) ∧
    ((w.state = 13 ∨ w.state = 15 ∨ w.state = 17) → wrDone hw st →
      (Si570_Main hw st w).state = w.state + 1) ∧
    ((w.state = 13 ∨ w.state = 15 ∨ w.state = 17) → xferErr hw st →
      (Si570_Main hw st w).state = w.state - 1) := by
  refine ⟨fun h => ?_, fun h => ?_, fun h => ?_, fun h => ?_, fun h hd => ?_, fun h he => ?_⟩
  · rw [Main_state12 hw st w h]
  · rw [Main_state14 hw st w h]
  · rw [Main_state16 hw st w h]
  · rw [Main_state18 hw st w h]
  · rw [Main_await_done hw st w h hd]
  · rw [Main_await_err hw st w h he]

/-- The states visited from the freeze write back to idle when every poll
reports a finished write. -/
theorem sequencer_trace (hw : Hw) (w : World) (a s1 b s2 c s3 d : ℕ) (hs : w.state = 12)
    (h1 : wrDone hw s1) (h2 : wrDone hw s2) (h3 : wrDone hw s3) :
    traceMain hw [a, s1, b, s2, c, s3, d] w = [13, 14, 15, 16, 17, 18, 0] := by
  simp only [traceMain]
  have e1 := (Main_seq_state hw a w).1 hs
  generalize Si570_Main hw a w = w1 at e1 ⊢
  have e2 := (Main_seq_state hw s1 w1).2.2.2.2.1 (Or.inl e1) h1
  generalize Si570_Main hw s1 w1 = w2 at e2 ⊢
  rw [e1] at e2
  have e3 := (Main_seq_state hw b w2).2.1 e2
  generalize Si570_Main hw b w2 = w3 at e3 ⊢
  have e4 := (Main_seq_state hw s2 w3).2.2.2.2.1 (Or.inr (Or.inl e3)) h2
  generalize Si570_Main hw s2 w3 = w4 at e4 ⊢
  rw [e3] at e4
  have e5 := (Main_seq_state hw c w4).2.2.1 e4
  generalize Si570_Main hw c w4 = w5 at e5 ⊢
  have e6 := (Main_seq_state hw s3 w5).2.2.2.2.1 (Or.inr (Or.inr e5)) h3
  generalize Si570_Main hw s3 w5 = w6 at e6 ⊢
  rw [e5] at e6
  have e7 := (Main_seq_state hw d w6).2.2.2.1 e6
  rw [e1, e2, e3, e4, e5, e6, e7]

/-- A transfer error reported at state 13: one step back to state 12, the
freeze write is issued again, then the sequence runs on. -/
theorem sequencer_error13 (hw : Hw) (w : World) (a e a2 s1 b s2 c s3 d : ℕ) (hs : w.state = 12)
    (he : xferErr hw e) (h1 : wrDone hw s1) (h2 : wrDone hw s2) (h3 : wrDone hw s3) :
    traceMain hw [a, e, a2, s1, b, s2, c, s3, d] w = [13, 12, 13, 14, 15, 16, 17, 18, 0] ∧
    (runMain hw [a, e, a2, s1, b, s2, c, s3, d] w).bus =
      w.bus ++ [freezeOp, freezeOp, regsOp w, releaseOp w] := by
  constructor
  · simp only [traceMain]
    have e1 := (Main_seq_state hw a w).1 hs
    generalize Si570_Main hw a w = w1 at e1 ⊢
    have e2 := (Main_seq_state hw e w1).2.2.2.2.2 (Or.inl e1) he
    generalize Si570_Main hw e w1 = w2 at e2 ⊢
    rw [e1] at e2
    have e3 := (Main_seq_state hw a2 w2).1 e2
    generalize Si570_Main hw a2 w2 = w3 at e3 ⊢
    have e4 := (Main_seq_state hw s1 w3).2.2.2.2.1 (Or.inl e3) h1
    generalize Si570_Main hw s1 w3 = w4 at e4 ⊢
    rw [e3] at e4
    have e5 := (Main_seq_state hw b w4).2.1 e4
    generalize Si570_Main hw b w4 = w5 at e5 ⊢
    have e6 := (Main_seq_state hw s2 w5).2.2.2.2.1 (Or.inr (Or.inl e5)) h2
    generalize Si570_Main hw s2 w5 = w6 at e6 ⊢
    rw [e5] at e6
    have e7 := (Main_seq_state hw c w6).2.2.1 e6
    generalize Si570_Main hw c w6 = w7 at e7 ⊢
    have e8 := (Main_seq_state hw s3 w7).2.2.2.2.1 (Or.inr (Or.inr e7)) h3
    generalize Si570_Main hw s3 w7 = w8 at e8 ⊢
    rw [e7] at e8
    have e9 := (Main_seq_state hw d w8).2.2.2.1 e8
    rw [e1, e2, e3, e4, e5, e6, e7, e8, e9]
  · have hsplit : runMain hw [a, e, a2, s1, b, s2, c, s3, d] w =
        runMain hw [a2, s1, b, s2, c, s3, d] (Si570_Main hw e (Si570_Main hw a w)) := rfl
    rw [hsplit, Main_state12 hw a w hs, Main_await_err hw e _ (Or.inl rfl) he,
      sequencer_run hw _ a2 s1 b s2 c s3 d rfl h1 h2 h3]
    simp [freezeOp, regsOp, releaseOp, packRegs, regsOf, Reg6.toList]

/-- A transfer error reported at state 15: one step back to state 14, the
register write is issued again with the same bytes. -/
theorem sequencer_error15 (hw : Hw) (w : World) (a s1 b e b2 s2 c s3 d : ℕ) (hs : w.state = 12)
    (he : xferErr hw e) (h1 : wrDone hw s1) (h2 : wrDone hw s2) (h3 : wrDone hw s3) :
    traceMain hw [a, s1, b, e, b2, s2, c, s3, d] w = [13, 14, 15, 14, 15, 16, 17, 18, 0] ∧
    (runMain hw [a, s1, b, e, b2, s2, c, s3, d] w).bus =
      w.bus ++ [freezeOp, regsOp w, regsOp w, releaseOp w] := by
  constructor
  · simp only [traceMain]
    have e1 := (Main_seq_state hw a w).1 hs
    generalize Si570_Main hw a w = w1 at e1 ⊢
    have e2 := (Main_seq_state hw s1 w1).2.2.2.2.1 (Or.inl e1) h1
    generalize Si570_Main hw s1 w1 = w2 at e2 ⊢
    rw [e1] at e2
    have e3 := (Main_seq_state hw b w2).2.1 e2
    generalize Si570_Main hw b w2 = w3 at e3 ⊢
    have e4 := (Main_seq_state hw e w3).2.2.2.2.2 (Or.inr (Or.inl e3)) he
    generalize Si570_Main hw e w3 = w4 at e4 ⊢
    rw [e3] at e4
    have e5 := (Main_seq_state hw b2 w4).2.1 e4
    generalize Si570_Main hw b2 w4 = w5 at e5 ⊢
    have e6 := (Main_seq_state hw s2 w5).2.2.2.2.1 (Or.inr (Or.inl e5)) h2
    generalize Si570_Main hw s2 w5 = w6 at e6 ⊢
    rw [e5] at e6
    have e7 := (Main_seq_state hw c w6).2.2.1 e6
    generalize Si570_Main hw c w6 = w7 at e7 ⊢
    have e8 := (Main_seq_state hw s3 w7).2.2.2.2.1 (Or.inr (Or.inr e7)) h3
    generalize Si570_Main hw s3 w7 = w8 at e8 ⊢
    rw [e7] at e8
    have e9 := (Main_seq_state hw d w8).2.2.2.1 e8
    rw [e1, e2, e3, e4, e5, e6, e7, e8, e9]
  · simp only [runMain]
    rw [Main_state12 hw a w hs]
    rw [Main_await_done hw s1 _ (Or.inl rfl) h1]
    rw [Main_state14 hw b _ rfl]
    rw [Main_await_err hw e _ (Or.inr (Or.inl rfl)) he]
    rw [Main_state14 hw b2 _ rfl]
    rw [Main_await_done hw s2 _ (Or.inr (Or.inl rfl)) h2]
    rw [Main_state16 hw c _ rfl]
    rw [Main_await_done hw s3 _ (Or.inr (Or.inr rfl)) h3]
    rw [Main_state18 hw d _ rfl]
    simp [freezeOp, regsOp, releaseOp, packRegs, regsOf, Reg6.toList]

/-- A transfer error reported at state 17: one step back to state 16, the
unfreeze write is issued again with the same bytes. -/
theorem sequencer_error17 (hw : Hw) (w : World) (a s1 b s2 c e c2 s3 d : ℕ) (hs : w.state = 12)
    (he : xferErr hw e) (h1 : wrDone hw s1) (h2 : wrDone hw s2) (h3 : wrDone hw s3) :
    traceMain hw [a, s1, b, s2, c, e, c2, s3, d] w = [13, 14, 15, 16, 17, 16, 17, 18, 0] ∧
    (runMain hw [a, s1, b, s2, c, e, c2, s3, d] w).bus =
      w.bus ++ [freezeOp, regsOp w, releaseOp w, releaseOp w] := by
  constructor
  · simp only [traceMain]
    have e1 := (Main_seq_state hw a w).1 hs
    generalize Si570_Main hw a w = w1 at e1 ⊢
    have e2 := (Main_seq_state hw s1 w1).2.2.2.2.1 (Or.inl e1) h1
    generalize Si570_Main hw s1 w1 = w2 at e2 ⊢
    rw [e1] at e2
    have e3 := (Main_seq_state hw b w2).2.1 e2
    generalize Si570_Main hw b w2 = w3 at e3 ⊢
    have e4 := (Main_seq_state hw s2 w3).2.2.2.2.1 (Or.inr (Or.inl e3)) h2
    generalize Si570_Main hw s2 w3 = w4 at e4 ⊢
    rw [e3] at e4
    have e5 := (Main_seq_state hw c w4).2.2.1 e4
    generalize Si570_Main hw c w4 = w5 at e5 ⊢
    have e6 := (Main_seq_state hw e w5).2.2.2.2.2 (Or.inr (Or.inr e5)) he
    generalize Si570_Main hw e w5 = w6 at e6 ⊢
    rw [e5] at e6
    have e7 := (Main_seq_state hw c2 w6).2.2.1 e6
    generalize Si570_Main hw c2 w6 = w7 at e7 ⊢
    have e8 := (Main_seq_state hw s3 w7).2.2.2.2.1 (Or.inr (Or.inr e7)) h3
    generalize Si570_Main hw s3 w7 = w8 at e8 ⊢
    rw [e7] at e8
    have e9 := (Main_seq_state hw d w8).2.2.2.1 e8
    rw [e1, e2, e3, e4, e5, e6, e7, e8, e9]
  · simp only [runMain]
    rw [Main_state12 hw a w hs]
    rw [Main_await_done hw s1 _ (Or.inl rfl) h1]
    rw [Main_state14 hw b _ rfl]
    rw [Main_await_done hw s2 _ (Or.inr (Or.inl rfl)) h2]
    rw [Main_state16 hw c _ rfl]
    rw [Main_await_err hw e _ (Or.inr (Or.inr rfl)) he]
    rw [Main_state16 hw c2 _ rfl]
    rw [Main_await_done hw s3 _ (Or.inr (Or.inr rfl)) h3]
    rw [Main_state18 hw d _ rfl]
    simp [freezeOp, regsOp, releaseOp, packRegs, regsOf, Reg6.toList]

theorem Main_idle_detect (hw : Hw) (st : ℕ) (w : World) (hs : w.state = 0)
    (hchg : (afterLegacy hw w).Current_Si570_Xtal ≠ (afterLegacy hw w).Si570_Xtal ∨
      (afterLegacy hw w).Current_LO ≠ (afterLegacy hw w).Si570_LO) :
    (Si570_Main hw st w).state = 1 := by
  rw [Main_state0 hw st w hs, if_pos hchg]

/-- C14: with every status poll reporting write-complete, `Si570_Main` goes
from the idle tick that detects a change back to idle in exactly 9 ticks on the
smooth path and exactly 15 ticks on the full path, 7 of them from the freeze
write at state 12 to idle; when instead one poll (at state 13, 15 or 17)
reports a transfer error, the machine steps back once, issues the same write
again with the same bytes, and reaches idle after exactly 2 more ticks. -/
theorem C14_tick_counts (hw : Hw) (w0 : World)
    (t0 t1 m1 m2 m3 m4 m5 m6 a s1 b s2 c s3 d e x : ℕ) (hs : w0.state = 0)
    (hchg : (afterLegacy hw w0).Current_Si570_Xtal ≠ (afterLegacy hw w0).Si570_Xtal ∨
      (afterLegacy hw w0).Current_LO ≠ (afterLegacy hw w0).Si570_LO)
    (h1 : wrDone hw s1) (h2 : wrDone hw s2) (h3 : wrDone hw s3) (he : xferErr hw e) :
    (smoothOk (Si570_Main hw t0 w0) →
      traceMain hw [t0, t1, a, s1, b, s2, c, s3, d] w0 =
        [1, 12, 13, 14, 15, 16, 17, 18, 0]) ∧
    (¬ smoothOk (Si570_Main hw t0 w0) →
      traceMain hw [t0, t1, m1, m2, m3, m4, m5, m6, a, s1, b, s2, c, s3, d] w0 =
        [1, 4, 5, 6, 7, 8, 10, 12, 13, 14, 15, 16, 17, 18, 0]) ∧
    (∀ w : World, w.state = 12 →
      (traceMain hw [a, s1, b, s2, c, s3, d] w = [13, 14, 15, 16, 17, 18, 0] ∧
        (runMain hw [a, s1, b, s2, c, s3, d] w).bus =
          w.bus ++ [freezeOp, regsOp w, releaseOp w]) ∧
      (traceMain hw [a, e, x, s1, b, s2, c, s3, d] w = [13, 12, 13, 14, 15, 16, 17, 18, 0] ∧
        (runMain hw [a, e, x, s1, b, s2, c, s3, d] w).bus =
          w.bus ++ [freezeOp, freezeOp, regsOp w, releaseOp w]) ∧
      (traceMain hw [a, s1, b, e, x, s2, c, s3, d] w = [13, 14, 15, 14, 15, 16, 17, 18, 0] ∧
        (runMain hw [a, s1, b, e, x, s2, c, s3, d] w).bus =
          w.bus ++ [freezeOp, regsOp w, regsOp w, releaseOp w]) ∧
      (traceMain hw [a, s1, b, s2, c, e, x, s3, d] w = [13, 14, 15, 16, 17, 16, 17, 18, 0] ∧
        (runMain hw [a, s1, b, s2, c, e, x, s3, d] w).bus =
          w.bus ++ [freezeOp, regsOp w, releaseOp w, releaseOp w])) := by
  have hd := Main_idle_detect hw t0 w0 hs hchg
  refine ⟨fun hc => ?_, fun hc => ?_, fun w hw12 => ⟨⟨?_, ?_⟩, ?_, ?_, ?_⟩⟩
  · have h12 : (Si570_Main hw t1 (Si570_Main hw t0 w0)).state = 12 := by
      rw [Main_state1 hw t1 _ hd, if_pos hc]
    have e : [t0, t1, a, s1, b, s2, c, s3, d] = [t0, t1] ++ [a, s1, b, s2, c, s3, d] := rfl
    rw [e, traceMain_append]
    have e2 : runMain hw [t0, t1] w0 = Si570_Main hw t1 (Si570_Main hw t0 w0) := rfl
    rw [e2, sequencer_trace hw _ a s1 b s2 c s3 d h12 h1 h2 h3]
    simp only [traceMain, hd, h12]
    rfl
  · have h4 : (Si570_Main hw t1 (Si570_Main hw t0 w0)).state = 4 := by
      rw [Main_state1 hw t1 _ hd, if_neg hc]
    have e : [t0, t1, m1, m2, m3, m4, m5, m6, a, s1, b, s2, c, s3, d] =
        [t0, t1] ++ ([m1, m2, m3, m4, m5, m6] ++ [a, s1, b, s2, c, s3, d]) := rfl
    rw [e, traceMain_append, traceMain_append]
    have e2 : runMain hw [t0, t1] w0 = Si570_Main hw t1 (Si570_Main hw t0 w0) := rfl
    rw [e2, search_trace hw _ m1 m2 m3 m4 m5 m6 h4]
    have h12 := (search_frame hw _ m1 m2 m3 m4 m5 m6 h4).1
    rw [sequencer_trace hw _ a s1 b s2 c s3 d h12 h1 h2 h3]
    simp only [traceMain, hd, h4]
    rfl
  · exact sequencer_trace hw w a s1 b s2 c s3 d hw12 h1 h2 h3
  · rw [sequencer_run hw w a s1 b s2 c s3 d hw12 h1 h2 h3]
    rfl
  · exact sequencer_error13 hw w a e x s1 b s2 c s3 d hw12 he h1 h2 h3
  · exact sequencer_error15 hw w a s1 b e x s2 c s3 d hw12 he h1 h2 h3
  · exact sequencer_error17 hw w a s1 b s2 c e x s3 d hw12 he h1 h2 h3

theorem exRequest_full :
    ¬ smoothOk (Si570_Main hwExample 0 { powerOn with Si570_LO := 0x19 }) := by
  decide!

/-- Witness for C14: the first reprogram after power-on, for a 200 MHz
request, takes the full path and is back at idle after 15 ticks. -/
theorem C14_tick_counts_witness :
    traceMain hwExample [0, 0, 0, 0, 0, 0, 0, 0, 0, 2, 0, 2, 0, 2, 0]
        { powerOn with Si570_LO := 0x19 } =
      [1, 4, 5, 6, 7, 8, 10, 12, 13, 14, 15, 16, 17, 18, 0] :=
  (C14_tick_counts hwExample { powerOn with Si570_LO := 0x19 }
    0 0 0 0 0 0 0 0 0 2 0 2 0 2 0 0x80 0 rfl (Or.inr (by decide))
    (by decide) (by decide) (by decide) (by decide)).2.1 exRequest_full

/-! ## N1 candidate -/

theorem n1Cand_floor (hw : Hw) {fout : ℚ} {s : ℕ} (hx : 0 < fout * (s : ℚ)) :
    n1Cand hw fout s =
      if ⌊dbl hw (5260 / f32 (fout * (s : ℚ)))⌋₊ % 256 > 1 ∧
          ⌊dbl hw (5260 / f32 (fout * (s : ℚ)))⌋₊ % 256 % 2 = 1 then
        (⌊dbl hw (5260 / f32 (fout * (s : ℚ)))⌋₊ % 256 + 1) % 256
      else ⌊dbl hw (5260 / f32 (fout * (s : ℚ)))⌋₊ % 256 := by
  have hq0 : (0 : ℚ) ≤ dbl hw (5260 / f32 (fout * (s : ℚ))) :=
    dbl_nonneg hw (div_nonneg (by norm_num) (f32_nonneg hx.le))
  have hc : SI570_DCO_CENTER = 5260 := by
    norm_num [SI570_DCO_CENTER, SI570_DCO_MIN, SI570_DCO_MAX]
  have ht : toUInt 8 (dbl hw (SI570_DCO_CENTER / f32 (fout * (s : ℚ)))) =
      ⌊dbl hw (5260 / f32 (fout * (s : ℚ)))⌋₊ % 256 := by
    rw [hc, toUInt_nonneg hq0]
    norm_num
  unfold n1Cand
  simp only [ht, Nat.and_one_is_mod]
  by_cases h : ⌊dbl hw (5260 / f32 (fout * (s : ℚ)))⌋₊ % 256 > 1 ∧
      ⌊dbl hw (5260 / f32 (fout * (s : ℚ)))⌋₊ % 256 % 2 = 1
  · rw [if_pos h, if_pos ⟨h.1, by omega⟩]
  · rw [if_neg h, if_neg]
    intro h2
    exact h ⟨h2.1, by omega⟩

/-- The quotient of line 207 encloses the exact quotient within
`1 ± 2^-22`. -/
theorem quot_within (hw : Hw) {fout : ℚ} {s : ℕ} (hx : 0 < fout * (s : ℚ)) :
    within (1 - 1 / 2 ^ 22) (1 + 1 / 2 ^ 22) (dbl hw (5260 / f32 (fout * (s : ℚ))))
      (5260 / (fout * (s : ℚ))) := by
  have a := within_f32 hx.le (by norm_num) (within_refl (fout * (s : ℚ)))
  have q := within_div (by norm_num : (0 : ℚ) ≤ 5260) hx (by norm_num) (by norm_num)
    (within_refl (5260 : ℚ)) a
  have hQ : (0 : ℚ) ≤ 5260 / (fout * (s : ℚ)) := div_nonneg (by norm_num) hx.le
  have q1 := within_dbl hw hQ (by norm_num) q
  exact within_weaken hQ q1 (by norm_num) (by norm_num)

/-- A candidate is selected only when the integer part of the quotient did
not need more than 8 bits. -/
theorem selected_no_wrap (hw : Hw) {fout : ℚ} {s : ℕ} (hx : 0 < fout * (s : ℚ))
    (h128 : n1Cand hw fout s ≤ 128) (hsel : SI570_DCO_MIN < candDco hw fout s) :
    ⌊dbl hw (5260 / f32 (fout * (s : ℚ)))⌋₊ ≤ 128 ∧
    n1Cand hw fout s =
      if ⌊dbl hw (5260 / f32 (fout * (s : ℚ)))⌋₊ > 1 ∧
          ⌊dbl hw (5260 / f32 (fout * (s : ℚ)))⌋₊ % 2 = 1 then
        ⌊dbl hw (5260 / f32 (fout * (s : ℚ)))⌋₊ + 1
      else ⌊dbl hw (5260 / f32 (fout * (s : ℚ)))⌋₊ := by
  have hy : 0 < f32 (fout * (s : ℚ)) := f32_pos hx
  have hq0 : (0 : ℚ) ≤ dbl hw (5260 / f32 (fout * (s : ℚ))) :=
    dbl_nonneg hw (div_nonneg (by norm_num) hy.le)
  obtain ⟨_, q2⟩ := dbl_bounds hw (div_nonneg (by norm_num : (0 : ℚ) ≤ 5260) hy.le)
  have hfl := Nat.floor_le hq0
  have hcand := @n1Cand_floor hw fout s hx
  have hmin : (4850 : ℚ) < testDco fout s (n1Cand hw fout s) := by
    simpa [SI570_DCO_MIN, candDco] using hsel
  have hne : n1Cand hw fout s ≠ 0 := by
    intro h0
    rw [h0, testDco_zero] at hmin
    norm_num at hmin
  have hi : (n1Cand hw fout s : ℚ) ≤ 128 := by exact_mod_cast h128
  obtain ⟨_, t2⟩ := f32_bounds (mul_nonneg hy.le (Nat.cast_nonneg (n1Cand hw fout s)))
  have ht : testDco fout s (n1Cand hw fout s) ≤
      f32 (fout * (s : ℚ)) * 128 * (1 + 1 / 2 ^ 24) := by
    unfold testDco
    refine le_trans t2 ?_
    apply mul_le_mul_of_nonneg_right _ (by norm_num)
    exact mul_le_mul_of_nonneg_left hi hy.le
  generalize ⌊dbl hw (5260 / f32 (fout * (s : ℚ)))⌋₊ = f at hfl hcand ⊢
  have h1 : (f : ℚ) * f32 (fout * (s : ℚ)) ≤ 5260 * (1 + 1 / 2 ^ 24) := by
    have h2 := mul_le_mul_of_nonneg_right (le_trans hfl q2) hy.le
    have e : 5260 / f32 (fout * (s : ℚ)) * (1 + 1 / 2 ^ 24) * f32 (fout * (s : ℚ)) =
        5260 * (1 + 1 / 2 ^ 24) := by field_simp; ring
    rw [e] at h2
    exact h2
  have hf : f ≤ 254 := by
    by_contra hcon
    have hge : 255 ≤ f := by omega
    rcases Nat.lt_or_ge f 256 with hlt | hge2
    · have hf255 : f = 255 := by omega
      rw [hf255] at hcand
      norm_num at hcand
      exact hne hcand
    · have hfq : (256 : ℚ) ≤ (f : ℚ) := by exact_mod_cast hge2
      have h3 : 256 * f32 (fout * (s : ℚ)) ≤ 5260 * (1 + 1 / 2 ^ 24) :=
        le_trans (mul_le_mul_of_nonneg_right hfq hy.le) h1
      have h4 : f32 (fout * (s : ℚ)) * 128 * (1 + 1 / 2 ^ 24) ≤
          5260 * (1 + 1 / 2 ^ 24) / 2 * (1 + 1 / 2 ^ 24) := by
        apply mul_le_mul_of_nonneg_right _ (by norm_num)
        linarith
      norm_num at h4
      linarith
  have hcand2 : n1Cand hw fout s = if f > 1 ∧ f % 2 = 1 then f + 1 else f := by
    rw [hcand]
    have e1 : f % 256 = f := Nat.mod_eq_of_lt (by omega)
    rw [e1]
    by_cases hc : f > 1 ∧ f % 2 = 1
    · rw [if_pos hc, if_pos hc]
      exact Nat.mod_eq_of_lt (by omega)
    · rw [if_neg hc, if_neg hc]
  refine ⟨?_, hcand2⟩
  rw [hcand2] at h128
  split_ifs at h128 <;> omega

/-- The two outcomes of one HS_DIV candidate step: the candidate is selected,
or only the state advances. -/
theorem searchStep_cases (hw : Hw) (s : ℕ) (w : World) :
    (n1Cand hw w.fout s ≤ 128 ∧ SI570_DCO_MIN < candDco hw w.fout s ∧
      candDco hw w.fout s < w.dco ∧
      searchStep hw s w = { w with state := (s + 1) % 256, dco := candDco hw w.fout s,
                                   n1 := n1Cand hw w.fout s,
                                   hsdiv := ((s + 1) % 256 + 256 - 1) % 256 }) ∨
    (¬ (n1Cand hw w.fout s ≤ 128 ∧ SI570_DCO_MIN < candDco hw w.fout s ∧
        candDco hw w.fout s < w.dco) ∧
      searchStep hw s w = { w with state := (s + 1) % 256 }) := by
  unfold searchStep candDco
  simp only
  by_cases h128 : n1Cand hw w.fout s > 128
  · right
    rw [if_pos h128]
    exact ⟨fun h => by omega, rfl⟩
  · rw [if_neg h128]
    by_cases hacc : testDco w.fout s (n1Cand hw w.fout s) > SI570_DCO_MIN ∧
        testDco w.fout s (n1Cand hw w.fout s) < w.dco
    · left
      rw [if_pos hacc]
      exact ⟨by omega, hacc.1, hacc.2, rfl⟩
    · right
      rw [if_neg hacc]
      exact ⟨fun h => hacc ⟨h.2.1, h.2.2⟩, rfl⟩

/-- C17 (amended): for every `fout` in `[4, 160]`, every HS_DIV value `h`
tried by the search and either format of `double`, the N1 candidate computed in
`Si570_Main` comes from the quotient `q = DCO_CENTER / (fout * h)` with
`DCO_CENTER = 5260` as line 207 computes it: the product `fout * h` rounded to
single precision, the division rounded to the format of `double`; `q` is
within `2^-22` of the exact quotient, relatively.  The candidate is `q`
truncated to its integer part (not rounded to the nearest integer) and held
in 8 bits, then incremented by one when it is greater than 1 and odd.  A
candidate is selected only when the integer part of `q` is at most 128, so
that no wrap-around occurred, and a candidate greater than 128 is never
selected; on this range of `fout` the integer part is at least 2. -/
theorem C17_n1_candidate (hw : Hw) (fout : ℚ) (h : ℕ) (hlo : 4 ≤ fout) (hhi : fout ≤ 160)
    (hh : h = 4 ∨ h = 5 ∨ h = 6 ∨ h = 7 ∨ h = 9 ∨ h = 11) :
    SI570_DCO_CENTER = 5260 ∧
    n1Cand hw fout h =
      (if ⌊dbl hw (5260 / f32 (fout * (h : ℚ)))⌋₊ % 256 > 1 ∧
          ⌊dbl hw (5260 / f32 (fout * (h : ℚ)))⌋₊ % 256 % 2 = 1 then
        (⌊dbl hw (5260 / f32 (fout * (h : ℚ)))⌋₊ % 256 + 1) % 256
      else ⌊dbl hw (5260 / f32 (fout * (h : ℚ)))⌋₊ % 256) ∧
    |dbl hw (5260 / f32 (fout * (h : ℚ))) - 5260 / (fout * (h : ℚ))| ≤
      5260 / (fout * (h : ℚ)) / 2 ^ 22 ∧
    (∀ w : World, w.fout = fout → (searchStep hw h w).dco ≠ w.dco →
      ⌊dbl hw (5260 / f32 (fout * (h : ℚ)))⌋₊ ≤ 128 ∧
      (searchStep hw h w).n1 =
        (if ⌊dbl hw (5260 / f32 (fout * (h : ℚ)))⌋₊ > 1 ∧
            ⌊dbl hw (5260 / f32 (fout * (h : ℚ)))⌋₊ % 2 = 1 then
          ⌊dbl hw (5260 / f32 (fout * (h : ℚ)))⌋₊ + 1
        else ⌊dbl hw (5260 / f32 (fout * (h : ℚ)))⌋₊) ∧
      (searchStep hw h w).n1 ≤ 128) ∧
    (∀ w : World, w.fout = fout → 128 < n1Cand hw fout h →
      (searchStep hw h w).n1 = w.n1 ∧ (searchStep hw h w).hsdiv = w.hsdiv ∧
        (searchStep hw h w).dco = w.dco) ∧
    2 ≤ ⌊dbl hw (5260 / f32 (fout * (h : ℚ)))⌋₊ := by
  have hhq : (4 : ℚ) ≤ (h : ℚ) := by
    have : 4 ≤ h := by omega
    exact_mod_cast this
  have hx : 0 < fout * (h : ℚ) := by positivity
  have hwi := quot_within hw hx
  refine ⟨by norm_num [SI570_DCO_CENTER, SI570_DCO_MIN, SI570_DCO_MAX], n1Cand_floor hw hx, ?_,
    ?_, ?_, ?_⟩
  · have := within_abs hwi
    have e : ∀ x : ℚ, x / 2 ^ 22 = x * (1 / 2 ^ 22) := fun x => by ring
    rw [e]
    exact this
  · intro w hf hsel
    rcases searchStep_cases hw h w with ⟨h128, hmin, _, heq⟩ | ⟨_, heq⟩
    · rw [hf] at h128 hmin heq
      obtain ⟨k1, k2⟩ := selected_no_wrap hw hx h128 hmin
      rw [heq]
      exact ⟨k1, k2, h128⟩
    · rw [heq] at hsel
      exact absurd rfl hsel
  · intro w hf hbig
    rcases searchStep_cases hw h w with ⟨h128, _⟩ | ⟨_, heq⟩
    · rw [hf] at h128
      omega
    · rw [heq]
      exact ⟨rfl, rfl, rfl⟩
  · have hh11 : (h : ℚ) ≤ 11 := by
      have : h ≤ 11 := by omega
      exact_mod_cast this
    have hprod : fout * (h : ℚ) ≤ 160 * 11 := mul_le_mul hhi hh11 (by positivity) (by norm_num)
    apply Nat.le_floor
    refine le_trans ?_ hwi.1
    have h1 : (5260 : ℚ) / (160 * 11) ≤ 5260 / (fout * (h : ℚ)) :=
      div_le_div_of_nonneg_left (by norm_num) hx hprod
    have h2 : (5260 : ℚ) / (160 * 11) * (1 - 1 / 2 ^ 22) ≤
        5260 / (fout * (h : ℚ)) * (1 - 1 / 2 ^ 22) :=
      mul_le_mul_of_nonneg_right h1 (by norm_num)
    norm_num at h2 ⊢
    linarith

/-- Witness for C17: the candidate for `fout = 160`, `h = 7`. -/
theorem C17_n1_candidate_witness :
    n1Cand hwExample 160 7 =
      (if ⌊dbl hwExample (5260 / f32 (160 * ((7 : ℕ) : ℚ)))⌋₊ % 256 > 1 ∧
          ⌊dbl hwExample (5260 / f32 (160 * ((7 : ℕ) : ℚ)))⌋₊ % 256 % 2 = 1 then
        (⌊dbl hwExample (5260 / f32 (160 * ((7 : ℕ) : ℚ)))⌋₊ % 256 + 1) % 256
      else ⌊dbl hwExample (5260 / f32 (160 * ((7 : ℕ) : ℚ)))⌋₊ % 256) :=
  (C17_n1_candidate hwExample 160 7 (by norm_num) (by norm_num) (by decide)).2.1

/-- Counterexample to C17 as stated: for `fout = 160` and `h = 7` the
quotient is 4.70; the code keeps its integer part 4, while rounding to the
nearest integer gives 5 and, by the parity rule, 6.  Nor is the candidate the
integer part of the exact quotient: for `fout = 10213907 / 262144` and `h = 9`
the exact quotient is just below 15, with integer part 14, while the rounded
product makes the computed quotient at least 15 and the candidate 16. -/
theorem C17_counterexample :
    (4 : ℚ) ≤ 160 ∧ (160 : ℚ) ≤ 160 ∧ n1Cand hwExample 160 7 = 4 ∧ n1Cand hwHost 160 7 = 4 ∧
    n1CandRounded 160 7 = 6 ∧ (n1Cand hwExample 160 7 : ℤ) ≠ n1CandRounded 160 7 ∧
    (4 : ℚ) ≤ 10213907 / 262144 ∧ (10213907 / 262144 : ℚ) ≤ 160 ∧
    ⌊(5260 : ℚ) / (10213907 / 262144 * ((9 : ℕ) : ℚ))⌋₊ = 14 ∧
    n1Cand hwExample (10213907 / 262144) 9 = 16 ∧ n1Cand hwHost (10213907 / 262144) 9 = 16 := by
  have h1 : n1Cand hwExample 160 7 = 4 := by decide!
  have h2 : n1CandRounded 160 7 = 6 := by
    have hr : round (SI570_DCO_CENTER / ((160 : ℚ) * ((7 : ℕ) : ℚ))) = 5 := by
      rw [round_eq, Int.floor_eq_iff]
      norm_num [SI570_DCO_CENTER, SI570_DCO_MIN, SI570_DCO_MAX]
    unfold n1CandRounded
    simp only [hr]
    decide
  refine ⟨by norm_num, by norm_num, h1, by decide!, h2, ?_, by norm_num, by norm_num,
    by decide!, by decide!, by decide!⟩
  rw [h1, h2]
  decide

/-! ## The search keeps the least acceptable candidate -/

theorem bestAmong_step (hw : Hw) (w0 w : World) (P : List ℕ) (s : ℕ) (hb : bestAmong hw w0 P w)
    (hf : w.fout = w0.fout) (hP : ∀ h ∈ P, h < s) (hs : s + 1 < 256) :
    bestAmong hw w0 (P ++ [s]) (searchStep hw s w) ∧ (searchStep hw s w).fout = w0.fout := by
  have hs1 : (s + 1) % 256 = s + 1 := Nat.mod_eq_of_lt hs
  have hs2 : ((s + 1) % 256 + 256 - 1) % 256 = s := by omega
  obtain ⟨hle, hall, hsel⟩ := hb
  rcases searchStep_cases hw s w with ⟨h128, hmin, hlt, heq⟩ | ⟨hno, heq⟩
  · -- the candidate of `s` is selected
    rw [hf] at h128 hmin hlt heq
    rw [hs2] at heq
    have hok : candOk hw w0.fout s := ⟨h128, hmin, lt_of_lt_of_le hlt hle⟩
    rw [heq]
    refine ⟨⟨le_of_lt (lt_of_lt_of_le hlt hle), ?_, Or.inr ⟨?_, hok, rfl, rfl, ?_⟩⟩, rfl⟩
    · intro h hh hc
      rcases List.mem_append.1 hh with hm | hm
      · exact le_trans (le_of_lt hlt) (hall h hm hc)
      · rw [List.mem_singleton.1 hm]
    · exact List.mem_append.2 (Or.inr (List.mem_singleton.2 rfl))
    · intro h hh hc heqd
      rcases List.mem_append.1 hh with hm | hm
      · have := hall h hm hc
        have hd : candDco hw w0.fout h = candDco hw w0.fout s := heqd
        rw [hd] at this
        exact absurd hlt (not_lt.mpr this)
      · rw [List.mem_singleton.1 hm]
  · -- nothing is selected
    rw [hf] at hno
    rw [heq]
    have hnew : candOk hw w0.fout s → w.dco ≤ candDco hw w0.fout s := by
      intro hc
      by_contra hcon
      exact hno ⟨hc.1, hc.2.1, not_le.mp hcon⟩
    refine ⟨⟨hle, ?_, ?_⟩, hf⟩
    · intro h hh hc
      rcases List.mem_append.1 hh with hm | hm
      · exact hall h hm hc
      · rw [List.mem_singleton.1 hm] at hc ⊢
        exact hnew hc
    · rcases hsel with ⟨hd, hh0, hn0, hnone⟩ | ⟨hmem, hok, hn, hd, hmin⟩
      · left
        refine ⟨hd, hh0, hn0, ?_⟩
        intro h hh hc
        rcases List.mem_append.1 hh with hm | hm
        · exact hnone h hm hc
        · rw [List.mem_singleton.1 hm] at hc
          have h1 := hnew hc
          have h2 : candDco hw w0.fout s < SI570_DCO_MAX := hc.2.2
          have h3 : w.dco = SI570_DCO_MAX := hd
          rw [h3] at h1
          exact absurd h2 (not_lt.mpr h1)
      · right
        refine ⟨List.mem_append.2 (Or.inl hmem), hok, hn, hd, ?_⟩
        intro h hh hc heqd
        rcases List.mem_append.1 hh with hm | hm
        · exact hmin h hm hc heqd
        · rw [List.mem_singleton.1 hm]
          exact le_of_lt (hP _ hmem)

/-- The six ticks of the search are the six candidate steps, in order. -/
theorem search_unfold (hw : Hw) (w : World) (s1 s2 s3 s4 s5 s6 : ℕ) (hs : w.state = 4) :
    runMain hw [s1, s2, s3, s4, s5, s6] w =
      searchStep hw 11 (searchStep hw 9 (searchStep hw 7 (searchStep hw 6 (searchStep hw 5
        (searchStep hw 4 w))))) := by
  simp only [runMain]
  rw [Main_search (w := w) (Or.inl hs), hs]
  have a1 := (searchStep_frame hw 4 w).1
  rw [Main_search (Or.inr (Or.inl a1))]
  simp only [a1, Nat.reduceAdd, Nat.reduceMod]
  have a2 := (searchStep_frame hw 5 (searchStep hw 4 w)).1
  rw [Main_search (Or.inr (Or.inr (Or.inl a2)))]
  simp only [a2, Nat.reduceAdd, Nat.reduceMod]
  have a3 := (searchStep_frame hw 6 (searchStep hw 5 (searchStep hw 4 w))).1
  rw [Main_search (Or.inr (Or.inr (Or.inr a3)))]
  simp only [a3, Nat.reduceAdd, Nat.reduceMod]
  have a4 := (searchStep_frame hw 7 (searchStep hw 6 (searchStep hw 5 (searchStep hw 4 w)))).1
  rw [Main_search8 (Or.inl a4)]
  simp only [a4, Nat.reduceAdd, Nat.reduceMod]
  have a5 := (searchStep_frame hw 9 (searchStep hw 7 (searchStep hw 6 (searchStep hw 5
    (searchStep hw 4 w))))).1
  rw [Main_search8 (Or.inr a5)]
  simp only [a5, Nat.reduceAdd, Nat.reduceMod]

theorem search_best (hw : Hw) (w : World) (s1 s2 s3 s4 s5 s6 : ℕ) (hs : w.state = 4)
    (hd : w.dco = SI570_DCO_MAX) :
    bestAmong hw w [4, 5, 6, 7, 9, 11] (runMain hw [s1, s2, s3, s4, s5, s6] w) := by
  rw [search_unfold hw w s1 s2 s3 s4 s5 s6 hs]
  have b0 : bestAmong hw w [] w :=
    ⟨le_of_eq hd, fun h hh _ => absurd hh (List.not_mem_nil h),
      Or.inl ⟨hd, rfl, rfl, fun h hh _ => absurd hh (List.not_mem_nil h)⟩⟩
  obtain ⟨b1, f1⟩ := bestAmong_step hw w w [] 4 b0 rfl (by simp) (by norm_num)
  obtain ⟨b2, f2⟩ := bestAmong_step hw w _ _ 5 b1 f1 (by simp) (by norm_num)
  obtain ⟨b3, f3⟩ := bestAmong_step hw w _ _ 6 b2 f2 (by simp) (by norm_num)
  obtain ⟨b4, f4⟩ := bestAmong_step hw w _ _ 7 b3 f3 (by simp) (by norm_num)
  obtain ⟨b5, f5⟩ := bestAmong_step hw w _ _ 9 b4 f4 (by simp) (by norm_num)
  obtain ⟨b6, _⟩ := bestAmong_step hw w _ _ 11 b5 f5 (by simp) (by norm_num)
  exact b6

/-- C18 (amended): for every `fout` and either format of `double`, after the
full-path search started with `dco = 5670`, the selected `dco` is at most the
candidate value of every `h` in `{4, 5, 6, 7, 9, 11}` whose candidate is
acceptable, where the candidate value of `h` is the product `fout * h * n1(h)`
as the code computes it in single precision, `f32 (f32 (fout * h) * n1(h))`
with each multiplication rounded to 24 bits, and acceptable means
`n1(h) ≤ 128` and that value strictly between 4850 and 5670.  When some `h` is
acceptable, the selection is one of the acceptable candidates and, among those
whose computed values are equal, the one with the smallest `h`; when none is,
`dco` stays 5670 and `hsdiv` and `n1` keep their previous values. -/
theorem C18_search_minimum (hw : Hw) (w : World) (s1 s2 s3 s4 s5 s6 : ℕ) (hs : w.state = 4)
    (hd : w.dco = SI570_DCO_MAX) :
    (∀ h ∈ [4, 5, 6, 7, 9, 11], candOk hw w.fout h →
      (runMain hw [s1, s2, s3, s4, s5, s6] w).dco ≤
        f32 (f32 (w.fout * (h : ℚ)) * (n1Cand hw w.fout h : ℚ))) ∧
    ((∃ h ∈ [4, 5, 6, 7, 9, 11], candOk hw w.fout h) →
      (runMain hw [s1, s2, s3, s4, s5, s6] w).hsdiv ∈ [4, 5, 6, 7, 9, 11] ∧
      candOk hw w.fout (runMain hw [s1, s2, s3, s4, s5, s6] w).hsdiv ∧
      (runMain hw [s1, s2, s3, s4, s5, s6] w).n1 =
        n1Cand hw w.fout (runMain hw [s1, s2, s3, s4, s5, s6] w).hsdiv ∧
      (runMain hw [s1, s2, s3, s4, s5, s6] w).dco =
        f32 (f32 (w.fout * ((runMain hw [s1, s2, s3, s4, s5, s6] w).hsdiv : ℚ)) *
          ((runMain hw [s1, s2, s3, s4, s5, s6] w).n1 : ℚ)) ∧
      ∀ h ∈ [4, 5, 6, 7, 9, 11], candOk hw w.fout h →
        f32 (f32 (w.fout * (h : ℚ)) * (n1Cand hw w.fout h : ℚ)) =
          (runMain hw [s1, s2, s3, s4, s5, s6] w).dco →
        (runMain hw [s1, s2, s3, s4, s5, s6] w).hsdiv ≤ h) ∧
    ((∀ h ∈ [4, 5, 6, 7, 9, 11], ¬ candOk hw w.fout h) →
      (runMain hw [s1, s2, s3, s4, s5, s6] w).dco = 5670 ∧
      (runMain hw [s1, s2, s3, s4, s5, s6] w).hsdiv = w.hsdiv ∧
      (runMain hw [s1, s2, s3, s4, s5, s6] w).n1 = w.n1) := by
  obtain ⟨_, hall, hsel⟩ := search_best hw w s1 s2 s3 s4 s5 s6 hs hd
  refine ⟨hall, ?_, ?_⟩
  · rintro ⟨h, hh, hc⟩
    rcases hsel with ⟨_, _, _, hnone⟩ | ⟨hmem, hok, hn, hdco, hmin⟩
    · exact absurd hc (hnone h hh)
    · refine ⟨hmem, hok, hn, ?_, hmin⟩
      rw [hdco]
      unfold candDco testDco
      rw [← hn]
  · intro hnone
    rcases hsel with ⟨h1, h2, h3, _⟩ | ⟨hmem, hok, _⟩
    · exact ⟨by rw [h1]; rfl, h2, h3⟩
    · exact absurd hok (hnone _ hmem)

theorem exSearch_cand9 : candOk hwExample exSearch.fout 9 := by decide!

/-- Witness for C18: in the search for a 10 MHz target the selected `dco` is
at most the 5220 of the acceptable candidate `h = 9`. -/
theorem C18_search_minimum_witness :
    (runMain hwExample [0, 0, 0, 0, 0, 0] exSearch).dco ≤
      f32 (f32 (exSearch.fout * ((9 : ℕ) : ℚ)) * (n1Cand hwExample exSearch.fout 9 : ℚ)) :=
  (C18_search_minimum hwExample exSearch 0 0 0 0 0 0 rfl rfl).1 9 (by decide) exSearch_cand9

/-- Counterexample to C18 as stated: for `fout = 9575537 / 65536` (about
146.111 MHz) the candidates of `h = 6` (`n1 = 6`) and `h = 9` (`n1 = 4`) are
both acceptable and have the same exact value `fout * h * n1(h)`, strictly
between 4850 and 5670, yet the search keeps `h = 9`, not the smallest `h`: in
single precision the product for `h = 9` comes out below the one for `h = 6`. -/
theorem C18_counterexample :
    exSearchTie.state = 4 ∧ exSearchTie.dco = SI570_DCO_MAX ∧
    n1Cand hwExample exSearchTie.fout 6 = 6 ∧ n1Cand hwExample exSearchTie.fout 9 = 4 ∧
    exSearchTie.fout * ((6 : ℕ) : ℚ) * (n1Cand hwExample exSearchTie.fout 6 : ℚ) =
      exSearchTie.fout * ((9 : ℕ) : ℚ) * (n1Cand hwExample exSearchTie.fout 9 : ℚ) ∧
    4850 < exSearchTie.fout * ((6 : ℕ) : ℚ) * (n1Cand hwExample exSearchTie.fout 6 : ℚ) ∧
    exSearchTie.fout * ((6 : ℕ) : ℚ) * (n1Cand hwExample exSearchTie.fout 6 : ℚ) < 5670 ∧
    candOk hwExample exSearchTie.fout 6 ∧ candOk hwExample exSearchTie.fout 9 ∧
    (runMain hwExample [0, 0, 0, 0, 0, 0] exSearchTie).hsdiv = 9 ∧
    (runMain hwExample [0, 0, 0, 0, 0, 0] exSearchTie).n1 = 4 ∧
    (runMain hwExample [0, 0, 0, 0, 0, 0] exSearchTie).dco <
      f32 (f32 (exSearchTie.fout * ((6 : ℕ) : ℚ)) *
        (n1Cand hwExample exSearchTie.fout 6 : ℚ)) ∧
    (runMain hwHost [0, 0, 0, 0, 0, 0] exSearchTie).hsdiv = 9 ∧
    (runMain hwHost [0, 0, 0, 0, 0, 0] exSearchTie).n1 = 4 := by
  decide!

/-! ## Only valid divider settings reach the register write -/

theorem f32_nonpos {q : ℚ} (hq : q ≤ 0) : f32 q ≤ 0 := by
  have h := rnd_err 24 q
  rw [abs_of_nonpos hq, abs_le] at h
  have h2 := h.2
  have e : -q / 2 ^ 24 = -q * (1 / 2 ^ 24) := by ring
  rw [e] at h2
  have h3 : f32 q ≤ q * (1 - 1 / 2 ^ 24) := by
    unfold f32
    linarith
  exact le_trans h3 (mul_nonpos_of_nonpos_of_nonneg hq (by norm_num))

theorem testDco_hsdiv_zero (fout : ℚ) (i : ℕ) : testDco fout 0 i = 0 := by
  unfold testDco f32
  rw [Nat.cast_zero, mul_zero, rnd_zero, zero_mul, rnd_zero]

/-- A valid divider setting belongs to a target that is not negative. -/
theorem goodDiv_fout_nonneg {w : World} (hg : goodDiv w) : 0 ≤ w.fout := by
  obtain ⟨_, _, hd, hmin⟩ := hg
  by_contra hcon
  have hneg : w.fout ≤ 0 := le_of_lt (not_le.mp hcon)
  have h1 : f32 (w.fout * (w.hsdiv : ℚ)) ≤ 0 :=
    f32_nonpos (mul_nonpos_of_nonpos_of_nonneg hneg (Nat.cast_nonneg _))
  have h2 : testDco w.fout w.hsdiv w.n1 ≤ 0 :=
    f32_nonpos (mul_nonpos_of_nonpos_of_nonneg h1 (Nat.cast_nonneg _))
  rw [hd] at hmin
  have h3 : (4850 : ℚ) < testDco w.fout w.hsdiv w.n1 := by
    simpa [SI570_DCO_MIN] using hmin
  linarith

theorem afterLegacy_tuning (hw : Hw) (w : World) :
    (afterLegacy hw w).hsdiv = w.hsdiv ∧ (afterLegacy hw w).n1 = w.n1 ∧
    (afterLegacy hw w).dco = w.dco ∧ (afterLegacy hw w).fout = w.fout ∧
    (afterLegacy hw w).smooth = w.smooth := by
  unfold afterLegacy
  split_ifs <;> exact ⟨rfl, rfl, rfl, rfl, rfl⟩

theorem mainInv_idle (hw : Hw) (st : ℕ) (w : World) (hs : w.state = 0)
    (hd : w.hsdiv = 0 ∨ settingOk w) (hb : w.bus = [] → w.hsdiv = 0) :
    mainInv hw (Si570_Main hw st w) := by
  obtain ⟨_, _, f3, _, f5, _, _⟩ := afterLegacy_frame hw w
  obtain ⟨t1, t2, _, _, _⟩ := afterLegacy_tuning hw w
  have hd2 : (afterLegacy hw w).hsdiv = 0 ∨ settingOk (afterLegacy hw w) := by
    unfold settingOk
    rw [t1, t2]
    exact hd
  have hb2 : (afterLegacy hw w).bus = [] → (afterLegacy hw w).hsdiv = 0 := by
    rw [f3, t1]
    exact hb
  rw [Main_state0 hw st w hs]
  left
  split_ifs
  · refine ⟨Or.inr ⟨rfl, ?_⟩, hd2, hb2⟩
    unfold foutOk MIN_LO MAX_LO
    exact ⟨le_min (le_max_right _ _) (by norm_num), min_le_right _ _⟩
  · exact ⟨Or.inl (by rw [f5, hs]), hd2, hb2⟩

theorem mainInv_state1 (hw : Hw) (st : ℕ) (w : World) (hs : w.state = 1) (hf : foutOk w)
    (hd : w.hsdiv = 0 ∨ settingOk w) :
    mainInv hw (Si570_Main hw st w) := by
  rw [Main_state1 hw st w hs]
  by_cases hc : smoothOk w
  · rw [if_pos hc]
    right; right; left
    obtain ⟨c1, c2, _⟩ := hc
    have hset : settingOk w := by
      rcases hd with h0 | h
      · rw [h0, testDco_hsdiv_zero] at c1
        norm_num [SI570_DCO_MIN] at c1
      · exact h
    exact ⟨rfl, ⟨hset.1, hset.2, rfl, c1⟩, c2⟩
  · rw [if_neg hc]
    right; left
    refine ⟨Or.inl rfl, hf, ⟨le_refl _, fun h => absurd h (lt_irrefl _)⟩, Or.inr ?_⟩
    have hex := @exists_candOk hw w.fout (by simpa [MIN_LO] using hf.1)
      (by simpa [MAX_LO] using hf.2)
    show ∃ h ∈ searchRest 4, candOk hw w.fout h
    rcases hex with h | h | h | h
    · exact ⟨4, by decide, h⟩
    · exact ⟨6, by decide, h⟩
    · exact ⟨7, by decide, h⟩
    · exact ⟨11, by decide, h⟩

theorem search_advance (hw : Hw) {h : ℕ} (hh : h = 4 ∨ h = 5 ∨ h = 6 ∨ h = 7 ∨ h = 9 ∨ h = 11)
    {w : World} (hi : searchInv w) (hf : foutOk w) (rest : List ℕ)
    (hc : w.dco < SI570_DCO_MAX ∨ ∃ k ∈ h :: rest, candOk hw w.fout k) :
    (searchStep hw h w).state = h + 1 ∧ foutOk (searchStep hw h w) ∧ searchInv (searchStep hw h w) ∧
    ((searchStep hw h w).dco < SI570_DCO_MAX ∨ ∃ k ∈ rest, candOk hw (searchStep hw h w).fout k) := by
  obtain ⟨a, f, _, i, d, c⟩ := searchStep_spec hw hh hi
  refine ⟨a, ?_, i, ?_⟩
  · unfold foutOk
    rw [f]
    exact hf
  · rcases hc with hlt | ⟨k, hk, hok⟩
    · exact Or.inl (lt_of_le_of_lt d hlt)
    · rcases List.mem_cons.1 hk with hkh | hkr
      · rw [hkh] at hok
        exact Or.inl (c hok)
      · right
        rw [f]
        exact ⟨k, hkr, hok⟩

theorem mainInv_search (hw : Hw) (st : ℕ) (w : World)
    (hs : w.state = 4 ∨ w.state = 5 ∨ w.state = 6 ∨ w.state = 7 ∨ w.state = 8 ∨ w.state = 10)
    (hf : foutOk w) (hi : searchInv w)
    (hc : w.dco < SI570_DCO_MAX ∨ ∃ h ∈ searchRest w.state, candOk hw w.fout h) :
    mainInv hw (Si570_Main hw st w) := by
  rcases hs with h | h | h | h | h | h
  · rw [Main_search (Or.inl h), h]
    rw [h] at hc
    obtain ⟨a, f, i, c⟩ := search_advance hw (h := 4) (by decide) hi hf [5, 6, 7, 9, 11] hc
    right; left
    refine ⟨Or.inr (Or.inl a), f, i, ?_⟩
    rw [a]
    exact c
  · rw [Main_search (Or.inr (Or.inl h)), h]
    rw [h] at hc
    obtain ⟨a, f, i, c⟩ := search_advance hw (h := 5) (by decide) hi hf [6, 7, 9, 11] hc
    right; left
    refine ⟨Or.inr (Or.inr (Or.inl a)), f, i, ?_⟩
    rw [a]
    exact c
  · rw [Main_search (Or.inr (Or.inr (Or.inl h))), h]
    rw [h] at hc
    obtain ⟨a, f, i, c⟩ := search_advance hw (h := 6) (by decide) hi hf [7, 9, 11] hc
    right; left
    refine ⟨Or.inr (Or.inr (Or.inr (Or.inl a))), f, i, ?_⟩
    rw [a]
    exact c
  · rw [Main_search (Or.inr (Or.inr (Or.inr h))), h]
    rw [h] at hc
    obtain ⟨a, f, i, c⟩ := search_advance hw (h := 7) (by decide) hi hf [9, 11] hc
    right; left
    refine ⟨Or.inr (Or.inr (Or.inr (Or.inr (Or.inl a)))), f, i, ?_⟩
    rw [a]
    exact c
  · rw [Main_search8 (Or.inl h), h]
    rw [h] at hc
    obtain ⟨a, f, i, c⟩ := search_advance hw (h := 9) (by decide) hi hf [11] hc
    right; left
    refine ⟨Or.inr (Or.inr (Or.inr (Or.inr (Or.inr a)))), f, i, ?_⟩
    rw [a]
    exact c
  · rw [Main_search8 (Or.inr h), h]
    rw [h] at hc
    obtain ⟨a, _, i, c⟩ := search_advance hw (h := 11) (by decide) hi hf [] hc
    have hlt : (searchStep hw 11 w).dco < SI570_DCO_MAX := by
      rcases c with c | ⟨k, hk, _⟩
      · exact c
      · exact absurd hk (List.not_mem_nil k)
    right; right; left
    exact ⟨a, i.2 hlt, hlt⟩

theorem mainInv_sequence (hw : Hw) (st : ℕ) (w : World)
    (hs : w.state = 12 ∨ w.state = 13 ∨ w.state = 14 ∨ w.state = 15 ∨ w.state = 16 ∨
      w.state = 17 ∨ w.state = 18)
    (hg : goodDiv w) (hd : w.dco < SI570_DCO_MAX) (hb : w.state ≠ 12 → w.bus ≠ []) :
    mainInv hw (Si570_Main hw st w) := by
  have hne : ∀ (l : List BusOp) (o : BusOp), l ++ [o] ≠ [] := by
    intro l o h
    have := congrArg List.length h
    simp at this
  rcases hs with h | h | h | h | h | h | h
  · rw [Main_state12 hw st w h]
    right; right; right
    exact ⟨Or.inl rfl, hg, hd, hne _ _⟩
  · have hbus := hb (by omega)
    rw [Main_await hw st w (Or.inl h)]
    split_ifs
    · right; right; left
      exact ⟨by show w.state - 1 = 12; omega, hg, hd⟩
    · right; right; right
      exact ⟨Or.inr (Or.inl (by show w.state + 1 = 14; omega)), hg, hd, hbus⟩
    · right; right; right
      exact ⟨Or.inl h, hg, hd, hbus⟩
  · rw [Main_state14 hw st w h]
    right; right; right
    exact ⟨Or.inr (Or.inr (Or.inl rfl)), hg, hd, hne _ _⟩
  · have hbus := hb (by omega)
    rw [Main_await hw st w (Or.inr (Or.inl h))]
    right; right; right
    split_ifs
    · exact ⟨Or.inr (Or.inl (by show w.state - 1 = 14; omega)), hg, hd, hbus⟩
    · exact ⟨Or.inr (Or.inr (Or.inr (Or.inl (by show w.state + 1 = 16; omega)))), hg, hd, hbus⟩
    · exact ⟨Or.inr (Or.inr (Or.inl h)), hg, hd, hbus⟩
  · rw [Main_state16 hw st w h]
    right; right; right
    exact ⟨Or.inr (Or.inr (Or.inr (Or.inr (Or.inl rfl)))), hg, hd, hne _ _⟩
  · have hbus := hb (by omega)
    rw [Main_await hw st w (Or.inr (Or.inr h))]
    right; right; right
    split_ifs
    · exact ⟨Or.inr (Or.inr (Or.inr (Or.inl (by show w.state - 1 = 16; omega)))), hg, hd, hbus⟩
    · exact ⟨Or.inr (Or.inr (Or.inr (Or.inr (Or.inr (by show w.state + 1 = 18; omega))))),
        hg, hd, hbus⟩
    · exact ⟨Or.inr (Or.inr (Or.inr (Or.inr (Or.inl h)))), hg, hd, hbus⟩
  · have hbus := hb (by omega)
    rw [Main_state18 hw st w h]
    left
    exact ⟨Or.inl rfl, Or.inr ⟨hg.1, hg.2.1⟩, fun hnil => absurd hnil hbus⟩

/-- Every call of `Si570_Main` preserves the invariant. -/
theorem mainInv_step (hw : Hw) (st : ℕ) (w : World) (h : mainInv hw w) :
    mainInv hw (Si570_Main hw st w) := by
  rcases h with ⟨h01, hd, hb⟩ | ⟨hs, hf, hi, hc⟩ | ⟨hs, hg, hd⟩ | ⟨hs, hg, hd, hb⟩
  · rcases h01 with h0 | ⟨h1, hf⟩
    · exact mainInv_idle hw st w h0 hd hb
    · exact mainInv_state1 hw st w h1 hf hd
  · exact mainInv_search hw st w hs hf hi hc
  · exact mainInv_sequence hw st w (Or.inl hs) hg hd (fun hne => absurd hs hne)
  · exact mainInv_sequence hw st w (Or.inr hs) hg hd (fun _ => hb)

/-- The invariant holds in every state reached from power-on, whatever the
environment writes between the ticks. -/
theorem mainInv_run (hw : Hw) :
    ∀ (es : List Env) (w : World), mainInv hw w → mainInv hw (runEnv hw es w) := by
  intro es
  induction es with
  | nil => intro w h; exact h
  | cons e es ih =>
    intro w h
    have h2 : mainInv hw { w with Si570_LO := e.lo, Si570_Xtal := e.xtal, Si570_OLD := e.old } := h
    exact ih _ (mainInv_step hw e.status _ h2)

theorem mainInv_powerOn (hw : Hw) : mainInv hw powerOn :=
  Or.inl ⟨Or.inl rfl, Or.inl rfl, fun _ => rfl⟩

/-- C19 (amended): starting from the power-on state of `Si570_Main` (state 0,
`hsdiv = 0`, `dco = 0`), for either format of `double`, every sequence of
values written to `Si570_LO`, `Si570_Xtal` and `Si570_OLD` between the ticks
and every sequence of bus statuses, whenever the machine is about to issue the
7-byte register write (state 14) the values satisfy `hsdiv` in
`{4, 5, 6, 7, 9, 11}`, `n1` equal to 1 or even and at most 128, and
`4850 < dco < 5670`, where `dco` is the product `fout * hsdiv * n1` as the
code computes it in single precision, each of the two multiplications rounded
to 24 bits: it is within `2^-22` of the exact product, relatively, and in
general not equal to it; and a reprogram started before any bus write has been
made (the first after power-on) takes the full path. -/
theorem C19_only_valid_settings_written (hw : Hw) (es : List Env) :
    ((runEnv hw es powerOn).state = 14 →
      ((runEnv hw es powerOn).hsdiv = 4 ∨ (runEnv hw es powerOn).hsdiv = 5 ∨
        (runEnv hw es powerOn).hsdiv = 6 ∨ (runEnv hw es powerOn).hsdiv = 7 ∨
        (runEnv hw es powerOn).hsdiv = 9 ∨ (runEnv hw es powerOn).hsdiv = 11) ∧
      ((runEnv hw es powerOn).n1 = 1 ∨
        ((runEnv hw es powerOn).n1 % 2 = 0 ∧ (runEnv hw es powerOn).n1 ≤ 128)) ∧
      (runEnv hw es powerOn).dco =
        f32 (f32 ((runEnv hw es powerOn).fout * ((runEnv hw es powerOn).hsdiv : ℚ)) *
          ((runEnv hw es powerOn).n1 : ℚ)) ∧
      |(runEnv hw es powerOn).dco -
          (runEnv hw es powerOn).fout * ((runEnv hw es powerOn).hsdiv : ℚ) *
            ((runEnv hw es powerOn).n1 : ℚ)| ≤
        (runEnv hw es powerOn).fout * ((runEnv hw es powerOn).hsdiv : ℚ) *
            ((runEnv hw es powerOn).n1 : ℚ) / 2 ^ 22 ∧
      4850 < (runEnv hw es powerOn).dco ∧ (runEnv hw es powerOn).dco < 5670) ∧
    ((runEnv hw es powerOn).state = 1 → (runEnv hw es powerOn).bus = [] →
      ∀ st : ℕ, (Si570_Main hw st (runEnv hw es powerOn)).state = 4 ∧
        (Si570_Main hw st (runEnv hw es powerOn)).smooth = 0) := by
  have hinv := mainInv_run hw es powerOn (mainInv_powerOn hw)
  generalize runEnv hw es powerOn = w at hinv ⊢
  constructor
  · intro h14
    rcases hinv with ⟨h01, _⟩ | ⟨hs, _⟩ | ⟨hs, _⟩ | ⟨_, hg, hd, _⟩
    · rcases h01 with h | ⟨h, _⟩ <;> omega
    · omega
    · omega
    · have hf0 := goodDiv_fout_nonneg hg
      obtain ⟨g1, g2, g3, g4⟩ := hg
      refine ⟨g1, ?_, g3, ?_, by simpa [SI570_DCO_MIN] using g4,
        by simpa [SI570_DCO_MAX] using hd⟩
      · rcases g2 with h | ⟨h, _, h2⟩
        · exact Or.inl h
        · exact Or.inr ⟨h, h2⟩
      · rw [g3]
        exact testDco_err hf0 _ _
  · intro h1 hbus st
    rcases hinv with ⟨_, _, hb⟩ | ⟨hs, _⟩ | ⟨hs, _⟩ | ⟨hs, _⟩
    · have h0 := hb hbus
      have hc : ¬ smoothOk w := by
        intro hsm
        have := hsm.1
        rw [h0, testDco_hsdiv_zero] at this
        norm_num [SI570_DCO_MIN] at this
      rw [Main_state1 hw st w h1, if_neg hc]
      exact ⟨rfl, rfl⟩
    · omega
    · omega
    · omega

/-- With no legacy request pending, a tick leaves the three request variables
as it found them. -/
theorem Main_quiet (hw : Hw) (st : ℕ) (w : World) (h : w.Si570_OLD.r0 = 0) :
    (Si570_Main hw st w).Si570_LO = w.Si570_LO ∧
    (Si570_Main hw st w).Si570_Xtal = w.Si570_Xtal ∧
    (Si570_Main hw st w).Si570_OLD = w.Si570_OLD := by
  by_cases hs : w.state = 0
  · obtain ⟨a, b⟩ := Main_state0_fields hw st w hs
    rw [afterLegacy_none hw w h] at a b
    exact ⟨a, (Main_frame hw st w).2, b⟩
  · obtain ⟨_, _, o, l, x⟩ := Main_busy_frame hw st w hs
    exact ⟨l, x, o⟩

/-- When the environment writes nothing new, a run against it is a plain run
of `Si570_Main`. -/
theorem runEnv_quiet (hw : Hw) :
    ∀ (sts : List ℕ) (w : World) (lo xtal : ℕ) (old : Reg6), w.Si570_LO = lo →
      w.Si570_Xtal = xtal → w.Si570_OLD = old → old.r0 = 0 →
      runEnv hw (sts.map (fun s => ⟨lo, xtal, old, s⟩)) w = runMain hw sts w := by
  intro sts
  induction sts with
  | nil => intro w lo xtal old _ _ _ _; rfl
  | cons s sts ih =>
    intro w lo xtal old h1 h2 h3 h0
    have hstep : envStep hw ⟨lo, xtal, old, s⟩ w = Si570_Main hw s w := by
      unfold envStep
      simp only
      rw [← h1, ← h2, ← h3]
    show runEnv hw (sts.map (fun s => ⟨lo, xtal, old, s⟩)) (envStep hw ⟨lo, xtal, old, s⟩ w) = _
    rw [hstep]
    obtain ⟨q1, q2, q3⟩ := Main_quiet hw s w (by rw [h3]; exact h0)
    exact ih _ lo xtal old (by rw [q1, h1]) (by rw [q2, h2]) (by rw [q3, h3]) h0

theorem exRun_state : (runEnv hwExample exRun powerOn).state = 14 := by
  have e0 : runEnv hwExample exRun powerOn = runEnv hwExample exRun exRequest := rfl
  have e1 : runEnv hwExample exRun exRequest =
      runMain hwExample [0, 0, 0, 0, 0, 0, 0, 0, 0, 2] exRequest :=
    runEnv_quiet hwExample _ exRequest 0x19 0 ⟨0, 0, 0, 0, 0, 0⟩ rfl rfl rfl rfl
  have e2 : runMain hwExample [0, 0, 0, 0, 0, 0, 0, 0, 0, 2] exRequest =
      runMain hwExample [0, 2] (runMain hwExample [0, 0, 0, 0, 0, 0]
        (Si570_Main hwExample 0 (Si570_Main hwExample 0 exRequest))) := rfl
  rw [e0, e1, e2]
  have h1 : (Si570_Main hwExample 0 exRequest).state = 1 := by decide
  have hns : ¬ smoothOk (Si570_Main hwExample 0 exRequest) := by
    intro h
    have h0 : (Si570_Main hwExample 0 exRequest).hsdiv = 0 := by decide
    have h2 := h.1
    rw [h0, testDco_hsdiv_zero] at h2
    norm_num [SI570_DCO_MIN] at h2
  have h4 : (Si570_Main hwExample 0 (Si570_Main hwExample 0 exRequest)).state = 4 := by
    rw [Main_state1 hwExample 0 _ h1, if_neg hns]
  have h12 := (search_frame hwExample _ 0 0 0 0 0 0 h4).1
  generalize runMain hwExample [0, 0, 0, 0, 0, 0]
    (Si570_Main hwExample 0 (Si570_Main hwExample 0 exRequest)) = w at h12 ⊢
  show (Si570_Main hwExample 2 (Si570_Main hwExample 0 w)).state = 14
  rw [Main_state12 hwExample 0 w h12, Main_await_done hwExample 2 _ (Or.inl rfl) (by decide)]

/-- Witness for C19: ten ticks after power-on with a 200 MHz request the
machine is at state 14 with a DCO frequency inside the range. -/
theorem C19_only_valid_settings_written_witness :
    (runEnv hwExample exRun powerOn).state = 14 ∧
    4850 < (runEnv hwExample exRun powerOn).dco ∧ (runEnv hwExample exRun powerOn).dco < 5670 :=
  ⟨exRun_state, ((C19_only_valid_settings_written hwExample exRun).1 exRun_state).2.2.2.2⟩

/-- Counterexample to C19 as stated: ten ticks after power-on with the request
word `0x0A9C4001` the machine is at state 14, about to issue the register
write, with `hsdiv = 9`, `n1 = 58` and `dco = 5229.94287109375`, which is not
`fout * hsdiv * n1`. -/
theorem C19_counterexample :
    (runEnv hwExample exRunOdd powerOn).state = 14 ∧
    (runEnv hwExample exRunOdd powerOn).fout = 10505733 / 1048576 ∧
    (runEnv hwExample exRunOdd powerOn).hsdiv = 9 ∧
    (runEnv hwExample exRunOdd powerOn).n1 = 58 ∧
    (runEnv hwExample exRunOdd powerOn).dco = 10710923 / 2048 ∧
    (runEnv hwExample exRunOdd powerOn).dco ≠
      (runEnv hwExample exRunOdd powerOn).fout * ((runEnv hwExample exRunOdd powerOn).hsdiv : ℚ) *
        ((runEnv hwExample exRunOdd powerOn).n1 : ℚ) ∧
    (runEnv hwHost exRunOdd powerOn).state = 14 ∧
    (runEnv hwHost exRunOdd powerOn).dco ≠
      (runEnv hwHost exRunOdd powerOn).fout * ((runEnv hwHost exRunOdd powerOn).hsdiv : ℚ) *
        ((runEnv hwHost exRunOdd powerOn).n1 : ℚ) := by
  decide!

/-! ## The split of `rfreq` does not round -/

/-- A non-negative `float` is a natural number below `2^24` times a power of
two. -/
theorem f32_form {q : ℚ} (hq : 0 ≤ q) (hf : f32 q = q) :
    ∃ (M : ℕ) (u : ℤ), M < 2 ^ 24 ∧ q = (M : ℚ) * 2 ^ u := by
  rcases eq_or_lt_of_le hq with h0 | hpos
  · exact ⟨0, 0, by norm_num, by rw [← h0]; simp⟩
  have hne : q ≠ 0 := ne_of_gt hpos
  obtain ⟨_, s2⟩ := ilog2_spec q hne
  rw [abs_of_pos hpos] at s2
  have hs : (0 : ℚ) < (2 : ℚ) ^ ulpExp 24 q := two_zpow_pos _
  have hrep : (roundEven (q / 2 ^ ulpExp 24 q) : ℚ) * 2 ^ ulpExp 24 q = q := hf
  have hMq : (roundEven (q / 2 ^ ulpExp 24 q) : ℚ) = q / 2 ^ ulpExp 24 q := by
    rw [eq_div_iff (ne_of_gt hs)]
    exact hrep
  have e2 : (2 : ℚ) ^ (ilog2 q + 1) = 2 ^ (24 : ℕ) * 2 ^ ulpExp 24 q := by
    unfold ulpExp
    rw [← zpow_natCast, ← zpow_add₀ (by norm_num : (2 : ℚ) ≠ 0)]
    congr 1
    push_cast
    ring
  have hlt : (roundEven (q / 2 ^ ulpExp 24 q) : ℚ) < 2 ^ (24 : ℕ) := by
    rw [hMq, div_lt_iff₀ hs, ← e2]
    exact s2
  have hnn : (0 : ℚ) ≤ (roundEven (q / 2 ^ ulpExp 24 q) : ℚ) := by
    rw [hMq]
    exact div_nonneg hq hs.le
  have hnnZ : (0 : ℤ) ≤ roundEven (q / 2 ^ ulpExp 24 q) := by exact_mod_cast hnn
  have hltZ : roundEven (q / 2 ^ ulpExp 24 q) < 2 ^ (24 : ℕ) := by exact_mod_cast hlt
  refine ⟨(roundEven (q / 2 ^ ulpExp 24 q)).toNat, ulpExp 24 q, ?_, ?_⟩
  · have := Int.toNat_of_nonneg hnnZ
    omega
  · have hc : (((roundEven (q / 2 ^ ulpExp 24 q)).toNat : ℕ) : ℚ) =
        (roundEven (q / 2 ^ ulpExp 24 q) : ℚ) := by
      have := Int.toNat_of_nonneg hnnZ
      exact_mod_cast this
    rw [hc]
    exact hrep.symm

/-- The fractional part of a non-negative `float` is a `float`, and so is
its product by a power of two. -/
theorem f32_frac {q : ℚ} (hq : 0 ≤ q) (hf : f32 q = q) (k : ℕ) :
    f32 ((q - (⌊q⌋₊ : ℚ)) * 2 ^ k) = (q - (⌊q⌋₊ : ℚ)) * 2 ^ k := by
  obtain ⟨M, u, hM, e⟩ := f32_form hq hf
  have h2 : (2 : ℚ) ≠ 0 := by norm_num
  rcases le_or_lt 0 u with hu | hu
  · -- `q` is a natural number
    obtain ⟨m, hm⟩ := Int.eq_ofNat_of_zero_le hu
    have eq : q = ((M * 2 ^ m : ℕ) : ℚ) := by
      rw [e, hm, zpow_natCast]
      push_cast
      ring
    have efl : ⌊q⌋₊ = M * 2 ^ m := by
      rw [eq]
      exact Nat.floor_natCast _
    rw [efl, ← eq, sub_self, zero_mul]
    exact rnd_zero 24
  · -- `q = M / 2^n` with `n > 0`
    have hn : u = -((-u).toNat : ℤ) := by
      have := Int.toNat_of_nonneg (by omega : (0 : ℤ) ≤ -u)
      omega
    generalize (-u).toNat = n at hn
    have eq : q = (M : ℚ) / ((2 ^ n : ℕ) : ℚ) := by
      rw [e, hn, zpow_neg, zpow_natCast]
      push_cast
      ring
    have efl : ⌊q⌋₊ = M / 2 ^ n := by
      rw [eq]
      exact Nat.floor_div_eq_div M (2 ^ n)
    have hpos : (0 : ℚ) < ((2 ^ n : ℕ) : ℚ) := by positivity
    have hdm := Nat.div_add_mod M (2 ^ n)
    have hdmq : ((2 ^ n : ℕ) : ℚ) * ((M / 2 ^ n : ℕ) : ℚ) + ((M % 2 ^ n : ℕ) : ℚ) = (M : ℚ) := by
      exact_mod_cast hdm
    have hfrac : q - (⌊q⌋₊ : ℚ) = ((M % 2 ^ n : ℕ) : ℚ) * 2 ^ u := by
      rw [efl, eq, hn, zpow_neg, zpow_natCast]
      push_cast at hdmq ⊢
      field_simp
      linarith
    have hr : M % 2 ^ n < 2 ^ 24 := lt_of_le_of_lt (Nat.mod_le _ _) hM
    have hcomb : (q - (⌊q⌋₊ : ℚ)) * 2 ^ k = (((M % 2 ^ n : ℕ) : ℤ) : ℚ) * 2 ^ (u + (k : ℤ)) := by
      rw [hfrac, zpow_add₀ h2, zpow_natCast, Int.cast_natCast, mul_assoc]
    rw [hcomb]
    unfold f32
    apply rnd_repr
    rw [abs_of_nonneg (Int.natCast_nonneg _)]
    exact_mod_cast hr

/-- Lines 166-167: for a `float` value `rfreq` in `[0, 65536)` the conversion
of `rfreqint` back to `float`, the difference `rfreq - rfreqint` and its
product by `0x10000000` are `float` numbers, so none of the three `float`
operations rounds and `rfreqSplit` gives the values the code computes. -/
theorem rfreqSplit_exact {rfreq : ℚ} (h0 : 0 ≤ rfreq) (h1 : rfreq < 65536)
    (hf : f32 rfreq = rfreq) :
    f32 ((rfreqSplit rfreq).1 : ℚ) = ((rfreqSplit rfreq).1 : ℚ) ∧
    f32 (rfreq - ((rfreqSplit rfreq).1 : ℚ)) = rfreq - ((rfreqSplit rfreq).1 : ℚ) ∧
    f32 (f32 (rfreq - ((rfreqSplit rfreq).1 : ℚ)) * 0x10000000) =
      (rfreq - ((rfreqSplit rfreq).1 : ℚ)) * 0x10000000 ∧
    (rfreqSplit rfreq).2 =
      toUInt 32 (f32 (f32 (rfreq - f32 ((rfreqSplit rfreq).1 : ℚ)) * 0x10000000)) := by
  have hk : toUInt 16 rfreq = ⌊rfreq⌋₊ := toUInt_floor h0 (by norm_num; exact h1)
  have hk3 : ⌊rfreq⌋₊ < 65536 := (Nat.floor_lt h0).2 (by exact_mod_cast h1)
  have e1 : (rfreqSplit rfreq).1 = ⌊rfreq⌋₊ := by
    unfold rfreqSplit
    exact hk
  have a1 : f32 ((⌊rfreq⌋₊ : ℕ) : ℚ) = ((⌊rfreq⌋₊ : ℕ) : ℚ) :=
    f32_natCast _ (by omega)
  have a2 : f32 (rfreq - ((⌊rfreq⌋₊ : ℕ) : ℚ)) = rfreq - ((⌊rfreq⌋₊ : ℕ) : ℚ) := by
    have := f32_frac h0 hf 0
    simpa using this
  have a3 : f32 ((rfreq - ((⌊rfreq⌋₊ : ℕ) : ℚ)) * 0x10000000) =
      (rfreq - ((⌊rfreq⌋₊ : ℕ) : ℚ)) * 0x10000000 := by
    have := f32_frac h0 hf 28
    norm_num at this ⊢
    exact this
  rw [e1]
  refine ⟨a1, a2, by rw [a2, a3], ?_⟩
  rw [a1, a2, a3]
  unfold rfreqSplit
  simp only [hk]

/-- The `rfreq` of state 14 is a `float`, so `rfreqSplit` applies to it
without rounding whenever it is below 65536. -/
theorem rfreqCalc_float {dco : ℚ} (hd : 0 ≤ dco) (xtal : ℕ) :
    0 ≤ rfreqCalc dco xtal ∧ f32 (rfreqCalc dco xtal) = rfreqCalc dco xtal := by
  have hx : 0 ≤ dco / f32 (f32 (swap32 xtal : ℚ) / 0x01000000) :=
    div_nonneg hd (f32_nonneg (div_nonneg (f32_nonneg (Nat.cast_nonneg _)) (by norm_num)))
  unfold rfreqCalc
  exact ⟨f32_nonneg hx, f32_idem hx⟩

end Si570
